import Mathlib

/-!
# Verification of the uRing crawler core

Shallow embedding of the uRing repository (Rust) in Lean 4, together with
proofs that settle the frozen claims about its specification.

Conventions of the embedding:
* Rust `usize`/counters become `Nat`; `f64` percentage arithmetic of the
  circuit breaker is modelled exactly over `ℚ` (the comparisons the code
  performs are exact at these magnitudes).
* Rust `HashMap`/`HashSet` become association lists that keep the first
  insertion position of every key (value updates in place); iteration order
  of the model is this insertion order, which is one of the arbitrary orders
  a Rust hash table may produce — in particular it is *not* sorted.
* Byte strings are `List Nat` (each element < 256); SHA-256 is implemented
  in full, as in the `sha2` crate used by the source.
* Fallible code returns `Option`/`Except`.
-/

namespace URing

/-! ## Bytes, hex, UTF-8 (models of `hex::encode` and Rust string bytes) -/

/-- Lower-case hex digit for a value < 16. -/
def hexDigit (n : Nat) : Char :=
  if n < 10 then Char.ofNat (48 + n) else Char.ofNat (87 + n)

/-- Model of `hex::encode`: lower-case hex of a byte list. -/
def hexEncode (bs : List Nat) : String :=
  String.mk (bs.flatMap fun b => [hexDigit ((b / 16) % 16), hexDigit (b % 16)])

/-- UTF-8 encoding of one scalar value (as in Rust `str::as_bytes`). -/
def utf8Char (c : Char) : List Nat :=
  let v := c.toNat
  if v < 128 then [v]
  else if v < 2048 then [192 ||| (v >>> 6), 128 ||| (v &&& 63)]
  else if v < 65536 then
    [224 ||| (v >>> 12), 128 ||| ((v >>> 6) &&& 63), 128 ||| (v &&& 63)]
  else
    [240 ||| (v >>> 18), 128 ||| ((v >>> 12) &&& 63),
     128 ||| ((v >>> 6) &&& 63), 128 ||| (v &&& 63)]

/-- The UTF-8 bytes of a string (Rust `str::as_bytes`). -/
def strBytes (s : String) : List Nat :=
  s.data.flatMap utf8Char

/-! ## SHA-256 (model of the `sha2` crate's `Sha256`) -/

/-- Truncate to 32 bits. -/
def u32 (x : Nat) : Nat := x % 4294967296

/-- 32-bit right rotation (operand assumed < 2^32). -/
def rotr32 (n x : Nat) : Nat := u32 ((x >>> n) ||| (x <<< (32 - n)))

/-- 32-bit addition. -/
def add32 (a b : Nat) : Nat := (a + b) % 4294967296

def bigSigma0 (x : Nat) : Nat := (rotr32 2 x) ^^^ (rotr32 13 x) ^^^ (rotr32 22 x)

def bigSigma1 (x : Nat) : Nat := (rotr32 6 x) ^^^ (rotr32 11 x) ^^^ (rotr32 25 x)

def smallSigma0 (x : Nat) : Nat := (rotr32 7 x) ^^^ (rotr32 18 x) ^^^ (x >>> 3)

def smallSigma1 (x : Nat) : Nat := (rotr32 17 x) ^^^ (rotr32 19 x) ^^^ (x >>> 10)

/-- SHA-256 round constants. -/
def sha256K : List Nat :=
  [1116352408, 1899447441, 3049323471, 3921009573, 961987163,
   1508970993, 2453635748, 2870763221, 3624381080, 310598401,
   607225278, 1426881987, 1925078388, 2162078206, 2614888103,
   3248222580, 3835390401, 4022224774, 264347078, 604807628,
   770255983, 1249150122, 1555081692, 1996064986, 2554220882,
   2821834349, 2952996808, 3210313671, 3336571891, 3584528711,
   113926993, 338241895, 666307205, 773529912, 1294757372,
   1396182291, 1695183700, 1986661051, 2177026350, 2456956037,
   2730485921, 2820302411, 3259730800, 3345764771, 3516065817,
   3600352804, 4094571909, 275423344, 430227734, 506948616,
   659060556, 883997877, 958139571, 1322822218, 1537002063,
   1747873779, 1955562222, 2024104815, 2227730452, 2361852424,
   2428436474, 2756734187, 3204031479, 3329325298]

/-- SHA-256 initial hash state. -/
def sha256H0 : List Nat :=
  [1779033703, 3144134277, 1013904242, 2773480762,
   1359893119, 2600822924, 528734635, 1541459225]

/-- Big-endian 32-bit words from bytes (groups of 4). -/
def beWords : List Nat → List Nat
  | a :: b :: c :: d :: rest => (((a * 256 + b) * 256 + c) * 256 + d) :: beWords rest
  | _ => []

/-- 8-byte big-endian encoding of a (64-bit) length. -/
def be8Bytes (n : Nat) : List Nat :=
  [(n >>> 56) &&& 255, (n >>> 48) &&& 255, (n >>> 40) &&& 255, (n >>> 32) &&& 255,
   (n >>> 24) &&& 255, (n >>> 16) &&& 255, (n >>> 8) &&& 255, n &&& 255]

/-- 4-byte big-endian encoding of a 32-bit word. -/
def be4Bytes (n : Nat) : List Nat :=
  [(n >>> 24) &&& 255, (n >>> 16) &&& 255, (n >>> 8) &&& 255, n &&& 255]

/-- SHA-256 message padding. -/
def sha256Pad (msg : List Nat) : List Nat :=
  let L := msg.length
  let z := (119 - (L % 64)) % 64
  msg ++ 128 :: List.replicate z 0 ++ be8Bytes (8 * L)

/-- One step of the message-schedule extension; `w` holds the words produced
so far, most recent first. -/
def scheduleStep (w : List Nat) : Nat :=
  add32 (add32 (smallSigma1 (w.getD 1 0)) (w.getD 6 0))
        (add32 (smallSigma0 (w.getD 14 0)) (w.getD 15 0))

/-- Extend the schedule by `k` further words (accumulator is reversed). -/
def extendSchedule : Nat → List Nat → List Nat
  | 0, acc => acc.reverse
  | k + 1, acc => extendSchedule k (scheduleStep acc :: acc)

/-- The 64-word message schedule of one block. -/
def buildSchedule (w16 : List Nat) : List Nat :=
  extendSchedule 48 w16.reverse

/-- One SHA-256 compression round; the state is the 8 working variables. -/
def roundStep (st : List Nat) (kw : Nat) : List Nat :=
  match st with
  | [a, b, c, d, e, f, g, h] =>
    let ch := (e &&& f) ^^^ ((4294967295 - e) &&& g)
    let t1 := add32 (add32 h (bigSigma1 e)) (add32 ch kw)
    let maj := (a &&& b) ^^^ (a &&& c) ^^^ (b &&& c)
    let t2 := add32 (bigSigma0 a) maj
    [add32 t1 t2, a, b, c, add32 d t1, e, f, g]
  | other => other

/-- Compress one 64-byte block into the hash state. -/
def compressBlock (h : List Nat) (block : List Nat) : List Nat :=
  let w := buildSchedule (beWords block)
  let kw := (sha256K.zip w).map fun p => add32 p.1 p.2
  let st := kw.foldl roundStep h
  (h.zip st).map fun p => add32 p.1 p.2

/-- Fold the compression over all 64-byte blocks; the fuel is an upper bound
on the number of blocks (structural recursion keeps the definition
kernel-reducible). -/
def sha256Blocks : Nat → List Nat → List Nat → List Nat
  | 0, h, _ => h
  | _, h, [] => h
  | fuel + 1, h, b :: bs =>
    sha256Blocks fuel (compressBlock h ((b :: bs).take 64)) ((b :: bs).drop 64)

/-- SHA-256 digest (32 bytes) of a byte string. -/
def sha256 (msg : List Nat) : List Nat :=
  let padded := sha256Pad msg
  (sha256Blocks (padded.length / 64) sha256H0 padded).flatMap be4Bytes

/-- `hex::encode` of the SHA-256 digest, as the source composes them. -/
def sha256Hex (msg : List Nat) : String :=
  hexEncode (sha256 msg)

/-! ## Data model (`src/models`) -/

/-- `NoticeMetadata` from `src/Crawler/src/models/notice.rs`. -/
structure NoticeMetadata where
  campus : String
  college : String
  departmentName : String
  boardName : String
  date : String
  pinned : Bool
deriving DecidableEq, Repr

/-- `NoticeOutput` from `src/Crawler/src/models/notice.rs`. -/
structure NoticeOutput where
  id : String
  title : String
  link : String
  metadata : NoticeMetadata
deriving DecidableEq, Repr

/-- `Notice` (internal representation) from `src/Crawler/src/models/notice.rs`. -/
structure Notice where
  campus : String
  college : String
  departmentId : String
  departmentName : String
  boardId : String
  boardName : String
  title : String
  author : String
  date : String
  link : String
  sourceId : Option String
  isPinned : Bool
deriving DecidableEq, Repr

/-! ## Circuit breaker (`src/Crawler/src/pipeline/circuit_breaker.rs`)

The source computes the drop percentage in `f64` —
`(drop as f64 / previous_count as f64) * 100.0` — and compares it against
`max_drop_percent as f64` (exact: `max_drop_percent` is a `u8`). That
arithmetic is modelled bit-faithfully: a finite double is a dyadic
`mantissa × 2^exponent` with `2^52 ≤ mantissa < 2^53`, and the conversion,
the division and the multiplication each round to nearest, ties to even.
The exponent is left unbounded (no overflow or subnormal clamping), which
agrees with binary64 whenever the intermediate magnitudes stay in the
normal range — here for every `previous_count < 2^1021`. Division by zero
is unreachable: the branch computing the percentage requires
`0 < current_count < previous_count`. -/

/-- Fuel-bounded floor of log₂. -/
def log2fuel : Nat → Nat → Nat
  | 0, _ => 0
  | fuel + 1, n => if 2 ≤ n then log2fuel fuel (n / 2) + 1 else 0

/-- Floor of log₂ for positive `n` (and 0 at 0). -/
def natLog2 (n : Nat) : Nat := log2fuel n n

/-- Round a truncated quotient `q` with remainder `r` by `B` to the nearest
integer, ties to even. -/
def roundHalfEven (q r B : Nat) : Nat :=
  if 2 * r < B then q
  else if B < 2 * r then q + 1
  else if q % 2 = 0 then q else q + 1

/-- Renormalize a mantissa that rounding carried up to `2^53`. -/
def normalizeUp (m : Nat) (k : Int) : Nat × Int :=
  if m = 2 ^ 53 then (2 ^ 52, k + 1) else (m, k)

/-- Round the rational `a / b` to a binary64 dyadic `(mantissa, exponent)`
with `2^52 ≤ mantissa < 2^53`: round to nearest, ties to even; `(0, 0)` at
zero. The quotient is first scaled into `(2^51, 2^53)` using the floor
logarithms of `a` and `b`, with one corrective shift when it falls below
`2^52`. -/
def roundMantissa (a b : Nat) : Nat × Int :=
  if a = 0 ∨ b = 0 then (0, 0)
  else
    let e : Int := (natLog2 a : Int) - (natLog2 b : Int)
    let s : Int := 52 - e
    let A := a * 2 ^ s.toNat
    let B := b * 2 ^ (-s).toNat
    if A / B < 2 ^ 52 then
      normalizeUp (roundHalfEven (2 * A / B) (2 * A % B) B) (-(s + 1))
    else
      normalizeUp (roundHalfEven (A / B) (A % B) B) (-s)

/-- Rust `usize as f64` (rounds above `2^53`). -/
def f64OfNat (n : Nat) : Nat × Int := roundMantissa n 1

/-- binary64 division of dyadics. -/
def f64Div (x y : Nat × Int) : Nat × Int :=
  let r := roundMantissa x.1 y.1
  (r.1, r.2 + x.2 - y.2)

/-- binary64 multiplication of dyadics. -/
def f64Mul (x y : Nat × Int) : Nat × Int :=
  let r := roundMantissa (x.1 * y.1) 1
  (r.1, r.2 + x.2 + y.2)

/-- The comparison `x > (t as f64)` of a dyadic double against a small
integer threshold (`u8 as f64` is exact), carried out exactly on
integers. -/
def f64GtNat (x : Nat × Int) (t : Nat) : Bool :=
  if 0 ≤ x.2 then t < x.1 * 2 ^ x.2.toNat else t * 2 ^ (-x.2).toNat < x.1

/-- The rational value of a dyadic double. -/
def dyadToQ (x : Nat × Int) : ℚ :=
  if 0 ≤ x.2 then (x.1 : ℚ) * 2 ^ x.2.toNat else (x.1 : ℚ) / 2 ^ (-x.2).toNat

/-- `(drop as f64 / previous_count as f64) * 100.0` exactly as binary64
computes it (`100.0` is exactly representable). -/
def dropPercentF64 (drop prev : Nat) : Nat × Int :=
  f64Mul (f64Div (f64OfNat drop) (f64OfNat prev)) (f64OfNat 100)

/-- `CircuitBreakerConfig`. -/
structure CircuitBreakerConfig where
  maxDropPercent : Nat
  minBaseline : Nat
  allowColdStart : Bool
deriving DecidableEq, Repr

/-- `CircuitBreakerConfig::default()`: `{20, 10, true}`. -/
def CircuitBreakerConfig.defaultCfg : CircuitBreakerConfig :=
  { maxDropPercent := 20, minBaseline := 10, allowColdStart := true }

/-- `CircuitBreakerResult`. -/
inductive CircuitBreakerResult where
  | safe (currentCount previousCount : Nat)
  | coldStart (currentCount : Nat)
  | triggered (currentCount previousCount : Nat) (dropPercent : ℚ)
  | emptyResult
deriving DecidableEq, Repr

/-- `CircuitBreaker::check`. -/
def circuitCheck (cfg : CircuitBreakerConfig)
    (current previous : List NoticeOutput) : CircuitBreakerResult :=
  let currentCount := current.length
  let previousCount := previous.length
  if currentCount = 0 then
    if previousCount = 0 ∧ cfg.allowColdStart then
      .coldStart currentCount
    else
      .emptyResult
  else if previousCount < cfg.minBaseline then
    .coldStart currentCount
  else if currentCount < previousCount then
    let drop := previousCount - currentCount
    let dropPercent := dropPercentF64 drop previousCount
    if f64GtNat dropPercent cfg.maxDropPercent then
      .triggered currentCount previousCount (dyadToQ dropPercent)
    else
      .safe currentCount previousCount
  else
    .safe currentCount previousCount

/-- The fragment of `AppError` produced by `CircuitBreaker::validate`. -/
inductive AppError where
  | circuitBreakerTriggered (currentCount previousCount : Nat)
      (dropPercent : ℚ) (thresholdPercent : Nat)
  | emptyCrawlResult
deriving DecidableEq, Repr

/-- `CircuitBreaker::validate`. -/
def circuitValidate (cfg : CircuitBreakerConfig)
    (current previous : List NoticeOutput) : Except AppError Unit :=
  match circuitCheck cfg current previous with
  | .safe _ _ => .ok ()
  | .coldStart _ => .ok ()
  | .triggered c p d => .error (.circuitBreakerTriggered c p d cfg.maxDropPercent)
  | .emptyResult => .error .emptyCrawlResult

/-! ## String primitives

Lean's own `String.map`, `String.splitOn`, `String.trim`, `String.toLower`
and `String.toNat?` are not kernel-reducible, so the Rust string operations
are modelled directly on the character list of a string. Rust
`str::to_lowercase` and `str::trim` act on full Unicode; these models cover
the ASCII range (Korean text, the other alphabet this code meets, has no
case and no extra whitespace forms). -/

/-- Rust `char` lower-casing on the ASCII range. -/
def lowerChar (c : Char) : Char :=
  if 'A' ≤ c ∧ c ≤ 'Z' then Char.ofNat (c.toNat + 32) else c

/-- Model of Rust `str::to_lowercase`. -/
def toLowerStr (s : String) : String :=
  String.mk (s.data.map lowerChar)

/-- ASCII whitespace. -/
def isWsChar (c : Char) : Bool :=
  c = ' ' || c = '\t' || c = '\n' || c = '\r'

/-- Model of Rust `str::trim`. -/
def trimStr (s : String) : String :=
  String.mk (((s.data.dropWhile isWsChar).reverse.dropWhile isWsChar).reverse)

/-- Rust `str::split(sep)`: every occurrence separates, empty pieces kept. -/
def splitChar (sep : Char) : List Char → List (List Char)
  | [] => [[]]
  | c :: cs =>
    if c = sep then [] :: splitChar sep cs
    else
      match splitChar sep cs with
      | [] => [[c]]
      | p :: ps => (c :: p) :: ps

/-- `s.split('-')` as a list of strings. -/
def splitOnDash (s : String) : List String :=
  (splitChar '-' s.data).map String.mk

/-- Rust `str::len`: the UTF-8 byte length. -/
def utf8Len (s : String) : Nat :=
  (strBytes s).length

/-- Numeric value of an all-digit string. -/
def strToNat (s : String) : Nat :=
  s.data.foldl (fun a c => a * 10 + (c.toNat - 48)) 0

/-! ## Date normalization (`Notice::normalized_date`)

The external `chrono` parse/format pair for the fixed format string
`"%Y-%m-%d"` is modelled by `parseYMD`/`formatYMD`: split on `-`, three
all-digit components (year at most 4 digits, month/day at most 2), a valid
proleptic-Gregorian calendar date. Signed (negative) years, which `chrono`
would also accept, are not modelled. -/

/-- Rust `str::replace(['.', '/'], "-")`. -/
def replaceSeps (s : String) : String :=
  String.mk (s.data.map fun c => if c = '.' ∨ c = '/' then '-' else c)

/-- The 2-digit-year widening step of `normalized_date` (`YY-MM-DD` becomes
`20YY-MM-DD`; the source tests the byte length of the first part). -/
def twoDigitYearFix (cleaned : String) : String :=
  match splitOnDash cleaned with
  | [y, m, d] => if utf8Len y = 2 then "20" ++ y ++ "-" ++ m ++ "-" ++ d else cleaned
  | _ => cleaned

/-- Non-empty all-decimal-digit string. -/
def isDigitStr (s : String) : Bool :=
  !s.data.isEmpty && s.data.all Char.isDigit

def isLeapYear (y : Nat) : Bool :=
  (y % 4 = 0 && y % 100 ≠ 0) || y % 400 = 0

def daysInMonth (y m : Nat) : Nat :=
  if m = 2 then (if isLeapYear y then 29 else 28)
  else if m = 4 ∨ m = 6 ∨ m = 9 ∨ m = 11 then 30
  else 31

/-- Model of `chrono::NaiveDate::parse_from_str(s, "%Y-%m-%d")`. -/
def parseYMD (s : String) : Option (Nat × Nat × Nat) :=
  match splitOnDash s with
  | [ys, ms, ds] =>
    if isDigitStr ys && decide (ys.data.length ≤ 4) &&
       isDigitStr ms && decide (ms.data.length ≤ 2) &&
       isDigitStr ds && decide (ds.data.length ≤ 2) then
      let y := strToNat ys
      let m := strToNat ms
      let d := strToNat ds
      if 1 ≤ m ∧ m ≤ 12 ∧ 1 ≤ d ∧ d ≤ daysInMonth y m then some (y, m, d) else none
    else none
  | _ => none

/-- Decimal digit character of `n % 10`. -/
def digitChar (n : Nat) : Char := Char.ofNat (48 + n % 10)

/-- Model of `chrono`'s `date.format("%Y-%m-%d")`: the year zero-padded to
4 digits (parsing bounds it by 9999), month and day to 2. -/
def formatYMD (y m d : Nat) : String :=
  String.mk [digitChar (y / 1000), digitChar (y / 100), digitChar (y / 10), digitChar y,
             '-', digitChar (m / 10), digitChar m, '-', digitChar (d / 10), digitChar d]

/-- `Notice::normalized_date` from `src/Crawler/src/models/notice.rs`. -/
def Notice.normalizedDate (n : Notice) : String :=
  let cleaned := replaceSeps n.date
  let cleanedWithFullYear := twoDigitYearFix cleaned
  match parseYMD cleanedWithFullYear with
  | some (y, m, d) => formatYMD y m d
  | none => cleanedWithFullYear

/-- Whether a string is literally of the shape `YYYY-MM-DD` (ten characters,
digits and hyphens in the right places). -/
def matchesYMD (s : String) : Bool :=
  match s.data with
  | [a, b, c, d, h1, e, f, h2, g, h] =>
    a.isDigit && b.isDigit && c.isDigit && d.isDigit && h1 == '-' &&
    e.isDigit && f.isDigit && h2 == '-' && g.isDigit && h.isDigit
  | _ => false

/-! ## Canonical id (`Notice::canonical_id`)

Rust `str::trim` / `str::to_lowercase` are modelled by Lean's `String.trim` /
`String.toLower`; these agree on ASCII (and on Korean text, which has no
case), which is the alphabet this code meets. -/

/-- `trim().to_lowercase()` applied to one field. -/
def lowerTrim (s : String) : String := toLowerStr (trimStr s)

/-- The `|`-joined normalized hash input of `canonical_id`. -/
def idInput (n : Notice) : String :=
  lowerTrim n.campus ++ "|" ++ lowerTrim n.departmentId ++ "|" ++
  lowerTrim n.boardId ++ "|" ++ lowerTrim (n.sourceId.getD "") ++ "|" ++
  lowerTrim n.link

/-- Rust `str::replace("-", "")` on the normalized date. -/
def removeDashes (s : String) : String :=
  String.mk (s.data.filter fun c => c ≠ '-')

/-- Rust byte-slicing `&s[..n]` on an ASCII string (first `n` characters). -/
def takeChars (k : Nat) (s : String) : String :=
  String.mk (s.data.take k)

/-- `Notice::canonical_id` from `src/Crawler/src/models/notice.rs`. -/
def Notice.canonicalId (n : Notice) : String :=
  let datePart := removeDashes n.normalizedDate
  let hashPart := takeChars 6 (sha256Hex (strBytes (idInput n)))
  datePart ++ "-" ++ hashPart

/-! ## Sample data (mirrors the `make_notices` test fixture) -/

def sampleMeta : NoticeMetadata :=
  { campus := "Test", college := "", departmentName := "Dept",
    boardName := "Board", date := "2026-02-02", pinned := false }

def sampleOut (i : Nat) : NoticeOutput :=
  { id := "notice_" ++ toString i, title := "Notice " ++ toString i,
    link := "https://example.com/" ++ toString i, metadata := sampleMeta }

def mkNotices (count : Nat) : List NoticeOutput :=
  (List.range count).map sampleOut

end URing

namespace URing

/-! ## Claim C1 — circuit-breaker decision table -/

set_option maxRecDepth 10000 in
/-- **C1, counterexample.** Two deviations from the claim's table. (i) The
table ends in "Safe otherwise", so it classifies `current = [],
previous = [], allow_cold_start = false` (reached by none of its four
explicit arms) as `Safe`; the code returns `EmptyResult` there. (ii) The
table's trigger condition "drop percentage strictly exceeds
`max_drop_percent`" is decided by the code in `f64`: at
`current = 93, previous = 100, max_drop_percent = 7` the rounded
`(7.0 / 100.0) * 100.0` strictly exceeds `7.0`, so the code triggers
although the exact drop percentage equals the threshold. -/
theorem C1_cb_table_counterexample :
    (circuitCheck ⟨20, 10, false⟩ [] [] = .emptyResult ∧
      CircuitBreakerResult.emptyResult ≠ .safe 0 0) ∧
    (circuitCheck ⟨7, 10, true⟩ (mkNotices 93) (mkNotices 100) =
        .triggered 93 100 (dyadToQ (dropPercentF64 7 100)) ∧
      (7 : ℚ) < dyadToQ (dropPercentF64 7 100) ∧
      ¬ (7 : ℚ) < ((100 - 93 : ℕ) : ℚ) / 100 * 100) := by
  have hlen : ∀ k : Nat, (mkNotices k).length = k := fun k => by simp [mkNotices]
  have hpair : dropPercentF64 7 100 = (7881299347898369, -50) := by decide
  refine ⟨⟨rfl, by decide⟩, ?_, ?_, by norm_num⟩
  · simp only [circuitCheck, hlen]
    rw [if_neg (by decide), if_neg (by decide), if_pos (by decide),
      if_pos (by decide)]
  · rw [hpair]
    rw [show dyadToQ (7881299347898369, -50) =
        (7881299347898369 : ℚ) / 2 ^ 50 by
        norm_num [dyadToQ, show Int.toNat 50 = 50 from rfl]]
    norm_num

set_option maxRecDepth 10000 in
/-- **C1, amended.** `CircuitBreaker::check` follows the claim's decision
table with two amendments: an empty current result with `allow_cold_start`
unset is `EmptyResult` even when the previous list is also empty, and the
trigger comparison is made on the binary64-computed drop percentage
(`(drop as f64 / previous_count as f64) * 100.0` rounded to nearest-even at
each step), not the exact rational one — the two can disagree at the
threshold. All the quoted default-configuration examples hold, with
`drop_percent = 30` (exact in `f64`) on input `(70, 100)`. -/
theorem C1_cb_decision_table (cfg : CircuitBreakerConfig)
    (current previous : List NoticeOutput) :
    (current.length = 0 → previous.length = 0 → cfg.allowColdStart = true →
      circuitCheck cfg current previous = .coldStart 0) ∧
    (current.length = 0 → ¬(previous.length = 0 ∧ cfg.allowColdStart = true) →
      circuitCheck cfg current previous = .emptyResult) ∧
    (current.length ≠ 0 → previous.length < cfg.minBaseline →
      circuitCheck cfg current previous = .coldStart current.length) ∧
    (current.length ≠ 0 → cfg.minBaseline ≤ previous.length →
      current.length < previous.length →
      f64GtNat (dropPercentF64 (previous.length - current.length) previous.length)
        cfg.maxDropPercent = true →
      circuitCheck cfg current previous =
        .triggered current.length previous.length
          (dyadToQ (dropPercentF64 (previous.length - current.length)
            previous.length))) ∧
    (current.length ≠ 0 → cfg.minBaseline ≤ previous.length →
      (previous.length ≤ current.length ∨
        f64GtNat (dropPercentF64 (previous.length - current.length) previous.length)
          cfg.maxDropPercent = false) →
      circuitCheck cfg current previous = .safe current.length previous.length) ∧
    (circuitCheck .defaultCfg (mkNotices 100) (mkNotices 100) = .safe 100 100) ∧
    (circuitCheck .defaultCfg (mkNotices 85) (mkNotices 100) = .safe 85 100) ∧
    (circuitCheck .defaultCfg (mkNotices 150) (mkNotices 100) = .safe 150 100) ∧
    (circuitCheck .defaultCfg (mkNotices 70) (mkNotices 100) = .triggered 70 100 30) ∧
    (circuitCheck .defaultCfg (mkNotices 50) [] = .coldStart 50) ∧
    (circuitCheck .defaultCfg [] (mkNotices 100) = .emptyResult) := by
  have hlen : ∀ k : Nat, (mkNotices k).length = k := fun k => by simp [mkNotices]
  refine ⟨?_, ?_, ?_, ?_, ?_, ?_, ?_, ?_, ?_, ?_, ?_⟩
  · intro h0 hp hc
    simp only [circuitCheck]
    rw [if_pos h0, if_pos ⟨hp, hc⟩, h0]
  · intro h0 hnot
    simp only [circuitCheck]
    rw [if_pos h0, if_neg hnot]
  · intro h0 hlt
    simp only [circuitCheck]
    rw [if_neg h0, if_pos hlt]
  · intro h0 hge hlt hpct
    simp only [circuitCheck]
    rw [if_neg h0, if_neg (by omega), if_pos hlt, if_pos hpct]
  · intro h0 hge hsafe
    simp only [circuitCheck]
    rw [if_neg h0, if_neg (by omega)]
    rcases hsafe with hle | hpct
    · rw [if_neg (by omega)]
    · by_cases hlt : current.length < previous.length
      · rw [if_pos hlt, if_neg (by simp [hpct])]
      · rw [if_neg hlt]
  · simp only [circuitCheck, hlen, CircuitBreakerConfig.defaultCfg]
    rw [if_neg (by decide), if_neg (by decide), if_neg (by decide)]
  · simp only [circuitCheck, hlen, CircuitBreakerConfig.defaultCfg]
    rw [if_neg (by decide), if_neg (by decide), if_pos (by decide),
      if_neg (by decide)]
  · simp only [circuitCheck, hlen, CircuitBreakerConfig.defaultCfg]
    rw [if_neg (by decide), if_neg (by decide), if_neg (by decide)]
  · simp only [circuitCheck, hlen, CircuitBreakerConfig.defaultCfg]
    rw [if_neg (by decide), if_neg (by decide), if_pos (by decide),
      if_pos (by decide),
      show dropPercentF64 (100 - 70) 100 = (8444249301319680, -48) from by decide,
      show dyadToQ (8444249301319680, -48) = 30 from by
        norm_num [dyadToQ, show Int.toNat 48 = 48 from rfl]]
  · simp only [circuitCheck, hlen, List.length_nil, CircuitBreakerConfig.defaultCfg]
    rw [if_neg (by decide), if_pos (by decide)]
  · simp only [circuitCheck, hlen, List.length_nil, CircuitBreakerConfig.defaultCfg]
    rw [if_pos trivial, if_neg (by decide)]

/-- Witness for `C1_cb_decision_table`: the amended empty-current arm at a
concrete input. -/
theorem C1_cb_decision_table_witness :
    circuitCheck ⟨20, 10, true⟩ [] (mkNotices 100) = .emptyResult :=
  (C1_cb_decision_table ⟨20, 10, true⟩ [] (mkNotices 100)).2.1 rfl (by decide)

/-! ## Claim C10 — empty/empty without cold start is EmptyResult -/

/-- **C10.** With both lists empty and `allow_cold_start` false,
`CircuitBreaker::check` returns `EmptyResult` and `validate` fails with
`EmptyCrawlResult`. -/
theorem C10_empty_empty_no_cold_start (cfg : CircuitBreakerConfig)
    (h : cfg.allowColdStart = false) :
    circuitCheck cfg [] [] = .emptyResult ∧
    circuitValidate cfg [] [] = .error .emptyCrawlResult := by
  have hc : circuitCheck cfg [] [] = .emptyResult := by
    simp [circuitCheck, h]
  exact ⟨hc, by simp [circuitValidate, hc]⟩

/-- Witness for `C10_empty_empty_no_cold_start` at the default thresholds. -/
theorem C10_empty_empty_no_cold_start_witness :
    circuitCheck ⟨20, 10, false⟩ [] [] = .emptyResult ∧
    circuitValidate ⟨20, 10, false⟩ [] [] = .error .emptyCrawlResult :=
  C10_empty_empty_no_cold_start ⟨20, 10, false⟩ rfl

/-! ## Helper lemmas about formatted dates and digest lengths -/

theorem isDigit_ne_dash {c : Char} (h : c.isDigit = true) : ¬ c = '-' := by
  intro e
  rw [e] at h
  exact absurd h (by decide)

theorem removeDashes_length_of_matches (s : String) (h : matchesYMD s = true) :
    (removeDashes s).length = 8 := by
  unfold matchesYMD at h
  split at h
  case h_1 a b c d h1 e f h2 g hh heq =>
    simp only [Bool.and_eq_true, beq_iff_eq] at h
    obtain ⟨⟨⟨⟨⟨⟨⟨⟨⟨ha, hb⟩, hc⟩, hd⟩, hh1⟩, he⟩, hf⟩, hh2⟩, hg⟩, hhh⟩ := h
    simp [removeDashes, heq, List.filter_cons, isDigit_ne_dash ha, isDigit_ne_dash hb,
      isDigit_ne_dash hc, isDigit_ne_dash hd, isDigit_ne_dash he, isDigit_ne_dash hf,
      isDigit_ne_dash hg, isDigit_ne_dash hhh, hh1, hh2, String.length]
  case h_2 => exact absurd h (by decide)

theorem roundStep_length (st : List Nat) (k : Nat) :
    (roundStep st k).length = st.length := by
  unfold roundStep
  split <;> simp

theorem foldl_roundStep_length (l : List Nat) (st : List Nat) :
    (l.foldl roundStep st).length = st.length := by
  induction l generalizing st with
  | nil => rfl
  | cons x xs ih => rw [List.foldl_cons, ih, roundStep_length]

theorem compressBlock_length (h block : List Nat) :
    (compressBlock h block).length = h.length := by
  unfold compressBlock
  simp [foldl_roundStep_length]

theorem sha256Blocks_length (fuel : Nat) (h bs : List Nat) :
    (sha256Blocks fuel h bs).length = h.length := by
  induction fuel generalizing h bs with
  | zero => cases bs <;> rfl
  | succ k ih =>
    cases bs with
    | nil => rfl
    | cons b rest => rw [sha256Blocks, ih, compressBlock_length]

theorem flatMap_be4_length (l : List Nat) : (l.flatMap be4Bytes).length = 4 * l.length := by
  induction l with
  | nil => rfl
  | cons x xs ih =>
    simp only [List.flatMap_cons, List.length_append, ih, List.length_cons]
    show 4 + 4 * xs.length = 4 * (xs.length + 1)
    omega

theorem sha256_length (msg : List Nat) : (sha256 msg).length = 32 := by
  unfold sha256
  rw [flatMap_be4_length, sha256Blocks_length]
  rfl

theorem flatMap_pair_length {α β : Type} (f g : α → β) (l : List α) :
    (l.flatMap fun b => [f b, g b]).length = 2 * l.length := by
  induction l with
  | nil => rfl
  | cons x xs ih =>
    simp only [List.flatMap_cons, List.length_append, ih, List.length_cons]
    show 2 + 2 * xs.length = 2 * (xs.length + 1)
    omega

theorem hexEncode_length (bs : List Nat) : (hexEncode bs).length = 2 * bs.length := by
  unfold hexEncode
  show (bs.flatMap fun b => [hexDigit ((b / 16) % 16), hexDigit (b % 16)]).length = 2 * bs.length
  exact flatMap_pair_length _ _ bs

theorem sha256Hex_length (msg : List Nat) : (sha256Hex msg).length = 64 := by
  unfold sha256Hex
  rw [hexEncode_length, sha256_length]

theorem takeChars_length (k : Nat) (s : String) :
    (takeChars k s).length = min k s.length := by
  show (s.data.take k).length = min k s.length
  exact List.length_take k s.data

/-! ## Claim C4 — date normalization -/

/-- A fixture notice with the given raw date. -/
def mkDateNotice (dateStr : String) : Notice :=
  { campus := "TestCampus", college := "TestCollege", departmentId := "dept1",
    departmentName := "Department", boardId := "notice", boardName := "공지사항",
    title := "Test Title", author := "Admin", date := dateStr,
    link := "https://example.com/notice/1", sourceId := none, isPinned := false }

/-- Fixture: a notice whose campus is `"A"`. -/
def noticeUpperA : Notice := { mkDateNotice "2024-01-15" with campus := "A" }

/-- Fixture: the same notice with campus `" a "` (equal after trim+lower). -/
def noticeSpacedA : Notice := { mkDateNotice "2024-01-15" with campus := " a " }

/-- **C5, counterexample.** Each field of the id tuple is trimmed and
lower-cased before hashing, so changing `campus` from `"A"` to `" a "`
changes the notice but not its canonical id; and a notice whose date does
not normalize to `YYYY-MM-DD` has a canonical id that is not 15 characters
long. -/
theorem C5_canonical_id_counterexample :
    noticeUpperA ≠ noticeSpacedA ∧
    noticeUpperA.campus ≠ noticeSpacedA.campus ∧
    Notice.canonicalId noticeUpperA = Notice.canonicalId noticeSpacedA ∧
    (Notice.canonicalId (mkDateNotice "hello")).length ≠ 15 := by
  refine ⟨by decide, by decide, ?_, ?_⟩
  · have h1 : idInput noticeUpperA = idInput noticeSpacedA := by decide
    have h2 : Notice.normalizedDate noticeUpperA = Notice.normalizedDate noticeSpacedA := rfl
    unfold Notice.canonicalId
    rw [h1, h2]
  · show (removeDashes (Notice.normalizedDate (mkDateNotice "hello")) ++ "-" ++
        takeChars 6 (sha256Hex (strBytes (idInput (mkDateNotice "hello"))))).length ≠ 15
    rw [String.length_append, String.length_append, takeChars_length, sha256Hex_length]
    decide

/-- **C5, amended.** `canonical_id` is the normalized date with separators
removed, a hyphen, and the first 6 lower-case-hex characters of the SHA-256
of `lower(trim(campus))|lower(trim(department_id))|lower(trim(board_id))|`
`lower(trim(source_id or ""))|lower(trim(link))`; it is a pure function
(equal notices give equal ids), equal hash inputs and normalized dates give
equal ids, and the id is 15 characters (`YYYYMMDD-XXXXXX`) whenever the
date normalizes to `YYYY-MM-DD`. -/
theorem C5_canonical_id (n m : Notice) :
    (n.canonicalId =
      removeDashes n.normalizedDate ++ "-" ++
        takeChars 6 (sha256Hex (strBytes (idInput n)))) ∧
    (n = m → n.canonicalId = m.canonicalId) ∧
    (idInput n = idInput m → n.normalizedDate = m.normalizedDate →
      n.canonicalId = m.canonicalId) ∧
    (matchesYMD n.normalizedDate = true → n.canonicalId.length = 15) := by
  refine ⟨rfl, fun e => e ▸ rfl, ?_, ?_⟩
  · intro h1 h2
    unfold Notice.canonicalId
    rw [h1, h2]
  · intro h
    show (removeDashes n.normalizedDate ++ "-" ++
        takeChars 6 (sha256Hex (strBytes (idInput n)))).length = 15
    rw [String.length_append, String.length_append, takeChars_length, sha256Hex_length,
      removeDashes_length_of_matches _ h]
    rfl

/-- Witness for `C5_canonical_id`: determinism and the 15-character shape at
a concrete notice. -/
theorem C5_canonical_id_witness :
    Notice.canonicalId (mkDateNotice "2024-01-15") =
      Notice.canonicalId (mkDateNotice "2024-01-15") ∧
    (Notice.canonicalId (mkDateNotice "2024-01-15")).length = 15 :=
  ⟨(C5_canonical_id (mkDateNotice "2024-01-15") (mkDateNotice "2024-01-15")).2.1 rfl,
   (C5_canonical_id (mkDateNotice "2024-01-15") (mkDateNotice "2024-01-15")).2.2.2 (by decide)⟩

/-! ## Hash-table model

Rust `HashMap`/`HashSet` iterate in an arbitrary, hash-dependent order; the
model fixes one admissible order — first insertion — and looks values up
with last-insert-wins semantics, as `collect` produces. -/

/-- Add a key to a set unless already present. -/
def insertOnce (ks : List String) (k : String) : List String :=
  if k ∈ ks then ks else ks ++ [k]

/-- The key set of a sequence of insertions, in first-insertion order. -/
def firstKeys (l : List String) : List String :=
  l.foldl insertOnce []

/-- First entry with the given key. -/
def lookupEntry {α : Type} : List (String × α) → String → Option α
  | [], _ => none
  | e :: es, k => if e.1 = k then some e.2 else lookupEntry es k

/-- Value lookup in an association built by sequential insertion (the last
insert for a key wins, as in `HashMap::insert`/`collect`). -/
def mapGet {α : Type} (entries : List (String × α)) (k : String) : Option α :=
  lookupEntry entries.reverse k

theorem mem_foldl_insertOnce (l acc : List String) (x : String) :
    x ∈ l.foldl insertOnce acc ↔ x ∈ acc ∨ x ∈ l := by
  induction l generalizing acc with
  | nil => simp
  | cons a as ih =>
    rw [List.foldl_cons, ih]
    unfold insertOnce
    split
    next h =>
      simp only [List.mem_cons]
      constructor
      · rintro (hx | hx)
        · exact Or.inl hx
        · exact Or.inr (Or.inr hx)
      · rintro (hx | rfl | hx)
        · exact Or.inl hx
        · exact Or.inl h
        · exact Or.inr hx
    next h =>
      simp only [List.mem_append, List.mem_singleton, List.mem_cons]
      tauto

theorem mem_firstKeys (l : List String) (x : String) :
    x ∈ firstKeys l ↔ x ∈ l := by
  unfold firstKeys
  rw [mem_foldl_insertOnce]
  simp

theorem lookupEntry_map_eq_some_iff (m : List NoticeOutput)
    (hnd : (m.map (·.id)).Nodup) (k : String) (p : NoticeOutput) :
    lookupEntry (m.map fun n => (n.id, n)) k = some p ↔ p ∈ m ∧ p.id = k := by
  induction m with
  | nil => simp [lookupEntry]
  | cons n ms ih =>
    have hnd2 : (ms.map (·.id)).Nodup := (List.nodup_cons.mp hnd).2
    have hkn : ¬ n.id ∈ ms.map (·.id) := (List.nodup_cons.mp hnd).1
    simp only [List.map_cons, lookupEntry]
    by_cases h : n.id = k
    · rw [if_pos h]
      constructor
      · intro hp
        injection hp with hp
        subst hp
        exact ⟨List.mem_cons_self _ _, h⟩
      · rintro ⟨hmem, hid⟩
        rcases List.mem_cons.mp hmem with rfl | hmem2
        · rfl
        · exfalso
          apply hkn
          rw [h, ← hid]
          exact List.mem_map_of_mem (·.id) hmem2
    · rw [if_neg h, ih hnd2]
      constructor
      · rintro ⟨hmem, hid⟩
        exact ⟨List.mem_cons_of_mem _ hmem, hid⟩
      · rintro ⟨hmem, hid⟩
        rcases List.mem_cons.mp hmem with rfl | hmem2
        · exact absurd hid h
        · exact ⟨hmem2, hid⟩

theorem mapGet_map_eq_some_iff (l : List NoticeOutput)
    (hnd : (l.map (·.id)).Nodup) (k : String) (p : NoticeOutput) :
    mapGet (l.map fun n => (n.id, n)) k = some p ↔ p ∈ l ∧ p.id = k := by
  unfold mapGet
  rw [← List.map_reverse]
  have hnd2 : (l.reverse.map (·.id)).Nodup := by
    rw [List.map_reverse]
    exact List.nodup_reverse.mpr hnd
  rw [lookupEntry_map_eq_some_iff l.reverse hnd2 k p]
  simp

/-! ## Diff calculator (`src/Crawler/src/pipeline/diff.rs`) -/

/-- `Diff` from `src/Crawler/src/models/mod.rs`. -/
structure Diff where
  added : List String
  updated : List String
  removed : List String
deriving DecidableEq, Repr

/-- `DiffResult` from `src/Crawler/src/pipeline/diff.rs`. -/
structure DiffResult where
  diff : Diff
  addedNotices : List NoticeOutput
  updatedNotices : List NoticeOutput
deriving DecidableEq, Repr

/-- `DiffCalculator::calculate`; `detectUpdates = true` is
`DiffCalculator::new()`, `false` is `additions_only()`. The `unwrap` on the
two map lookups for a common id is modelled by matching (the `none` branch
is unreachable). -/
def calculate (detectUpdates : Bool) (previous current : List NoticeOutput) : DiffResult :=
  let prevEntries := previous.map fun n => (n.id, n)
  let currEntries := current.map fun n => (n.id, n)
  let prevIds := firstKeys (previous.map (·.id))
  let currIds := firstKeys (current.map (·.id))
  let addedIds := currIds.filter fun id => ¬ id ∈ prevIds
  let addedNotices := addedIds.filterMap fun id => mapGet currEntries id
  let removed := prevIds.filter fun id => ¬ id ∈ currIds
  let updPairs :=
    if detectUpdates then
      (prevIds.filter fun id => id ∈ currIds).filterMap fun id =>
        match mapGet prevEntries id, mapGet currEntries id with
        | some p, some c => if p.title ≠ c.title then some (id, c) else none
        | _, _ => none
    else []
  { diff := { added := addedIds, updated := updPairs.map (·.1), removed := removed },
    addedNotices := addedNotices,
    updatedNotices := updPairs.map (·.2) }

/-- A small `NoticeOutput` fixture (mirrors the `make_notice` test helper). -/
def outN (idStr titleStr : String) : NoticeOutput :=
  { id := idStr, title := titleStr, link := "https://example.com/x", metadata := sampleMeta }

/-! ## Claim C2 — diff characterization -/

/-- **C2.** Under distinct ids per list, `calculate` returns exactly the
claimed added/removed/updated id sets; `calculate X X` is empty on all three
sets for every list `X`; and added and removed are disjoint. -/
theorem C2_diff_calculate (previous current X : List NoticeOutput)
    (hp : (previous.map (·.id)).Nodup) (hc : (current.map (·.id)).Nodup) :
    (∀ id, id ∈ (calculate true previous current).diff.added ↔
      (id ∈ current.map (·.id) ∧ ¬ id ∈ previous.map (·.id))) ∧
    (∀ id, id ∈ (calculate true previous current).diff.removed ↔
      (id ∈ previous.map (·.id) ∧ ¬ id ∈ current.map (·.id))) ∧
    (∀ id, id ∈ (calculate true previous current).diff.updated ↔
      ∃ p c, p ∈ previous ∧ c ∈ current ∧ p.id = id ∧ c.id = id ∧ p.title ≠ c.title) ∧
    (calculate true X X).diff = ⟨[], [], []⟩ ∧
    (∀ id, ¬(id ∈ (calculate true previous current).diff.added ∧
      id ∈ (calculate true previous current).diff.removed)) := by
  refine ⟨?_, ?_, ?_, ?_, ?_⟩
  · intro id
    show id ∈ (firstKeys (current.map (·.id))).filter
        (fun i => ¬ i ∈ firstKeys (previous.map (·.id))) ↔ _
    simp [List.mem_filter, mem_firstKeys]
  · intro id
    show id ∈ (firstKeys (previous.map (·.id))).filter
        (fun i => ¬ i ∈ firstKeys (current.map (·.id))) ↔ _
    simp [List.mem_filter, mem_firstKeys]
  · intro id
    show id ∈ (((firstKeys (previous.map (·.id))).filter
          fun i => i ∈ firstKeys (current.map (·.id))).filterMap fun i =>
        match mapGet (previous.map fun n => (n.id, n)) i,
              mapGet (current.map fun n => (n.id, n)) i with
        | some p, some c => if p.title ≠ c.title then some (i, c) else none
        | _, _ => none).map (·.1) ↔ _
    constructor
    · intro hmem
      rcases List.mem_map.mp hmem with ⟨pair, hpair, hfst⟩
      rcases List.mem_filterMap.mp hpair with ⟨i, _, hg⟩
      rcases hmp : mapGet (previous.map fun n => (n.id, n)) i with _ | p <;>
        rcases hmc : mapGet (current.map fun n => (n.id, n)) i with _ | c <;>
        rw [hmp, hmc] at hg
      · exact absurd hg (by simp)
      · exact absurd hg (by simp)
      · exact absurd hg (by simp)
      · dsimp only at hg
        rcases hti : decide ¬(p.title = c.title) with _ | _
        · rw [if_neg (by simpa using hti)] at hg
          cases hg
        · rw [if_pos (by simpa using hti)] at hg
          injection hg with hg
          subst hg
          simp only at hfst
          subst hfst
          obtain ⟨hpmem, hpid⟩ := (mapGet_map_eq_some_iff previous hp _ p).mp hmp
          obtain ⟨hcmem, hcid⟩ := (mapGet_map_eq_some_iff current hc _ c).mp hmc
          exact ⟨p, c, hpmem, hcmem, hpid, hcid, by simpa using hti⟩
    · rintro ⟨p, c, hpmem, hcmem, hpid, hcid, hti⟩
      apply List.mem_map.mpr
      refine ⟨(id, c), ?_, rfl⟩
      apply List.mem_filterMap.mpr
      refine ⟨id, ?_, ?_⟩
      · apply List.mem_filter.mpr
        constructor
        · exact (mem_firstKeys _ _).mpr (hpid ▸ List.mem_map_of_mem (·.id) hpmem)
        · simp only [decide_eq_true_eq, mem_firstKeys]
          exact hcid ▸ List.mem_map_of_mem (·.id) hcmem
      · rw [(mapGet_map_eq_some_iff previous hp id p).mpr ⟨hpmem, hpid⟩,
           (mapGet_map_eq_some_iff current hc id c).mpr ⟨hcmem, hcid⟩]
        dsimp only
        rw [if_pos hti]
  · have h1 : ∀ K : List String, (K.filter fun i => ¬ i ∈ K) = [] := by
      intro K
      rw [List.filter_eq_nil_iff]
      intro a ha
      simp [ha]
    have h2 : (((firstKeys (X.map (·.id))).filter
          fun i => i ∈ firstKeys (X.map (·.id))).filterMap fun i =>
        match mapGet (X.map fun n => (n.id, n)) i,
              mapGet (X.map fun n => (n.id, n)) i with
        | some p, some c => if p.title ≠ c.title then some (i, c) else none
        | _, _ => none) = [] := by
      rw [List.filterMap_eq_nil_iff]
      intro a _
      rcases hmx : mapGet (X.map fun n => (n.id, n)) a with _ | p
      · rw [hmx]
      · rw [hmx]
        dsimp only
        rw [if_neg (by simp)]
    show Diff.mk ((firstKeys (X.map (·.id))).filter fun i => ¬ i ∈ firstKeys (X.map (·.id)))
        ((((firstKeys (X.map (·.id))).filter fun i => i ∈ firstKeys (X.map (·.id))).filterMap
          fun i =>
            match mapGet (X.map fun n => (n.id, n)) i,
                  mapGet (X.map fun n => (n.id, n)) i with
            | some p, some c => if p.title ≠ c.title then some (i, c) else none
            | _, _ => none).map (·.1))
        ((firstKeys (X.map (·.id))).filter fun i => ¬ i ∈ firstKeys (X.map (·.id))) = ⟨[], [], []⟩
    rw [h1, h2]
    rfl
  · intro id ⟨ha, hr⟩
    have h1 := (List.mem_filter.mp ha).2
    have h2 := (List.mem_filter.mp hr).1
    simp only [decide_eq_true_eq, mem_firstKeys] at h1 h2
    exact h1 h2

/-- Witness for `C2_diff_calculate`: a freshly added id is reported. -/
theorem C2_diff_calculate_witness :
    "b" ∈ (calculate true [outN "a" "T"] [outN "a" "T", outN "b" "U"]).diff.added :=
  ((C2_diff_calculate [outN "a" "T"] [outN "a" "T", outN "b" "U"] []
    (by decide) (by decide)).1 "b").mpr (by decide)

/-! ## Snapshot index items and the snapshot diff (`src/Crawler/src/storage/local.rs`) -/

/-- Character-list prefix test. -/
def startsWithChars : List Char → List Char → Bool
  | [], _ => true
  | _ :: _, [] => false
  | p :: ps, c :: cs => p == c && startsWithChars ps cs

/-- Character-list infix test. -/
def containsChars (pat : List Char) : List Char → Bool
  | [] => pat.isEmpty
  | c :: cs => startsWithChars pat (c :: cs) || containsChars pat cs

/-- Rust `str::contains` (substring). -/
def strContains (s pat : String) : Bool :=
  containsChars pat.data s.data

/-- `NoticeCategory` from `src/Crawler/src/models/mod.rs`. -/
inductive NoticeCategory where
  | academic
  | scholarship
  | recruitment
  | event
  | general
  | other
deriving DecidableEq, Repr

/-- `map_category` from `src/Crawler/src/models/mod.rs`. -/
def mapCategory (boardName : String) : NoticeCategory :=
  if strContains boardName "학사" then .academic
  else if strContains boardName "장학" then .scholarship
  else if strContains boardName "채용" || strContains boardName "취업" then .recruitment
  else if strContains boardName "행사" || strContains boardName "안내" then .event
  else if strContains boardName "일반" then .general
  else .other

/-- Modelled from the spec: `NoticeIndexItem` — the struct itself is not
under `src/` (only its uses in `storage/local.rs` are) — the compact
per-snapshot projection
`{id, title, date, link, department_name, board_name, category, content_hash?}`. -/
structure NoticeIndexItem where
  id : String
  title : String
  date : String
  link : String
  departmentName : String
  boardName : String
  category : NoticeCategory
  contentHash : Option String
deriving DecidableEq, Repr

/-- Modelled from the spec: the `NoticeIndexItem::from(&Notice)` conversion
(absent from `src/`) — id is the canonical id, `category` is derived from
the board name, `content_hash` is SHA-256 over the user-visible fields. -/
def NoticeIndexItem.ofNotice (n : Notice) : NoticeIndexItem :=
  { id := n.canonicalId, title := n.title, date := n.normalizedDate, link := n.link,
    departmentName := n.departmentName, boardName := n.boardName,
    category := mapCategory n.boardName,
    contentHash := some (sha256Hex (strBytes
      (n.title ++ "|" ++ n.normalizedDate ++ "|" ++ n.link ++ "|" ++
        n.departmentName ++ "|" ++ n.boardName))) }

/-- Model of `Vec::sort` on strings (Rust's byte-wise order on UTF-8 equals
the code-point order used by Lean's `String` order). -/
def sortStrings (l : List String) : List String :=
  List.insertionSort (· ≤ ·) l

/-- The `aux/diff.json` computation inside `LocalStorage::write_snapshot`
(`src/Crawler/src/storage/local.rs`, lines 357–396): compare current index
items against the previous snapshot's id → content-hash map, then sort all
three id lists. -/
def snapshotDiff (previousItems indexItems : List NoticeIndexItem) : Diff :=
  let previousMap : List (String × Option String) :=
    previousItems.map fun i => (i.id, i.contentHash)
  let currentIds := firstKeys (indexItems.map (·.id))
  let currentHashes : List (String × String) :=
    indexItems.filterMap fun i => i.contentHash.map fun h => (i.id, h)
  let added := currentIds.filter fun id => (mapGet previousMap id).isNone
  let updated := currentIds.filterMap fun id =>
    match mapGet previousMap id with
    | some (some prevHash) =>
      match mapGet currentHashes id with
      | some currentHash => if currentHash ≠ prevHash then some id else none
      | none => none
    | _ => none
  let removed := (firstKeys (previousItems.map (·.id))).filter fun id => ¬ id ∈ currentIds
  { added := sortStrings added, updated := sortStrings updated,
    removed := sortStrings removed }

/-! ## Claim C3 — sortedness of the diff id lists -/

/-- **C3, counterexample.** `DiffCalculator::calculate` does *not* sort its
id lists: they are emitted in hash-set iteration order (here modelled by
insertion order, one of the orders a run can produce), so current input
`[id "b", id "a"]` against an empty previous snapshot yields
`added = ["b", "a"]`, which is not sorted. -/
theorem C3_diff_sorted_counterexample :
    (calculate true [] [outN "b" "B", outN "a" "A"]).diff.added = ["b", "a"] ∧
    ¬ List.Sorted (· ≤ ·) ((calculate true [] [outN "b" "B", outN "a" "A"]).diff.added) := by
  have h1 : (calculate true [] [outN "b" "B", outN "a" "A"]).diff.added = ["b", "a"] := by
    decide
  refine ⟨h1, ?_⟩
  intro hs
  rw [h1] at hs
  have hba : ("b" : String) ≤ "a" := List.rel_of_sorted_cons hs "a" (by simp)
  have hba2 : ("b" : String).toList ≤ ("a" : String).toList := String.le_iff_toList_le.mp hba
  exact absurd hba2 (by decide)

/-- **C3, amended.** The three id lists of the snapshot diff written by
`LocalStorage::write_snapshot` are each sorted (the source calls `.sort()`
on all three); the id lists of `DiffCalculator::calculate` are in hash
iteration order and not sorted in general. -/
theorem C3_snapshot_diff_sorted (previousItems indexItems : List NoticeIndexItem) :
    List.Sorted (· ≤ ·) (snapshotDiff previousItems indexItems).added ∧
    List.Sorted (· ≤ ·) (snapshotDiff previousItems indexItems).updated ∧
    List.Sorted (· ≤ ·) (snapshotDiff previousItems indexItems).removed := by
  refine ⟨?_, ?_, ?_⟩ <;> exact List.sorted_insertionSort _ _

/-! ## Inverted index (`src/Crawler/src/pipeline/index.rs`)

The `unicode_words` segmentation of the `unicode-segmentation` crate is an
external library; the theorems quantify over an arbitrary segmentation
function `uwords`, so they hold whatever that crate returns. -/

/-- `IndexConfig`. -/
structure IndexConfig where
  minTokenLength : Nat
  maxTokensPerNotice : Nat
  indexMetadata : Bool
deriving DecidableEq, Repr

/-- `IndexConfig::default()`: `{2, 50, true}`. -/
def IndexConfig.defaultCfg : IndexConfig :=
  { minTokenLength := 2, maxTokensPerNotice := 50, indexMetadata := true }

/-- The `STOPWORDS` table of `is_stopword`. -/
def stopwordList : List String :=
  ["및", "의", "를", "을", "가", "이", "은", "는", "에서", "으로", "로", "와", "과",
   "the", "a", "an", "is", "are", "was", "were", "be", "been", "being", "have", "has",
   "had", "do", "does", "did", "will", "would", "could", "should", "may", "might",
   "can", "must", "shall", "of", "to", "in", "for", "on", "with", "at", "by", "from",
   "as", "or", "and", "but", "if", "then", "so", "than",
   "http", "https", "www", "com", "kr", "html", "php", "asp"]

/-- `is_stopword` from `src/Crawler/src/pipeline/index.rs`. -/
def isStopword (w : String) : Bool :=
  stopwordList.contains w

/-- `IndexBuilder::tokenize`: lower-case, segment into words, keep words of
byte length at least `min_token_length` that are not stop-words. -/
def tokenize (uwords : String → List String) (cfg : IndexConfig) (text : String) :
    List String :=
  (uwords (toLowerStr text)).filter fun w =>
    decide (cfg.minTokenLength ≤ utf8Len w) && !isStopword w

/-- The metadata tokens of `IndexBuilder::add_notice` (campus, department,
board, and college when non-empty), when metadata indexing is on. -/
def metaTokens (uwords : String → List String) (cfg : IndexConfig) (n : NoticeOutput) :
    List String :=
  if cfg.indexMetadata then
    tokenize uwords cfg n.metadata.campus ++
    tokenize uwords cfg n.metadata.departmentName ++
    tokenize uwords cfg n.metadata.boardName ++
    (if n.metadata.college ≠ "" then tokenize uwords cfg n.metadata.college else [])
  else []

/-- All tokens `add_notice` derives from one notice, truncated to
`max_tokens_per_notice`. -/
def noticeTokens (uwords : String → List String) (cfg : IndexConfig) (n : NoticeOutput) :
    List String :=
  (tokenize uwords cfg n.title ++ metaTokens uwords cfg n).take cfg.maxTokensPerNotice

/-- `self.index.entry(token).or_default().insert(id)`. -/
def insertToken : List (String × List String) → String → String →
    List (String × List String)
  | [], t, i => [(t, [i])]
  | (k, v) :: rest, t, i =>
    if k = t then (k, insertOnce v i) :: rest
    else (k, v) :: insertToken rest t i

/-- `IndexBuilder::add_notice` acting on the builder state
`(index, notice_count)`. -/
def addNotice (uwords : String → List String) (cfg : IndexConfig)
    (st : List (String × List String) × Nat) (n : NoticeOutput) :
    List (String × List String) × Nat :=
  ((noticeTokens uwords cfg n).foldl (fun ix t => insertToken ix t n.id) st.1, st.2 + 1)

/-- `InvertedIndex` from `src/Crawler/src/pipeline/index.rs`. -/
structure InvertedIndex where
  version : Nat
  noticeCount : Nat
  tokenCount : Nat
  index : List (String × List String)
deriving DecidableEq, Repr

/-- `build_index` (an `IndexBuilder::new` + `add_notices` + `build` run,
generalized over the configuration): fold all notices into the builder, then
sort every id set. -/
def buildIndexWith (uwords : String → List String) (cfg : IndexConfig)
    (notices : List NoticeOutput) : InvertedIndex :=
  let st := notices.foldl (addNotice uwords cfg) ([], 0)
  { version := 1, noticeCount := st.2, tokenCount := st.1.length,
    index := st.1.map fun kv => (kv.1, sortStrings kv.2) }

/-- Invariant carried through the index build: every key satisfies `P`,
every id in every value set satisfies `Q`, and value sets are duplicate
free. -/
def IxOK (P Q : String → Prop) (ix : List (String × List String)) : Prop :=
  ∀ kv ∈ ix, P kv.1 ∧ (∀ id ∈ kv.2, Q id) ∧ kv.2.Nodup

theorem mem_insertOnce (v : List String) (i x : String) :
    x ∈ insertOnce v i ↔ x ∈ v ∨ x = i := by
  unfold insertOnce
  split
  next h =>
    constructor
    · exact Or.inl
    · rintro (hx | rfl)
      · exact hx
      · exact h
  next h => simp [List.mem_append]

theorem nodup_insertOnce (v : List String) (i : String) (hv : v.Nodup) :
    (insertOnce v i).Nodup := by
  unfold insertOnce
  split
  next => exact hv
  next h => simp [List.nodup_append, hv, h]

theorem insertToken_ok (P Q : String → Prop) (ix : List (String × List String))
    (t i : String) (hix : IxOK P Q ix) (ht : P t) (hi : Q i) :
    IxOK P Q (insertToken ix t i) := by
  induction ix with
  | nil =>
    intro kv hkv
    simp only [insertToken, List.mem_singleton] at hkv
    subst hkv
    exact ⟨ht, by simpa using hi, by simp⟩
  | cons e rest ih =>
    obtain ⟨k, v⟩ := e
    simp only [insertToken]
    split
    next heq =>
      intro kv hkv
      rcases List.mem_cons.mp hkv with rfl | hkv2
      · obtain ⟨hP, hQ, hnd⟩ := hix (k, v) (List.mem_cons_self _ _)
        refine ⟨hP, ?_, nodup_insertOnce v i hnd⟩
        intro id hid
        rcases (mem_insertOnce v i id).mp hid with hid2 | rfl
        · exact hQ id hid2
        · exact hi
      · exact hix kv (List.mem_cons_of_mem _ hkv2)
    next heq =>
      intro kv hkv
      rcases List.mem_cons.mp hkv with rfl | hkv2
      · exact hix _ (List.mem_cons_self _ _)
      · exact ih (fun e he => hix e (List.mem_cons_of_mem _ he)) kv hkv2

theorem foldTokens_ok (P Q : String → Prop) (i : String) (tokens : List String)
    (ix : List (String × List String)) (hix : IxOK P Q ix)
    (htokens : ∀ t ∈ tokens, P t) (hi : Q i) :
    IxOK P Q (tokens.foldl (fun ix t => insertToken ix t i) ix) := by
  induction tokens generalizing ix with
  | nil => exact hix
  | cons t ts ih =>
    rw [List.foldl_cons]
    exact ih _ (insertToken_ok P Q ix t i hix (htokens t (List.mem_cons_self _ _)) hi)
      (fun u hu => htokens u (List.mem_cons_of_mem _ hu))

theorem foldNotices_ok (uwords : String → List String) (cfg : IndexConfig)
    (notices : List NoticeOutput) (l : List NoticeOutput)
    (hsub : ∀ n ∈ l, n ∈ notices) (st : List (String × List String) × Nat)
    (hst : IxOK (fun k => ∃ n, n ∈ notices ∧ k ∈ noticeTokens uwords cfg n)
      (fun id => id ∈ notices.map (·.id)) st.1) :
    IxOK (fun k => ∃ n, n ∈ notices ∧ k ∈ noticeTokens uwords cfg n)
      (fun id => id ∈ notices.map (·.id)) (l.foldl (addNotice uwords cfg) st).1 := by
  induction l generalizing st with
  | nil => exact hst
  | cons n ns ih =>
    rw [List.foldl_cons]
    apply ih (fun m hm => hsub m (List.mem_cons_of_mem _ hm))
    apply foldTokens_ok _ _ _ _ _ hst
    · intro t htok
      exact ⟨n, hsub n (List.mem_cons_self _ _), htok⟩
    · exact List.mem_map_of_mem (·.id) (hsub n (List.mem_cons_self _ _))

theorem foldNotices_count (uwords : String → List String) (cfg : IndexConfig)
    (l : List NoticeOutput) (st : List (String × List String) × Nat) :
    (l.foldl (addNotice uwords cfg) st).2 = st.2 + l.length := by
  induction l generalizing st with
  | nil => simp
  | cons n ns ih =>
    rw [List.foldl_cons, ih]
    simp [addNotice]
    omega

theorem mem_tokenize_filters (uwords : String → List String) (cfg : IndexConfig)
    (text t : String) (h : t ∈ tokenize uwords cfg text) :
    isStopword t = false ∧ cfg.minTokenLength ≤ utf8Len t ∧
      t ∈ uwords (toLowerStr text) := by
  unfold tokenize at h
  have h2 := List.mem_filter.mp h
  have h3 := h2.2
  simp only [Bool.and_eq_true, decide_eq_true_eq, Bool.not_eq_true'] at h3
  exact ⟨h3.2, h3.1, h2.1⟩

theorem mem_noticeTokens_src (uwords : String → List String) (cfg : IndexConfig)
    (n : NoticeOutput) (t : String) (h : t ∈ noticeTokens uwords cfg n) :
    isStopword t = false ∧ cfg.minTokenLength ≤ utf8Len t := by
  unfold noticeTokens at h
  have h2 := List.take_subset _ _ h
  rcases List.mem_append.mp h2 with h3 | h3
  · exact ⟨(mem_tokenize_filters uwords cfg _ t h3).1,
      (mem_tokenize_filters uwords cfg _ t h3).2.1⟩
  · unfold metaTokens at h3
    split at h3
    · rcases List.mem_append.mp h3 with h4 | h4
      · rcases List.mem_append.mp h4 with h5 | h5
        · rcases List.mem_append.mp h5 with h6 | h6
          · exact ⟨(mem_tokenize_filters uwords cfg _ t h6).1,
              (mem_tokenize_filters uwords cfg _ t h6).2.1⟩
          · exact ⟨(mem_tokenize_filters uwords cfg _ t h6).1,
              (mem_tokenize_filters uwords cfg _ t h6).2.1⟩
        · exact ⟨(mem_tokenize_filters uwords cfg _ t h5).1,
            (mem_tokenize_filters uwords cfg _ t h5).2.1⟩
      · split at h4
        · exact ⟨(mem_tokenize_filters uwords cfg _ t h4).1,
            (mem_tokenize_filters uwords cfg _ t h4).2.1⟩
        · cases h4
    · cases h3

/-! ## Claim C8 — inverted index -/

/-- **C8.** For any segmentation function, configuration and notice list:
no stop-word appears as a key, every key passed the byte-length filter and
stems from `add_notice`'s tokens of some input notice, every listed id is an
input notice id, every value list is sorted and duplicate-free,
`notice_count` and `token_count` are as claimed, and the build is a pure
function of its input (deterministic). -/
theorem C8_build_index (uwords : String → List String) (cfg : IndexConfig)
    (notices : List NoticeOutput) :
    (∀ k v, (k, v) ∈ (buildIndexWith uwords cfg notices).index →
      isStopword k = false ∧ cfg.minTokenLength ≤ utf8Len k ∧
      ∃ n, n ∈ notices ∧ k ∈ noticeTokens uwords cfg n) ∧
    (∀ k v, (k, v) ∈ (buildIndexWith uwords cfg notices).index →
      ∀ id ∈ v, id ∈ notices.map (·.id)) ∧
    (∀ k v, (k, v) ∈ (buildIndexWith uwords cfg notices).index →
      List.Sorted (· ≤ ·) v ∧ v.Nodup) ∧
    (buildIndexWith uwords cfg notices).noticeCount = notices.length ∧
    (buildIndexWith uwords cfg notices).tokenCount =
      (buildIndexWith uwords cfg notices).index.length ∧
    buildIndexWith uwords cfg notices = buildIndexWith uwords cfg notices := by
  have hok : IxOK (fun k => ∃ n, n ∈ notices ∧ k ∈ noticeTokens uwords cfg n)
      (fun id => id ∈ notices.map (·.id))
      (notices.foldl (addNotice uwords cfg) ([], 0)).1 :=
    foldNotices_ok uwords cfg notices notices (fun _ h => h) ([], 0) (by intro kv hkv; cases hkv)
  refine ⟨?_, ?_, ?_, ?_, ?_, rfl⟩
  · intro k v hkv
    rcases List.mem_map.mp hkv with ⟨kv0, hkv0, heq⟩
    have hk : kv0.1 = k := congrArg Prod.fst heq
    obtain ⟨⟨n, hn, htok⟩, _, _⟩ := hok kv0 hkv0
    rw [hk] at htok
    obtain ⟨hs, hl⟩ := mem_noticeTokens_src uwords cfg n k htok
    exact ⟨hs, hl, n, hn, htok⟩
  · intro k v hkv id hid
    rcases List.mem_map.mp hkv with ⟨kv0, hkv0, heq⟩
    obtain ⟨_, hQ, _⟩ := hok kv0 hkv0
    have hv : v = sortStrings kv0.2 := (congrArg Prod.snd heq).symm
    have : id ∈ kv0.2 := (List.perm_insertionSort _ kv0.2).mem_iff.mp (hv ▸ hid)
    exact hQ id this
  · intro k v hkv
    rcases List.mem_map.mp hkv with ⟨kv0, hkv0, heq⟩
    obtain ⟨_, _, hnd⟩ := hok kv0 hkv0
    have hv : v = sortStrings kv0.2 := (congrArg Prod.snd heq).symm
    subst hv
    exact ⟨List.sorted_insertionSort _ _, ((List.perm_insertionSort _ kv0.2).symm).nodup hnd⟩
  · show (notices.foldl (addNotice uwords cfg) ([], 0)).2 = notices.length
    rw [foldNotices_count]
    simp
  · show (notices.foldl (addNotice uwords cfg) ([], 0)).1.length = _
    exact (List.length_map _ _).symm

/-- Split a character list at every character satisfying `p` (pieces kept,
possibly empty). -/
def splitChars (p : Char → Bool) : List Char → List (List Char)
  | [] => [[]]
  | c :: cs =>
    if p c then [] :: splitChars p cs
    else
      match splitChars p cs with
      | [] => [[c]]
      | q :: qs => (c :: q) :: qs

/-- A simple concrete segmentation (split on non-alphanumeric characters),
used to instantiate `C8_build_index` on a concrete input. -/
def simpleWords (s : String) : List String :=
  ((splitChars (fun c => !c.isAlphanum) s.data).filter fun l => !l.isEmpty).map String.mk

/-- Witness for `C8_build_index` with a concrete segmentation: in the index
of one notice titled "the quick brown fox", the key `"quick"` maps to the
notice's id, is no stop-word and passed the length filter. -/
theorem C8_build_index_witness :
    isStopword "quick" = false ∧
    IndexConfig.defaultCfg.minTokenLength ≤ utf8Len "quick" ∧
    ∃ n, n ∈ [outN "001" "the quick brown fox"] ∧
      "quick" ∈ noticeTokens simpleWords IndexConfig.defaultCfg n :=
  (C8_build_index simpleWords IndexConfig.defaultCfg [outN "001" "the quick brown fox"]).1
    "quick" ["001"] (by decide)

/-! ## Decimal rendering and separator lemmas (for the `_2`, `_3`, … id
suffixes of board discovery) -/

/-- Decimal digit characters of `n`, most significant first (fuel-bounded
structural recursion; models Rust `format!("{}", n)`). -/
def natDigitsAux : Nat → Nat → List Char
  | 0, _ => []
  | fuel + 1, n => if n < 10 then [digitChar n] else natDigitsAux fuel (n / 10) ++ [digitChar n]

/-- Decimal rendering of a `Nat` (Rust `format!("{}", n)`). -/
def natStr (n : Nat) : String :=
  String.mk (natDigitsAux (n + 1) n)

theorem digitChar_toNat (n : Nat) : (digitChar n).toNat = 48 + n % 10 := by
  unfold digitChar
  have h : n % 10 < 10 := Nat.mod_lt _ (by norm_num)
  revert h
  generalize n % 10 = k
  intro h
  interval_cases k <;> rfl

theorem digitChar_ne_underscore (n : Nat) : digitChar n ≠ '_' := by
  intro e
  have h := congrArg Char.toNat e
  rw [digitChar_toNat] at h
  have h2 : ('_').toNat = 95 := rfl
  omega

theorem underscore_notMem_natDigitsAux (fuel n : Nat) :
    ¬ '_' ∈ natDigitsAux fuel n := by
  induction fuel generalizing n with
  | zero => simp [natDigitsAux]
  | succ f ih =>
    unfold natDigitsAux
    split
    · intro hmem
      simp only [List.mem_singleton] at hmem
      exact digitChar_ne_underscore n hmem.symm
    · intro hmem
      rcases List.mem_append.mp hmem with h | h
      · exact ih (n / 10) h
      · simp at h
        exact digitChar_ne_underscore n h.symm

theorem foldl_natDigitsAux (fuel : Nat) : ∀ n, n < 10 ^ fuel →
    (natDigitsAux fuel n).foldl (fun a c => a * 10 + (c.toNat - 48)) 0 = n := by
  induction fuel with
  | zero =>
    intro n h
    simp at h
    subst h
    rfl
  | succ f ih =>
    intro n h
    unfold natDigitsAux
    split
    next hlt =>
      simp only [List.foldl_cons, List.foldl_nil]
      rw [digitChar_toNat]
      omega
    next hge =>
      rw [List.foldl_append]
      have hdivlt : n / 10 < 10 ^ f := by
        have hp : 10 ^ (f + 1) = 10 ^ f * 10 := pow_succ 10 f
        have := (Nat.div_lt_iff_lt_mul (by norm_num : 0 < 10)).mpr (hp ▸ h)
        exact this
      rw [ih (n / 10) hdivlt]
      simp only [List.foldl_cons, List.foldl_nil]
      rw [digitChar_toNat]
      omega

theorem strToNat_natStr (n : Nat) : strToNat (natStr n) = n := by
  have hlt : n < 10 ^ (n + 1) := by
    calc n < 10 ^ n := Nat.lt_pow_self (by norm_num) n
    _ ≤ 10 ^ (n + 1) := Nat.pow_le_pow_right (by norm_num) (Nat.le_succ n)
  exact foldl_natDigitsAux (n + 1) n hlt

theorem natStr_inj {a b : Nat} (h : natStr a = natStr b) : a = b := by
  have := congrArg strToNat h
  rwa [strToNat_natStr, strToNat_natStr] at this

theorem strAppend_data (s t : String) : (s ++ t).data = s.data ++ t.data := by
  cases s
  cases t
  rfl

theorem stringData_inj {s t : String} (h : s.data = t.data) : s = t := by
  cases s
  cases t
  exact congrArg String.mk h

theorem underscore_mem_suffixed (k s : String) :
    '_' ∈ (k ++ "_" ++ s).data := by
  rw [strAppend_data, strAppend_data]
  simp

theorem sep_append_inj {sep : Char} :
    ∀ (a b c d : List Char), ¬ sep ∈ a → ¬ sep ∈ b →
      a ++ sep :: c = b ++ sep :: d → a = b ∧ c = d := by
  intro a
  induction a with
  | nil =>
    intro b c d _ hb h
    cases b with
    | nil =>
      simp only [List.nil_append] at h
      injection h with _ h2
      exact ⟨rfl, h2⟩
    | cons y ys =>
      simp only [List.nil_append, List.cons_append] at h
      injection h with h1 _
      exact absurd (h1 ▸ List.mem_cons_self y ys) hb
  | cons x xs ih =>
    intro b c d ha hb h
    cases b with
    | nil =>
      simp only [List.cons_append, List.nil_append] at h
      injection h with h1 _
      exact absurd (h1 ▸ List.mem_cons_self x xs) ha
    | cons y ys =>
      simp only [List.cons_append] at h
      injection h with h1 h2
      have hxs : ¬ sep ∈ xs := fun hm => ha (List.mem_cons_of_mem _ hm)
      have hys : ¬ sep ∈ ys := fun hm => hb (List.mem_cons_of_mem _ hm)
      obtain ⟨he, hcd⟩ := ih ys c d hxs hys h2
      exact ⟨by rw [h1, he], hcd⟩

theorem suffixed_eq_iff (k k2 s s2 : String)
    (hk : ¬ '_' ∈ k.data) (hk2 : ¬ '_' ∈ k2.data)
    (h : k ++ "_" ++ s = k2 ++ "_" ++ s2) : k = k2 ∧ s = s2 := by
  have hd := congrArg String.data h
  rw [strAppend_data, strAppend_data, strAppend_data, strAppend_data] at hd
  have hu : ("_" : String).data = ['_'] := rfl
  rw [hu] at hd
  simp only [List.append_assoc, List.singleton_append] at hd
  obtain ⟨h1, h2⟩ := sep_append_inj k.data k2.data s.data s2.data hk hk2 hd
  exact ⟨stringData_inj h1, stringData_inj h2⟩

/-! ## Board discovery (`src/Crawler/src/services/boards.rs`)

The HTML/link-collection stage (fetching the homepage and sitemap,
resolving and domain/blacklist-filtering hrefs) is abstracted: a page is
its surviving candidate list of `(anchor text, absolute url)` pairs.
Selector detection (`detect_board_selectors`) always succeeds in the
source — it falls back to `CmsSelectors::fallback()` — and is abstracted
by a total function `selFor`. -/

/-- `CmsSelectors` from `src/Crawler/src/models/selectors.rs`. -/
structure CmsSelectors where
  rowSelector : String
  titleSelector : String
  dateSelector : String
  authorSelector : Option String
  bodySelector : Option String
  attrName : String
  linkSelector : Option String
deriving DecidableEq, Repr

/-- `CmsSelectors::fallback()`. -/
def CmsSelectors.fallback : CmsSelectors :=
  { rowSelector := "table tr:has(a)", titleSelector := "a",
    dateSelector := "td:last-child", authorSelector := none, bodySelector := none,
    attrName := "href", linkSelector := none }

/-- `Board` from `src/Crawler/src/models/campus.rs`. -/
structure Board where
  id : String
  name : String
  url : String
  selectors : CmsSelectors
deriving DecidableEq, Repr

/-- `KeywordMapping` from `src/Crawler/src/models/seed.rs`. -/
structure KeywordMapping where
  keyword : String
  id : String
  displayName : String
deriving DecidableEq, Repr

/-- `BoardDiscoveryService::try_create_board`: the first keyword mapping
whose keyword is a substring of the anchor text names the board. -/
def tryCreateBoard (keywords : List KeywordMapping) (selFor : String → CmsSelectors)
    (link : String × String) : Option Board :=
  match keywords.find? fun m => strContains link.1 m.keyword with
  | none => none
  | some mapping =>
    some { id := mapping.id,
           name := if link.1 = "" then mapping.displayName else link.1,
           url := link.2,
           selectors := selFor link.2 }

/-- `id_counts.entry(board.id.clone()).or_insert(0); *count += 1`: returns
the updated counts and the new count of the key. -/
def bumpCount : List (String × Nat) → String → List (String × Nat) × Nat
  | [], k => ([(k, 1)], 1)
  | (k0, c) :: rest, k =>
    if k0 = k then ((k0, c + 1) :: rest, c + 1)
    else
      let r := bumpCount rest k
      ((k0, c) :: r.1, r.2)

/-- The suffix-disambiguating fold at the end of
`BoardDiscoveryService::extract_boards`: the first occurrence of an id is
kept, later occurrences get `_2`, `_3`, … appended. -/
def assignIds : List Board → List (String × Nat) → List Board → List Board
  | [], _, acc => acc.reverse
  | b :: bs, counts, acc =>
    let r := bumpCount counts b.id
    let b2 := if r.2 > 1 then { b with id := b.id ++ "_" ++ natStr r.2 } else b
    assignIds bs r.1 (b2 :: acc)

/-- `BoardDiscoveryService::extract_boards` from the candidate-link stage
on: create a board per keyword-matching link, then disambiguate ids. -/
def extractBoards (keywords : List KeywordMapping) (selFor : String → CmsSelectors)
    (links : List (String × String)) : List Board :=
  assignIds (links.filterMap (tryCreateBoard keywords selFor)) [] []

/-- `BoardDiscoveryService::merge_boards`: concatenate homepage and sitemap
boards, deduplicating by URL with first (homepage) occurrence winning. -/
def mergeBoards (primary secondary : List Board) : List Board :=
  ((primary ++ secondary).foldl
    (fun (st : List String × List Board) b =>
      if b.url ∈ st.1 then st else (st.1 ++ [b.url], st.2 ++ [b]))
    ([], [])).2

/-! Lemmas about `bumpCount`. -/

theorem bumpCount_snd_pos (counts : List (String × Nat)) (k : String) :
    1 ≤ (bumpCount counts k).2 := by
  induction counts with
  | nil => simp [bumpCount]
  | cons e rest ih =>
    obtain ⟨k0, c⟩ := e
    simp only [bumpCount]
    split
    · simp
    · exact ih

theorem bumpCount_self_mem (counts : List (String × Nat)) (k : String) :
    (k, (bumpCount counts k).2) ∈ (bumpCount counts k).1 := by
  induction counts with
  | nil => simp [bumpCount]
  | cons e rest ih =>
    obtain ⟨k0, c⟩ := e
    simp only [bumpCount]
    split
    next heq => subst heq; exact List.mem_cons_self _ _
    next => exact List.mem_cons_of_mem _ ih

theorem bumpCount_mono (counts : List (String × Nat)) (k : String) :
    ∀ kc ∈ counts, ∃ kc' ∈ (bumpCount counts k).1, kc'.1 = kc.1 ∧ kc.2 ≤ kc'.2 := by
  induction counts with
  | nil => simp
  | cons e rest ih =>
    obtain ⟨k0, c⟩ := e
    intro kc hkc
    simp only [bumpCount]
    split
    next heq =>
      rcases List.mem_cons.mp hkc with rfl | h2
      · exact ⟨(k0, c + 1), List.mem_cons_self _ _, rfl, Nat.le_succ c⟩
      · exact ⟨kc, List.mem_cons_of_mem _ h2, rfl, le_rfl⟩
    next =>
      rcases List.mem_cons.mp hkc with rfl | h2
      · exact ⟨(k0, c), List.mem_cons_self _ _, rfl, le_rfl⟩
      · obtain ⟨kc', hkc', he, hle⟩ := ih kc h2
        exact ⟨kc', List.mem_cons_of_mem _ hkc', he, hle⟩

theorem bumpCount_entry_cases (counts : List (String × Nat)) (k : String) :
    ∀ kc ∈ (bumpCount counts k).1, kc.1 = k ∨ kc ∈ counts := by
  induction counts with
  | nil =>
    intro kc hkc
    simp only [bumpCount, List.mem_singleton] at hkc
    subst hkc
    exact Or.inl rfl
  | cons e rest ih =>
    obtain ⟨k0, c⟩ := e
    intro kc hkc
    simp only [bumpCount] at hkc
    split at hkc
    next heq =>
      rcases List.mem_cons.mp hkc with rfl | h2
      · exact Or.inl heq
      · exact Or.inr (List.mem_cons_of_mem _ h2)
    next =>
      rcases List.mem_cons.mp hkc with rfl | h2
      · exact Or.inr (List.mem_cons_self _ _)
      · rcases ih kc h2 with h | h
        · exact Or.inl h
        · exact Or.inr (List.mem_cons_of_mem _ h)

theorem bumpCount_keys_of_mem (counts : List (String × Nat)) (k : String)
    (h : k ∈ counts.map (·.1)) :
    (bumpCount counts k).1.map (·.1) = counts.map (·.1) := by
  induction counts with
  | nil => simp at h
  | cons e rest ih =>
    obtain ⟨k0, c⟩ := e
    simp only [bumpCount]
    split
    next => simp
    next hne =>
      simp only [List.map_cons] at h ⊢
      rcases List.mem_cons.mp h with h2 | h2
      · exact absurd h2.symm hne
      · rw [ih h2]

theorem bumpCount_keys_of_not_mem (counts : List (String × Nat)) (k : String)
    (h : ¬ k ∈ counts.map (·.1)) :
    (bumpCount counts k).1.map (·.1) = counts.map (·.1) ++ [k] := by
  induction counts with
  | nil => simp [bumpCount]
  | cons e rest ih =>
    obtain ⟨k0, c⟩ := e
    simp only [List.map_cons, List.mem_cons] at h
    push_neg at h
    simp only [bumpCount]
    split
    next heq => exact absurd heq (Ne.symm h.1)
    next =>
      simp only [List.map_cons, List.cons_append]
      rw [ih h.2]

theorem bumpCount_of_mem (counts : List (String × Nat)) (k : String) (c0 : Nat)
    (hnd : (counts.map (·.1)).Nodup) (hm : (k, c0) ∈ counts) :
    (bumpCount counts k).2 = c0 + 1 := by
  induction counts with
  | nil => cases hm
  | cons e rest ih =>
    obtain ⟨k0, c⟩ := e
    have hnd2 : (rest.map (·.1)).Nodup := (List.nodup_cons.mp hnd).2
    have hk0 : ¬ k0 ∈ rest.map (·.1) := (List.nodup_cons.mp hnd).1
    simp only [bumpCount]
    split
    next heq =>
      rcases List.mem_cons.mp hm with h2 | h2
      · injection h2 with h3 h4
        simp [h4]
      · subst heq
        exact absurd (List.mem_map_of_mem (·.1) h2) hk0
    next hne =>
      rcases List.mem_cons.mp hm with h2 | h2
      · injection h2 with h3 _
        exact absurd h3.symm hne
      · exact ih hnd2 h2

theorem bumpCount_of_not_mem (counts : List (String × Nat)) (k : String)
    (h : ¬ k ∈ counts.map (·.1)) :
    (bumpCount counts k).2 = 1 := by
  induction counts with
  | nil => rfl
  | cons e rest ih =>
    obtain ⟨k0, c⟩ := e
    simp only [List.map_cons, List.mem_cons] at h
    push_neg at h
    simp only [bumpCount]
    split
    next heq => exact absurd heq (Ne.symm h.1)
    next => exact ih h.2

theorem bumpCount_vals (counts : List (String × Nat)) (k : String)
    (h : ∀ kc ∈ counts, 1 ≤ kc.2) :
    ∀ kc ∈ (bumpCount counts k).1, 1 ≤ kc.2 := by
  induction counts with
  | nil =>
    intro kc hkc
    simp only [bumpCount, List.mem_singleton] at hkc
    subst hkc
    exact le_rfl
  | cons e rest ih =>
    obtain ⟨k0, c⟩ := e
    intro kc hkc
    simp only [bumpCount] at hkc
    split at hkc
    next =>
      rcases List.mem_cons.mp hkc with rfl | h2
      · simp
      · exact h kc (List.mem_cons_of_mem _ h2)
    next =>
      rcases List.mem_cons.mp hkc with rfl | h2
      · exact h _ (List.mem_cons_self _ _)
      · exact ih (fun e he => h e (List.mem_cons_of_mem _ he)) kc h2

/-- Invariant of the id-assignment fold: count keys are distinct,
underscore-free and positive; accumulated ids are distinct; and every
accumulated id is a counted key, plain or with a suffix bounded by its
count. -/
def CountsInv (counts : List (String × Nat)) (accIds : List String) : Prop :=
  (counts.map (·.1)).Nodup ∧
  (∀ kc ∈ counts, 1 ≤ kc.2 ∧ ¬ '_' ∈ kc.1.data) ∧
  accIds.Nodup ∧
  (∀ id ∈ accIds, ∃ kc ∈ counts, id = kc.1 ∨
    ∃ j, 2 ≤ j ∧ j ≤ kc.2 ∧ id = kc.1 ++ "_" ++ natStr j)

theorem assignIds_nodup :
    ∀ (boards : List Board) (counts : List (String × Nat)) (acc : List Board),
      (∀ b ∈ boards, ¬ '_' ∈ b.id.data) →
      CountsInv counts (acc.map (·.id)) →
      ((assignIds boards counts acc).map (·.id)).Nodup := by
  intro boards
  induction boards with
  | nil =>
    intro counts acc _ hinv
    simp only [assignIds, List.map_reverse]
    exact List.nodup_reverse.mpr hinv.2.2.1
  | cons b bs ih =>
    intro counts acc hub hinv
    obtain ⟨hkeysnd, hvals, haccnd, hprov⟩ := hinv
    have hbid : ¬ '_' ∈ b.id.data := hub b (List.mem_cons_self _ _)
    simp only [assignIds]
    apply ih _ _ (fun x hx => hub x (List.mem_cons_of_mem _ hx))
    set c := (bumpCount counts b.id).2 with hc
    have hb2id : (if (bumpCount counts b.id).2 > 1 then
        { b with id := b.id ++ "_" ++ natStr (bumpCount counts b.id).2 } else b).id =
        (if c > 1 then b.id ++ "_" ++ natStr c else b.id) := by
      rw [← hc]
      split <;> rfl
    -- the freshly assigned id is new
    have hfresh : ¬ (if c > 1 then b.id ++ "_" ++ natStr c else b.id) ∈ acc.map (·.id) := by
      intro hmem
      obtain ⟨kc, hkc, hcase⟩ := hprov _ hmem
      by_cases hgt : c > 1
      · rw [if_pos hgt] at hcase
        rcases hcase with hbase | ⟨j, hj2, hjle, hsuf⟩
        · exact absurd (hbase ▸ underscore_mem_suffixed b.id (natStr c))
            (hvals kc hkc).2
        · obtain ⟨hk, hs⟩ := suffixed_eq_iff b.id kc.1 (natStr c) (natStr j)
            hbid (hvals kc hkc).2 hsuf
          have hj : j = c := natStr_inj hs.symm
          have hkc2 : (b.id, kc.2) ∈ counts := by
            have hkceq : kc = (b.id, kc.2) := by
              rw [hk]
            rw [← hkceq]
            exact hkc
          have := bumpCount_of_mem counts b.id kc.2 hkeysnd hkc2
          rw [← hc] at this
          omega
      · have hc1 : c = 1 := by
          have := bumpCount_snd_pos counts b.id
          rw [← hc] at this
          omega
        rw [if_neg hgt] at hcase
        rcases hcase with hbase | ⟨j, hj2, hjle, hsuf⟩
        · -- b.id is already a counted key, so its count would exceed 1
          have hkc2 : (b.id, kc.2) ∈ counts := by
            have hkceq : kc = (b.id, kc.2) := by
              rw [hbase]
            rw [← hkceq]
            exact hkc
          have := bumpCount_of_mem counts b.id kc.2 hkeysnd hkc2
          rw [← hc] at this
          have := (hvals kc hkc).1
          omega
        · exact absurd (hsuf ▸ underscore_mem_suffixed kc.1 (natStr j)) hbid
    -- re-establish the invariant
    refine ⟨?_, ?_, ?_, ?_⟩
    · by_cases hkin : b.id ∈ counts.map (·.1)
      · rw [bumpCount_keys_of_mem counts b.id hkin]
        exact hkeysnd
      · rw [bumpCount_keys_of_not_mem counts b.id hkin]
        simp [List.nodup_append, hkeysnd, hkin]
    · intro kc hkc
      refine ⟨bumpCount_vals counts b.id (fun e he => (hvals e he).1) kc hkc, ?_⟩
      rcases bumpCount_entry_cases counts b.id kc hkc with hk | hold
      · rw [hk]
        exact hbid
      · exact (hvals kc hold).2
    · simp only [List.map_cons]
      rw [hb2id]
      exact List.nodup_cons.mpr ⟨hfresh, haccnd⟩
    · intro id hid
      simp only [List.map_cons] at hid
      rw [hb2id] at hid
      rcases List.mem_cons.mp hid with rfl | hold
      · by_cases hgt : c > 1
        · rw [if_pos hgt]
          refine ⟨(b.id, c), ?_, Or.inr ⟨c, by omega, le_rfl, rfl⟩⟩
          rw [hc]
          exact bumpCount_self_mem counts b.id
        · rw [if_neg hgt]
          refine ⟨(b.id, c), ?_, Or.inl rfl⟩
          rw [hc]
          exact bumpCount_self_mem counts b.id
      · obtain ⟨kc, hkc, hcase⟩ := hprov _ hold
        obtain ⟨kc', hkc', hke, hkle⟩ := bumpCount_mono counts b.id kc hkc
        refine ⟨kc', hkc', ?_⟩
        rcases hcase with hbase | ⟨j, hj2, hjle, hsuf⟩
        · exact Or.inl (by rw [hke]; exact hbase)
        · refine Or.inr ⟨j, hj2, le_trans hjle hkle, ?_⟩
          rw [hke]
          exact hsuf

/-! ## Claim C9 — board id uniqueness after discovery -/

/-- Keyword fixture: anchor texts containing "공지" map to board id
`notice`. -/
def kwNotice : KeywordMapping :=
  { keyword := "공지", id := "notice", displayName := "공지사항" }

/-- Keyword fixture with a literal suffixed id. -/
def kwAlert : KeywordMapping :=
  { keyword := "알림", id := "notice_2", displayName := "알림" }

/-- A selector-detection stand-in that always returns the fallback. -/
def anySel : String → CmsSelectors := fun _ => CmsSelectors.fallback

/-- **C9, counterexample.** Merging homepage and sitemap boards deduplicates
by URL only, so a homepage board and a sitemap board at different URLs that
match the same keyword keep the same id — the merged list repeats `notice`;
and even a single extraction pass can collide when a keyword id is itself of
the suffixed form (`notice_2`). -/
theorem C9_board_ids_counterexample :
    ((mergeBoards (extractBoards [kwNotice] anySel [("공지사항", "https://cs.uni.ac.kr/a")])
        (extractBoards [kwNotice] anySel [("공지", "https://cs.uni.ac.kr/b")])).map (·.id) =
      ["notice", "notice"]) ∧
    ¬ ((mergeBoards (extractBoards [kwNotice] anySel [("공지사항", "https://cs.uni.ac.kr/a")])
        (extractBoards [kwNotice] anySel [("공지", "https://cs.uni.ac.kr/b")])).map (·.id)).Nodup ∧
    ((extractBoards [kwNotice, kwAlert] anySel
        [("공지1", "https://u.ac.kr/1"), ("공지2", "https://u.ac.kr/2"),
         ("알림", "https://u.ac.kr/3")]).map (·.id) =
      ["notice", "notice_2", "notice_2"]) ∧
    ¬ ((extractBoards [kwNotice, kwAlert] anySel
        [("공지1", "https://u.ac.kr/1"), ("공지2", "https://u.ac.kr/2"),
         ("알림", "https://u.ac.kr/3")]).map (·.id)).Nodup := by
  refine ⟨by decide, by decide, by decide, by decide⟩

/-- **C9, amended.** Within a single `extract_boards` pass, if no keyword id
contains an underscore then the assigned board ids are pairwise distinct —
repeated keyword matches get `_2`, `_3`, … in first-seen order. The merge of
the homepage and sitemap lists deduplicates by URL only and may repeat ids
across the two sources. -/
theorem C9_extract_ids_nodup (keywords : List KeywordMapping)
    (selFor : String → CmsSelectors) (links : List (String × String))
    (h : ∀ m ∈ keywords, ¬ '_' ∈ m.id.data) :
    ((extractBoards keywords selFor links).map (·.id)).Nodup := by
  unfold extractBoards
  apply assignIds_nodup
  · intro b hb
    rcases List.mem_filterMap.mp hb with ⟨link, _, hcreate⟩
    unfold tryCreateBoard at hcreate
    rcases hf : keywords.find? (fun m => strContains link.1 m.keyword) with _ | m
    · rw [hf] at hcreate
      cases hcreate
    · rw [hf] at hcreate
      injection hcreate with hb2
      have hm : m ∈ keywords := List.mem_of_find?_eq_some hf
      rw [← hb2]
      exact h m hm
  · exact ⟨by simp, by simp, by simp, by simp⟩

/-- Witness for `C9_extract_ids_nodup`: two matches of the same keyword get
distinct ids `notice` and `notice_2`. -/
theorem C9_extract_ids_nodup_witness :
    ((extractBoards [kwNotice] anySel
      [("공지1", "https://u.ac.kr/1"), ("공지2", "https://u.ac.kr/2")]).map (·.id)).Nodup ∧
    (extractBoards [kwNotice] anySel
      [("공지1", "https://u.ac.kr/1"), ("공지2", "https://u.ac.kr/2")]).map (·.id) =
      ["notice", "notice_2"] :=
  ⟨C9_extract_ids_nodup [kwNotice] anySel
    [("공지1", "https://u.ac.kr/1"), ("공지2", "https://u.ac.kr/2")] (by decide),
   by decide⟩

/-! ## Notice crawler (`src/Crawler/src/services/notices.rs`)

External pieces are abstracted as parameters: `selOk` models
`scraper::Selector::parse` succeeding on a selector string; `fetch` models
the HTTP fetch + URL parse of a board's list page, returning the rows of
the page, where a row is abstracted as the texts/attribute the board's
selectors find in it (the `scraper` CSS engine is external);
`resolveUrl`/`extractId` model `utils::resolve_url`/`extract_notice_id`.
`DeptRef` keeps the projection of `DepartmentRef` the crawler reads
(campus, college, department id and name). -/

/-- `Department` from `src/Crawler/src/models/campus.rs`. -/
structure Department where
  id : String
  name : String
  url : String
  boards : List Board
deriving DecidableEq, Repr

/-- `College` from `src/Crawler/src/models/campus.rs`. -/
structure College where
  name : String
  departments : List Department
deriving DecidableEq, Repr

/-- `Campus` from `src/Crawler/src/models/campus.rs`. -/
structure Campus where
  campus : String
  colleges : List College
  departments : List Department
deriving DecidableEq, Repr

/-- The fields of `DepartmentRef` that notice crawling reads. -/
structure DeptRef where
  campus : String
  college : Option String
  deptId : String
  deptName : String
deriving DecidableEq, Repr

/-- `Campus::all_departments`, paired with each department's boards:
college departments first, then departments directly under the campus. -/
def Campus.allDepartments (c : Campus) : List (DeptRef × List Board) :=
  (c.colleges.flatMap fun col =>
    col.departments.map fun d => (⟨c.campus, some col.name, d.id, d.name⟩, d.boards)) ++
  c.departments.map fun d => (⟨c.campus, none, d.id, d.name⟩, d.boards)

/-- The flattened `(department, board)` job list of `fetch_all`. -/
def allJobs (campuses : List Campus) : List (DeptRef × Board) :=
  campuses.flatMap fun c =>
    c.allDepartments.flatMap fun db => db.2.map fun b => (db.1, b)

/-- `CrawlStage` from `src/Crawler/src/models/mod.rs`. -/
inductive CrawlStage where
  | selector
  | boardList
  | noticeDetail
  | boardLookup
deriving DecidableEq, Repr

/-- `CrawlError` from `src/Crawler/src/models/mod.rs`; the `message` carries
the failing selector string or the fetch error text. -/
structure CrawlErrorM where
  stage : CrawlStage
  boardId : Option String
  boardName : Option String
  url : Option String
  noticeId : Option String
  message : String
  retryable : Bool
deriving DecidableEq, Repr

/-- `CrawlOutcome` from `src/Crawler/src/models/mod.rs`. -/
structure CrawlOutcomeM where
  notices : List Notice
  boardTotal : Nat
  boardFailures : Nat
  noticeTotal : Nat
  noticeFailures : Nat
  detailTotal : Nat
  detailFailures : Nat
  errors : List CrawlErrorM
deriving DecidableEq, Repr

/-- The compiled per-board selectors (`BoardSelectors`); a parsed selector
is represented by its validated source string. -/
structure BoardSelectorsM where
  row : String
  title : String
  date : String
  author : Option String
  link : Option String
deriving DecidableEq, Repr

/-- A selector-stage `CrawlError` for a board (`build_error` with
`CrawlStage::Selector`). -/
def selErrorOf (b : Board) (sel : String) : CrawlErrorM :=
  { stage := .selector, boardId := some b.id, boardName := some b.name,
    url := some b.url, noticeId := none, message := sel, retryable := false }

/-- A board-list-stage `CrawlError` (`build_error` with
`CrawlStage::BoardList`). -/
def boardListErrorOf (b : Board) (msg : String) (retry : Bool) : CrawlErrorM :=
  { stage := .boardList, boardId := some b.id, boardName := some b.name,
    url := some b.url, noticeId := none, message := msg, retryable := retry }

/-- Parsing of one optional selector inside `build_selector_cache`: a
failure is recorded but the selector just becomes `None`. -/
def optSelParse (selOk : String → Bool) (b : Board) :
    Option String → Option String × List CrawlErrorM
  | some s => if selOk s then (some s, []) else (none, [selErrorOf b s])
  | none => (none, [])

/-- The per-board body of `build_selector_cache`: parse `row`, `title`,
`date` in order, stopping (board invalidated) at the first invalid required
selector; then the optional `author` and `link` selectors, whose failures
are recorded without invalidating the board. -/
def cacheBoard (selOk : String → Bool) (b : Board) :
    Option BoardSelectorsM × List CrawlErrorM :=
  if ¬ selOk b.selectors.rowSelector then
    (none, [selErrorOf b b.selectors.rowSelector])
  else if ¬ selOk b.selectors.titleSelector then
    (none, [selErrorOf b b.selectors.titleSelector])
  else if ¬ selOk b.selectors.dateSelector then
    (none, [selErrorOf b b.selectors.dateSelector])
  else
    let ae := optSelParse selOk b b.selectors.authorSelector
    let le := optSelParse selOk b b.selectors.linkSelector
    (some { row := b.selectors.rowSelector, title := b.selectors.titleSelector,
            date := b.selectors.dateSelector, author := ae.1, link := le.1 },
     ae.2 ++ le.2)

/-- Whether a board's required selectors all parse (it gets a cache entry). -/
def validBoard (selOk : String → Bool) (b : Board) : Bool :=
  (cacheBoard selOk b).1.isSome

/-- One step of the `build_selector_cache` walk. -/
def bscStep (selOk : String → Bool)
    (st : List (String × BoardSelectorsM) × List CrawlErrorM × List String)
    (j : DeptRef × Board) :
    List (String × BoardSelectorsM) × List CrawlErrorM × List String :=
  match cacheBoard selOk j.2 with
  | (some sels, errs) => (st.1 ++ [(j.2.id, sels)], st.2.1 ++ errs, st.2.2)
  | (none, errs) => (st.1, st.2.1 ++ errs, insertOnce st.2.2 j.2.id)

/-- `NoticeCrawler::build_selector_cache`: walk every board, collecting the
compiled-selector cache, the selector-stage errors, and the id set of
invalidated boards. -/
def buildSelectorCache (selOk : String → Bool) (campuses : List Campus) :
    List (String × BoardSelectorsM) × List CrawlErrorM × List String :=
  (allJobs campuses).foldl (bscStep selOk) ([], [], [])

/-- The invalid-board id set accumulated over a job list. -/
def invFold (selOk : String → Bool) (l : List (DeptRef × Board)) (I : List String) :
    List String :=
  l.foldl (fun acc j => if validBoard selOk j.2 then acc else insertOnce acc j.2.id) I

/-- `CleaningConfig` replacement pair. -/
structure ReplacementM where
  src : String
  dst : String
deriving DecidableEq, Repr

/-- `CleaningConfig` from `src/Crawler/src/models/config.rs`. -/
structure CleaningConfig where
  titleRemovePatterns : List String
  dateRemovePatterns : List String
  dateReplacements : List ReplacementM
deriving DecidableEq, Repr

/-- Rust `str::replace(pat, repl)` for a non-empty pattern (fuel-bounded;
the cleaning configuration never carries empty patterns). -/
def replaceChars (pat repl : List Char) : Nat → List Char → List Char
  | 0, l => l
  | _ + 1, [] => []
  | fuel + 1, c :: cs =>
    if ¬ pat.isEmpty ∧ startsWithChars pat (c :: cs) then
      repl ++ replaceChars pat repl fuel ((c :: cs).drop pat.length)
    else c :: replaceChars pat repl fuel cs

/-- Rust `str::replace` on strings. -/
def replaceStr (s pat repl : String) : String :=
  String.mk (replaceChars pat.data repl.data (s.data.length + 1) s.data)

/-- `CleaningConfig::normalize_whitespace`: split on whitespace, drop empty
pieces, re-join with single spaces. -/
def normalizeWhitespace (s : String) : String :=
  match ((splitChars isWsChar s.data).filter fun l => !l.isEmpty).map String.mk with
  | [] => ""
  | x :: xs => xs.foldl (fun a b => a ++ " " ++ b) x

/-- `CleaningConfig::clean`. -/
def cleanText (text : String) (patterns : List String)
    (replacements : List ReplacementM) : String :=
  let r1 := normalizeWhitespace text
  let r2 := patterns.foldl (fun acc p => replaceStr acc p "") r1
  let r3 := replacements.foldl (fun acc r => replaceStr acc r.src r.dst) r2
  trimStr r3

/-- `CleaningConfig::clean_title`. -/
def cleanTitle (cfg : CleaningConfig) (text : String) : String :=
  cleanText text cfg.titleRemovePatterns []

/-- `CleaningConfig::clean_date`. -/
def cleanDate (cfg : CleaningConfig) (text : String) : String :=
  cleanText text cfg.dateRemovePatterns cfg.dateReplacements

/-- A board-list row, abstracted as what the board's selectors find in it:
the title/date/author element texts (None when the element is missing) and
the link attribute value on the link (or title) element. -/
structure RowM where
  titleText : Option String
  dateText : Option String
  authorText : Option String
  linkAttr : Option String
deriving DecidableEq, Repr

/-- `NoticeCrawler::parse_notice_row`: require title and date elements,
clean both, drop the row when the cleaned title is empty, resolve the link
and extract the source id. -/
def parseNoticeRow (cleaning : CleaningConfig) (resolveUrl : String → String → String)
    (extractId : String → Option String) (dr : DeptRef) (b : Board) (row : RowM) :
    Option Notice :=
  match row.titleText with
  | none => none
  | some rawTitle =>
    match row.dateText with
    | none => none
    | some rawDate =>
      let title := cleanTitle cleaning rawTitle
      let date := cleanDate cleaning rawDate
      if title = "" then none
      else
        let rawLink := row.linkAttr.getD ""
        let link := resolveUrl b.url rawLink
        some { campus := dr.campus, college := dr.college.getD "",
               departmentId := dr.deptId, departmentName := dr.deptName,
               boardId := b.id, boardName := b.name, title := title,
               author := trimStr (row.authorText.getD ""), date := date,
               link := link, sourceId := extractId link, isPinned := false }

/-- `Except::is_ok`. -/
def exceptOk {ε α : Type} : Except ε α → Bool
  | .ok _ => true
  | .error _ => false

/-- The notices a job contributes in stage 1 (empty on fetch failure). -/
def jobNotices (cleaning : CleaningConfig) (resolveUrl : String → String → String)
    (extractId : String → Option String) (fetch : Board → Except (String × Bool) (List RowM))
    (j : DeptRef × Board) : List Notice :=
  match fetch j.2 with
  | .ok rows => rows.filterMap (parseNoticeRow cleaning resolveUrl extractId j.1 j.2)
  | .error _ => []

/-- The row-failure count of a job (rows whose parse returns `None`). -/
def jobRowFailures (cleaning : CleaningConfig) (resolveUrl : String → String → String)
    (extractId : String → Option String) (fetch : Board → Except (String × Bool) (List RowM))
    (j : DeptRef × Board) : Nat :=
  match fetch j.2 with
  | .ok rows =>
    (rows.filter fun r => (parseNoticeRow cleaning resolveUrl extractId j.1 j.2 r).isNone).length
  | .error _ => 0

/-- The row count a job contributes (`row_total`; 0 on fetch failure). -/
def jobRowTotal (fetch : Board → Except (String × Bool) (List RowM))
    (j : DeptRef × Board) : Nat :=
  match fetch j.2 with
  | .ok rows => rows.length
  | .error _ => 0

/-- The board-list error entries a job contributes (one on fetch failure,
none on success). -/
def blErrList (fetch : Board → Except (String × Bool) (List RowM))
    (j : DeptRef × Board) : List CrawlErrorM :=
  match fetch j.2 with
  | .ok _ => []
  | .error e => [boardListErrorOf j.2 e.1 e.2]

/-- One step of the canonical-id dedup walk (`seen.insert` / `deduped.push`). -/
def dedupStep (st : List String × List Notice) (n : Notice) : List String × List Notice :=
  if n.canonicalId ∈ st.1 then st else (st.1 ++ [n.canonicalId], st.2 ++ [n])

/-- Stage B of `fetch_all`: drop notices whose canonical id was already
seen (first occurrence wins). -/
def dedupByCanonical (l : List Notice) : List Notice :=
  (l.foldl dedupStep ([], [])).2

/-- The stage-1 loop body of `fetch_all`: look the board's compiled
selectors up (a miss is an error), fetch its list page, and absorb the
result into the outcome. -/
def crawlStep (cache : List (String × BoardSelectorsM))
    (fetch : Board → Except (String × Bool) (List RowM))
    (cleaning : CleaningConfig) (resolveUrl : String → String → String)
    (extractId : String → Option String)
    (st : CrawlOutcomeM) (j : DeptRef × Board) : CrawlOutcomeM :=
  let result : Except (String × Bool) (List RowM) :=
    match mapGet cache j.2.id with
    | none => .error ("Missing selector cache entry", false)
    | some _ => fetch j.2
  match result with
  | .ok rows =>
    { st with
      noticeTotal := st.noticeTotal + rows.length,
      noticeFailures := st.noticeFailures +
        (rows.filter fun r =>
          (parseNoticeRow cleaning resolveUrl extractId j.1 j.2 r).isNone).length,
      notices := st.notices ++
        rows.filterMap (parseNoticeRow cleaning resolveUrl extractId j.1 j.2) }
  | .error e =>
    { st with
      boardFailures := st.boardFailures + 1,
      errors := st.errors ++ [boardListErrorOf j.2 e.1 e.2] }

/-- `NoticeCrawler::fetch_all`: build the selector cache, exclude
invalidated board ids, fetch every remaining board's list page, absorb
per-board failures into the outcome, dedupe by canonical id, and run the
(no-op) detail stage. The bounded-concurrency fan-out is modelled
sequentially in job order (the claims are order-insensitive). -/
def fetchAll (selOk : String → Bool) (fetch : Board → Except (String × Bool) (List RowM))
    (cleaning : CleaningConfig) (resolveUrl : String → String → String)
    (extractId : String → Option String) (campuses : List Campus) : CrawlOutcomeM :=
  let bsc := buildSelectorCache selOk campuses
  let jobs := (allJobs campuses).filter fun j => ¬ j.2.id ∈ bsc.2.2
  let init : CrawlOutcomeM :=
    { notices := [], boardTotal := jobs.length + bsc.2.2.length,
      boardFailures := bsc.2.2.length, noticeTotal := 0, noticeFailures := 0,
      detailTotal := 0, detailFailures := 0, errors := bsc.2.1 }
  let st2 := jobs.foldl (crawlStep bsc.1 fetch cleaning resolveUrl extractId) init
  let deduped := dedupByCanonical st2.notices
  { st2 with notices := deduped, detailTotal := deduped.length }

/-- Remove every board with the given id from one department. -/
def removeBoardDept (bid : String) (d : Department) : Department :=
  { d with boards := d.boards.filter fun b => b.id ≠ bid }

/-- Remove every board with the given id from one campus. -/
def removeBoardCampus (bid : String) (c : Campus) : Campus :=
  { c with
    colleges := c.colleges.map fun col =>
      { col with departments := col.departments.map (removeBoardDept bid) },
    departments := c.departments.map (removeBoardDept bid) }

/-- Remove every board with the given id from a site map. -/
def removeBoard (campuses : List Campus) (bid : String) : List Campus :=
  campuses.map (removeBoardCampus bid)

/-- The job list of `fetch_all` restricted to the valid boards (those whose
required selectors all parse). -/
def validJobs (selOk : String → Bool) (campuses : List Campus) :
    List (DeptRef × Board) :=
  (allJobs campuses).filter fun j => validBoard selOk j.2

/-- The job list of `fetch_all` restricted to the invalidated boards. -/
def invalidJobs (selOk : String → Bool) (campuses : List Campus) :
    List (DeptRef × Board) :=
  (allJobs campuses).filter fun j => ¬ validBoard selOk j.2

/-- The compiled selectors of a job whose board is valid. -/
def jobSels (selOk : String → Bool) (j : DeptRef × Board) : BoardSelectorsM :=
  ((cacheBoard selOk j.2).1).getD ⟨"", "", "", none, none⟩

/-! Lemmas about the selector cache and the per-job bookkeeping of
`fetch_all`. -/

theorem lookupEntry_isSome_iff {α : Type} (l : List (String × α)) (k : String) :
    (lookupEntry l k).isSome = true ↔ k ∈ l.map Prod.fst := by
  induction l with
  | nil => simp [lookupEntry]
  | cons e es ih =>
    by_cases h : e.1 = k
    · simp [lookupEntry, h]
    · simp only [lookupEntry, if_neg h, List.map_cons, List.mem_cons, ih]
      constructor
      · exact Or.inr
      · rintro (rfl | hx)
        · exact absurd rfl h
        · exact hx

theorem mapGet_isSome_iff {α : Type} (l : List (String × α)) (k : String) :
    (mapGet l k).isSome = true ↔ k ∈ l.map Prod.fst := by
  unfold mapGet
  rw [lookupEntry_isSome_iff, List.map_reverse, List.mem_reverse]

theorem optSelParse_errs (selOk : String → Bool) (b : Board) (o : Option String) :
    ∀ e ∈ (optSelParse selOk b o).2,
      e.stage = CrawlStage.selector ∧ e.boardId = some b.id := by
  intro e he
  rcases o with _ | s
  · simp [optSelParse] at he
  · simp only [optSelParse] at he
    split_ifs at he with h
    · simp at he
    · simp only [List.mem_singleton] at he
      subst he
      exact ⟨rfl, rfl⟩

theorem cacheBoard_errs (selOk : String → Bool) (b : Board) :
    ∀ e ∈ (cacheBoard selOk b).2,
      e.stage = CrawlStage.selector ∧ e.boardId = some b.id := by
  intro e he
  unfold cacheBoard at he
  split_ifs at he with h1 h2 h3 <;>
    first
    | (simp only [List.mem_singleton] at he
       subst he
       exact ⟨rfl, rfl⟩)
    | (dsimp only at he
       rcases List.mem_append.mp he with h | h
       · exact optSelParse_errs selOk b _ e h
       · exact optSelParse_errs selOk b _ e h)

theorem cacheBoard_invalid_len (selOk : String → Bool) (b : Board)
    (h : validBoard selOk b = false) : (cacheBoard selOk b).2.length = 1 := by
  unfold validBoard at h
  unfold cacheBoard at h ⊢
  split_ifs at h ⊢ with h1 h2 h3 <;> first | rfl | simp at h

theorem blErrList_errs (fetch : Board → Except (String × Bool) (List RowM))
    (j : DeptRef × Board) :
    ∀ e ∈ blErrList fetch j,
      e.stage = CrawlStage.boardList ∧ e.boardId = some j.2.id := by
  intro e he
  unfold blErrList at he
  rcases hf : fetch j.2 with err | rows <;> rw [hf] at he
  · simp only [List.mem_singleton] at he
    subst he
    exact ⟨rfl, rfl⟩
  · simp at he

theorem flatMap_blErr_length (fetch : Board → Except (String × Bool) (List RowM)) :
    ∀ l : List (DeptRef × Board),
      (l.flatMap (blErrList fetch)).length =
        (l.filter fun j => ¬ exceptOk (fetch j.2)).length := by
  intro l
  induction l with
  | nil => rfl
  | cons j rest ih =>
    rcases hf : fetch j.2 with err | rows <;>
      simp [List.flatMap_cons, List.filter_cons, blErrList, exceptOk, hf, ih]

theorem parseNoticeRow_boardId (cleaning : CleaningConfig)
    (resolveUrl : String → String → String) (extractId : String → Option String)
    (dr : DeptRef) (b : Board) (row : RowM) (n : Notice)
    (h : parseNoticeRow cleaning resolveUrl extractId dr b row = some n) :
    n.boardId = b.id := by
  unfold parseNoticeRow at h
  rcases ht : row.titleText with _ | rawTitle <;> rw [ht] at h
  · exact absurd h (by simp)
  rcases hd : row.dateText with _ | rawDate <;> rw [hd] at h
  · exact absurd h (by simp)
  dsimp only at h
  split_ifs at h with he
  first
  | exact Option.noConfusion h
  | (simp only [Option.some.injEq] at h
     subst h
     rfl)

theorem jobNotices_boardId (cleaning : CleaningConfig)
    (resolveUrl : String → String → String) (extractId : String → Option String)
    (fetch : Board → Except (String × Bool) (List RowM)) (j : DeptRef × Board)
    (n : Notice) (h : n ∈ jobNotices cleaning resolveUrl extractId fetch j) :
    n.boardId = j.2.id := by
  unfold jobNotices at h
  rcases hf : fetch j.2 with err | rows <;> rw [hf] at h
  · simp at h
  · rcases List.mem_filterMap.mp h with ⟨r, _, hr⟩
    exact parseNoticeRow_boardId cleaning resolveUrl extractId j.1 j.2 r n hr

theorem dedup_fold_mem (x : Notice) :
    ∀ (l : List Notice) (st : List String × List Notice),
      x ∈ (l.foldl dedupStep st).2 → x ∈ st.2 ∨ x ∈ l := by
  intro l
  induction l with
  | nil => intro st h; exact Or.inl h
  | cons n rest ih =>
    intro st h
    rw [List.foldl_cons] at h
    rcases ih _ h with h' | h'
    · unfold dedupStep at h'
      by_cases hc : n.canonicalId ∈ st.1
      · rw [if_pos hc] at h'
        exact Or.inl h'
      · rw [if_neg hc] at h'
        rcases List.mem_append.mp h' with h2 | h2
        · exact Or.inl h2
        · rw [List.mem_singleton] at h2
          exact Or.inr (h2 ▸ List.mem_cons_self _ _)
    · exact Or.inr (List.mem_cons_of_mem _ h')

theorem mem_dedupByCanonical (x : Notice) (l : List Notice)
    (h : x ∈ dedupByCanonical l) : x ∈ l := by
  unfold dedupByCanonical at h
  rcases dedup_fold_mem x l ([], []) h with h' | h'
  · cases h'
  · exact h'

/-! Characterisation of the `build_selector_cache` and stage-1 crawl folds. -/

theorem invFold_cons (selOk : String → Bool) (j : DeptRef × Board)
    (rest : List (DeptRef × Board)) (I : List String) :
    invFold selOk (j :: rest) I =
      invFold selOk rest (if validBoard selOk j.2 then I else insertOnce I j.2.id) := rfl

theorem bsc_fold (selOk : String → Bool) :
    ∀ (l : List (DeptRef × Board)) (C : List (String × BoardSelectorsM))
      (E : List CrawlErrorM) (I : List String),
      l.foldl (bscStep selOk) (C, E, I) =
        (C ++ (l.filter fun j => validBoard selOk j.2).map
            (fun j => (j.2.id, jobSels selOk j)),
         E ++ l.flatMap (fun j => (cacheBoard selOk j.2).2),
         invFold selOk l I) := by
  intro l
  induction l with
  | nil => intro C E I; simp [invFold]
  | cons j rest ih =>
    intro C E I
    rw [List.foldl_cons, invFold_cons]
    rcases hcb : cacheBoard selOk j.2 with ⟨o, errs⟩
    rcases o with _ | sels
    · have hstep : bscStep selOk (C, E, I) j = (C, E ++ errs, insertOnce I j.2.id) := by
        unfold bscStep
        rw [hcb]
      have hv : validBoard selOk j.2 = false := by
        unfold validBoard
        rw [hcb]
        rfl
      rw [hstep, ih]
      simp [List.filter_cons, hv, List.flatMap_cons, hcb, List.append_assoc]
    · have hstep : bscStep selOk (C, E, I) j = (C ++ [(j.2.id, sels)], E ++ errs, I) := by
        unfold bscStep
        rw [hcb]
      have hv : validBoard selOk j.2 = true := by
        unfold validBoard
        rw [hcb]
        rfl
      have hsels : jobSels selOk j = sels := by
        unfold jobSels
        rw [hcb]
        rfl
      rw [hstep, ih]
      simp [List.filter_cons, hv, hsels, List.flatMap_cons, hcb, List.append_assoc]

theorem buildSelectorCache_eq (selOk : String → Bool) (campuses : List Campus) :
    buildSelectorCache selOk campuses =
      ((validJobs selOk campuses).map (fun j => (j.2.id, jobSels selOk j)),
       (allJobs campuses).flatMap (fun j => (cacheBoard selOk j.2).2),
       invFold selOk (allJobs campuses) []) := by
  unfold buildSelectorCache validJobs
  rw [bsc_fold]
  simp

theorem invFold_eq (selOk : String → Bool) :
    ∀ (l : List (DeptRef × Board)) (I : List String),
      ((l.map fun j => j.2.id).Nodup) → (∀ j ∈ l, ¬ j.2.id ∈ I) →
      invFold selOk l I =
        I ++ (l.filter fun j => ¬ validBoard selOk j.2).map fun j => j.2.id := by
  intro l
  induction l with
  | nil => intro I _ _; simp [invFold]
  | cons j rest ih =>
    intro I hnd hdisj
    rw [List.map_cons, List.nodup_cons] at hnd
    rcases hnd with ⟨hjid, hndr⟩
    rw [invFold_cons]
    by_cases hv : validBoard selOk j.2
    · rw [if_pos hv, ih I hndr fun x hx => hdisj x (List.mem_cons_of_mem _ hx)]
      simp [List.filter_cons, hv]
    · rw [if_neg hv]
      have hnotI : ¬ j.2.id ∈ I := hdisj j (List.mem_cons_self _ _)
      have hins : insertOnce I j.2.id = I ++ [j.2.id] := by
        unfold insertOnce
        rw [if_neg hnotI]
      have hdisj2 : ∀ x ∈ rest, ¬ x.2.id ∈ I ++ [j.2.id] := by
        intro x hx
        simp only [List.mem_append, List.mem_singleton]
        push_neg
        refine ⟨hdisj x (List.mem_cons_of_mem _ hx), fun he => hjid ?_⟩
        rw [← he]
        exact List.mem_map_of_mem _ hx
      rw [hins, ih (I ++ [j.2.id]) hndr hdisj2]
      simp [List.filter_cons, hv, List.append_assoc]

theorem jobs_eq_valid (selOk : String → Bool) (campuses : List Campus)
    (hnd : ((allJobs campuses).map fun j => j.2.id).Nodup) :
    ((allJobs campuses).filter fun j =>
        ¬ j.2.id ∈ invFold selOk (allJobs campuses) []) =
      validJobs selOk campuses := by
  unfold validJobs
  apply List.filter_congr
  intro j hj
  have hiff : j.2.id ∈ invFold selOk (allJobs campuses) [] ↔
      ¬ validBoard selOk j.2 = true := by
    rw [invFold_eq selOk (allJobs campuses) [] hnd (by simp), List.nil_append]
    constructor
    · intro hmem hv
      rcases List.mem_map.mp hmem with ⟨j2, hj2, he⟩
      have hj2mem : j2 ∈ allJobs campuses := List.mem_of_mem_filter hj2
      have hj2e : j2 = j := List.inj_on_of_nodup_map hnd hj2mem hj he
      subst hj2e
      have hbad := List.of_mem_filter hj2
      simp [hv] at hbad
    · intro hv
      exact List.mem_map_of_mem _ (List.mem_filter.mpr ⟨hj, by simp [hv]⟩)
  cases hvb : validBoard selOk j.2 <;> simp [hiff, hvb]

theorem length_filter_split {α : Type} (p : α → Bool) (l : List α) :
    (l.filter p).length + (l.filter fun a => ¬ p a).length = l.length := by
  induction l with
  | nil => rfl
  | cons a t ih => cases h : p a <;> simp [List.filter_cons, h] at ih ⊢ <;> omega

theorem crawl_fold (cache : List (String × BoardSelectorsM))
    (fetch : Board → Except (String × Bool) (List RowM))
    (cleaning : CleaningConfig) (resolveUrl : String → String → String)
    (extractId : String → Option String) :
    ∀ (l : List (DeptRef × Board)) (st : CrawlOutcomeM),
      (∀ j ∈ l, (mapGet cache j.2.id).isSome = true) →
      l.foldl (crawlStep cache fetch cleaning resolveUrl extractId) st =
        { notices := st.notices ++ l.flatMap (jobNotices cleaning resolveUrl extractId fetch),
          boardTotal := st.boardTotal,
          boardFailures := st.boardFailures +
            (l.filter fun j => ¬ exceptOk (fetch j.2)).length,
          noticeTotal := st.noticeTotal + (l.map (jobRowTotal fetch)).sum,
          noticeFailures := st.noticeFailures +
            (l.map (jobRowFailures cleaning resolveUrl extractId fetch)).sum,
          detailTotal := st.detailTotal,
          detailFailures := st.detailFailures,
          errors := st.errors ++ l.flatMap (blErrList fetch) } := by
  intro l
  induction l with
  | nil =>
    intro st _
    simp
  | cons j rest ih =>
    intro st hc
    have hj := hc j (List.mem_cons_self _ _)
    rw [List.foldl_cons]
    rw [Option.isSome_iff_exists] at hj
    rcases hj with ⟨sels, hmg⟩
    have hstep : crawlStep cache fetch cleaning resolveUrl extractId st j =
        match fetch j.2 with
        | .ok rows =>
          { st with
            noticeTotal := st.noticeTotal + rows.length,
            noticeFailures := st.noticeFailures +
              (rows.filter fun r =>
                (parseNoticeRow cleaning resolveUrl extractId j.1 j.2 r).isNone).length,
            notices := st.notices ++
              rows.filterMap (parseNoticeRow cleaning resolveUrl extractId j.1 j.2) }
        | .error e =>
          { st with
            boardFailures := st.boardFailures + 1,
            errors := st.errors ++ [boardListErrorOf j.2 e.1 e.2] } := by
      unfold crawlStep
      rw [hmg]
    rcases hf : fetch j.2 with err | rows <;> rw [hf] at hstep <;>
      rw [hstep, ih _ fun x hx => hc x (List.mem_cons_of_mem _ hx)] <;>
      simp [jobNotices, jobRowTotal, jobRowFailures, blErrList, hf,
        List.filter_cons, exceptOk, List.flatMap_cons, Nat.add_assoc,
        List.append_assoc]
    all_goals omega

theorem flatMap_bid_filter (f : DeptRef × Board → List CrawlErrorM)
    (hb : ∀ j, ∀ e ∈ f j, e.boardId = some j.2.id) (bid : String) :
    ∀ l : List (DeptRef × Board),
      (l.flatMap f).filter (fun e => e.boardId = some bid) =
        (l.filter fun j => j.2.id = bid).flatMap f := by
  intro l
  induction l with
  | nil => rfl
  | cons j rest ih =>
    rw [List.flatMap_cons, List.filter_append, ih, List.filter_cons]
    by_cases hj : j.2.id = bid
    · rw [if_pos (by simp [hj]), List.flatMap_cons]
      congr 1
      apply List.filter_eq_self.mpr
      intro e he
      simp [hb j e he, hj]
    · rw [if_neg (by simp [hj])]
      have hnil : (f j).filter (fun e => e.boardId = some bid) = [] := by
        apply List.filter_eq_nil_iff.mpr
        intro e he
        simp [hb j e he, hj]
      rw [hnil, List.nil_append]

theorem filter_id_single (j0 : DeptRef × Board) :
    ∀ l : List (DeptRef × Board),
      (l.map fun j => j.2.id).Nodup → j0 ∈ l →
      l.filter (fun j => j.2.id = j0.2.id) = [j0] := by
  intro l
  induction l with
  | nil => intro _ hmem; cases hmem
  | cons a rest ih =>
    intro hnd hmem
    rw [List.map_cons, List.nodup_cons] at hnd
    rcases hnd with ⟨ha, hndr⟩
    rcases List.mem_cons.mp hmem with rfl | hmemr
    · rw [List.filter_cons, if_pos (by simp)]
      have hnil : rest.filter (fun j => j.2.id = j0.2.id) = [] := by
        apply List.filter_eq_nil_iff.mpr
        intro x hx
        simp only [decide_eq_true_eq]
        intro he
        apply ha
        rw [← he]
        exact List.mem_map_of_mem _ hx
      rw [hnil]
    · have hane : ¬ a.2.id = j0.2.id := by
        intro he
        apply ha
        rw [he]
        exact List.mem_map_of_mem _ hmemr
      rw [List.filter_cons, if_neg (by simp [hane])]
      exact ih hndr hmemr

/-! The full characterisation of `fetch_all`, and stability of the job list
under removing a board. -/

theorem fetchAll_spec (selOk : String → Bool)
    (fetch : Board → Except (String × Bool) (List RowM))
    (cleaning : CleaningConfig) (resolveUrl : String → String → String)
    (extractId : String → Option String) (campuses : List Campus)
    (hnd : ((allJobs campuses).map fun j => j.2.id).Nodup) :
    fetchAll selOk fetch cleaning resolveUrl extractId campuses =
      { notices := dedupByCanonical ((validJobs selOk campuses).flatMap
          (jobNotices cleaning resolveUrl extractId fetch)),
        boardTotal := (validJobs selOk campuses).length +
          (invalidJobs selOk campuses).length,
        boardFailures := (invalidJobs selOk campuses).length +
          ((validJobs selOk campuses).filter fun j => ¬ exceptOk (fetch j.2)).length,
        noticeTotal := ((validJobs selOk campuses).map (jobRowTotal fetch)).sum,
        noticeFailures := ((validJobs selOk campuses).map
          (jobRowFailures cleaning resolveUrl extractId fetch)).sum,
        detailTotal := (dedupByCanonical ((validJobs selOk campuses).flatMap
          (jobNotices cleaning resolveUrl extractId fetch))).length,
        detailFailures := 0,
        errors := (allJobs campuses).flatMap (fun j => (cacheBoard selOk j.2).2) ++
          (validJobs selOk campuses).flatMap (blErrList fetch) } := by
  have hinv : invFold selOk (allJobs campuses) [] =
      (invalidJobs selOk campuses).map fun j => j.2.id := by
    rw [invFold_eq selOk (allJobs campuses) [] hnd (by simp), List.nil_append]
    rfl
  have hjobs := jobs_eq_valid selOk campuses hnd
  have hcachehit : ∀ j ∈ validJobs selOk campuses,
      (mapGet ((validJobs selOk campuses).map fun j => (j.2.id, jobSels selOk j))
        j.2.id).isSome = true := by
    intro j hj
    rw [mapGet_isSome_iff, List.map_map]
    exact List.mem_map_of_mem _ hj
  unfold fetchAll
  rw [buildSelectorCache_eq]
  dsimp only
  rw [hjobs, hinv,
    crawl_fold ((validJobs selOk campuses).map fun j => (j.2.id, jobSels selOk j))
      fetch cleaning resolveUrl extractId (validJobs selOk campuses) _ hcachehit]
  simp [List.length_map]

theorem jobs_filter_boards (bid : String) :
    ∀ dbs : List (DeptRef × List Board),
      (dbs.map fun db => (db.1, db.2.filter fun b => b.id ≠ bid)).flatMap
          (fun db => db.2.map fun b => (db.1, b)) =
        (dbs.flatMap fun db => db.2.map fun b => (db.1, b)).filter
          fun j => j.2.id ≠ bid := by
  intro dbs
  induction dbs with
  | nil => rfl
  | cons db rest ih =>
    rcases db with ⟨dr, boards⟩
    rw [List.map_cons, List.flatMap_cons, List.flatMap_cons, List.filter_append, ih]
    congr 1
    dsimp only
    induction boards with
    | nil => rfl
    | cons b bs ihb =>
      rw [List.filter_cons, List.map_cons, List.filter_cons]
      by_cases hb : b.id = bid
      · rw [if_neg (by simp [hb]), if_neg (by simp [hb]), ihb]
      · rw [if_pos (by simp [hb]), if_pos (by simp [hb]), List.map_cons, ihb]

theorem allJobs_cons (c : Campus) (cs : List Campus) :
    allJobs (c :: cs) =
      (c.allDepartments.flatMap fun db => db.2.map fun b => (db.1, b)) ++
        allJobs cs := by
  unfold allJobs
  rw [List.flatMap_cons]

theorem allDepartments_removeBoardCampus (bid : String) (c : Campus) :
    (removeBoardCampus bid c).allDepartments =
      c.allDepartments.map fun db => (db.1, db.2.filter fun b => b.id ≠ bid) := by
  unfold removeBoardCampus Campus.allDepartments removeBoardDept
  simp [List.map_append, List.map_flatMap, List.flatMap_map, List.map_map,
    Function.comp_def]

theorem allJobs_removeBoard (campuses : List Campus) (bid : String) :
    allJobs (removeBoard campuses bid) =
      (allJobs campuses).filter fun j => j.2.id ≠ bid := by
  induction campuses with
  | nil => rfl
  | cons c cs ih =>
    have hcons : removeBoard (c :: cs) bid =
        removeBoardCampus bid c :: removeBoard cs bid := rfl
    rw [hcons, allJobs_cons, allJobs_cons, List.filter_append, ih]
    congr 1
    rw [allDepartments_removeBoardCampus]
    exact jobs_filter_boards bid c.allDepartments

/-! C7 fixtures: two departments whose boards share the id `x`; the first
board's row selector is empty (invalid), the second is fully valid and its
list fetch succeeds with one parseable row. -/

def cexSelGood : CmsSelectors :=
  { rowSelector := "tr", titleSelector := "a", dateSelector := "td",
    authorSelector := none, bodySelector := none, attrName := "href",
    linkSelector := none }

def cexSelBad : CmsSelectors :=
  { cexSelGood with rowSelector := "" }

def cexBadBoard : Board :=
  { id := "x", name := "Bad", url := "https://u.example/bad",
    selectors := cexSelBad }

def cexGoodBoard : Board :=
  { id := "x", name := "Good", url := "https://u.example/good",
    selectors := cexSelGood }

def cexCampuses : List Campus :=
  [{ campus := "c", colleges := [],
     departments :=
       [{ id := "d1", name := "One", url := "https://u.example/d1",
          boards := [cexBadBoard] },
        { id := "d2", name := "Two", url := "https://u.example/d2",
          boards := [cexGoodBoard] }] }]

def cexCampusesGood : List Campus :=
  [{ campus := "c", colleges := [],
     departments :=
       [{ id := "d2", name := "Two", url := "https://u.example/d2",
          boards := [cexGoodBoard] }] }]

def cexSelOk : String → Bool := fun s => s ≠ ""

def cexRow : RowM :=
  { titleText := some "Hello", dateText := some "2024-01-15",
    authorText := none, linkAttr := some "/n/1" }

def cexFetch : Board → Except (String × Bool) (List RowM) := fun _ => .ok [cexRow]

def cexCleaning : CleaningConfig :=
  { titleRemovePatterns := [], dateRemovePatterns := [], dateReplacements := [] }

def cexResolve : String → String → String := fun base l => base ++ l

def cexExtract : String → Option String := fun _ => none

/-- C7: counterexample to unconditional selector-cache isolation. The board
`cexGoodBoard` has valid selectors and a successful list fetch, yet in the
site map that also carries the invalid board with the same id its notices are
lost, because `fetch_all` excludes invalidated boards by board id: with the
invalid same-id board present the crawl yields no notices at all, without it
the valid board yields its notice. -/
theorem C7_isolation_counterexample :
    validBoard cexSelOk cexGoodBoard = true ∧
    validBoard cexSelOk cexBadBoard = false ∧
    exceptOk (cexFetch cexGoodBoard) = true ∧
    (allJobs cexCampuses).map (fun j => j.2) = [cexBadBoard, cexGoodBoard] ∧
    (allJobs cexCampusesGood).map (fun j => j.2) = [cexGoodBoard] ∧
    (fetchAll cexSelOk cexFetch cexCleaning cexResolve cexExtract
      cexCampuses).notices = [] ∧
    (fetchAll cexSelOk cexFetch cexCleaning cexResolve cexExtract
      cexCampusesGood).notices.length = 1 := by
  decide

/-- C7: `fetch_all` error handling, corrected. Provided the board ids of the
job list are pairwise distinct, `fetch_all` yields a complete outcome in
which: `board_total` counts every job; the stage-1 notices are exactly the
deduplicated notices of the valid boards (so no board's failure affects
another board's notices); each failed list fetch contributes one
`board_list`-stage error and one `board_failures` increment; failed row
parses are counted in `notice_failures` and add no error entries (every
error is selector- or board-list-stage); and every board with an invalid
required selector is excluded, contributes exactly one error (carrying its
id), yields no notices, and removing it from the site map leaves the
notices unchanged. Without the distinctness proviso the isolation clause is
false (see the counterexample). -/
theorem C7_fetch_all_error_handling (selOk : String → Bool)
    (fetch : Board → Except (String × Bool) (List RowM))
    (cleaning : CleaningConfig) (resolveUrl : String → String → String)
    (extractId : String → Option String) (campuses : List Campus)
    (hnd : ((allJobs campuses).map fun j => j.2.id).Nodup) :
    (fetchAll selOk fetch cleaning resolveUrl extractId campuses).boardTotal =
        (allJobs campuses).length ∧
    (fetchAll selOk fetch cleaning resolveUrl extractId campuses).notices =
        dedupByCanonical ((validJobs selOk campuses).flatMap
          (jobNotices cleaning resolveUrl extractId fetch)) ∧
    (fetchAll selOk fetch cleaning resolveUrl extractId campuses).boardFailures =
        (invalidJobs selOk campuses).length +
          ((validJobs selOk campuses).filter fun j => ¬ exceptOk (fetch j.2)).length ∧
    ((fetchAll selOk fetch cleaning resolveUrl extractId campuses).errors.filter
        fun e => e.stage = CrawlStage.boardList).length =
      ((validJobs selOk campuses).filter fun j => ¬ exceptOk (fetch j.2)).length ∧
    (fetchAll selOk fetch cleaning resolveUrl extractId campuses).noticeTotal =
        ((validJobs selOk campuses).map (jobRowTotal fetch)).sum ∧
    (fetchAll selOk fetch cleaning resolveUrl extractId campuses).noticeFailures =
        ((validJobs selOk campuses).map
          (jobRowFailures cleaning resolveUrl extractId fetch)).sum ∧
    (∀ e ∈ (fetchAll selOk fetch cleaning resolveUrl extractId campuses).errors,
        e.stage = CrawlStage.selector ∨ e.stage = CrawlStage.boardList) ∧
    ∀ j0 ∈ invalidJobs selOk campuses,
      ((fetchAll selOk fetch cleaning resolveUrl extractId campuses).errors.filter
          fun e => e.boardId = some j0.2.id).length = 1 ∧
      (∀ n ∈ (fetchAll selOk fetch cleaning resolveUrl extractId campuses).notices,
          n.boardId ≠ j0.2.id) ∧
      (fetchAll selOk fetch cleaning resolveUrl extractId campuses).notices =
        (fetchAll selOk fetch cleaning resolveUrl extractId
          (removeBoard campuses j0.2.id)).notices := by
  have hspec := fetchAll_spec selOk fetch cleaning resolveUrl extractId campuses hnd
  refine ⟨?_, ?_, ?_, ?_, ?_, ?_, ?_, ?_⟩
  · rw [hspec]
    unfold validJobs invalidJobs
    exact length_filter_split _ _
  · rw [hspec]
  · rw [hspec]
  · rw [hspec]
    dsimp only
    rw [List.filter_append]
    have h1 : ((allJobs campuses).flatMap fun j => (cacheBoard selOk j.2).2).filter
        (fun e => e.stage = CrawlStage.boardList) = [] := by
      apply List.filter_eq_nil_iff.mpr
      intro e he
      rcases List.mem_flatMap.mp he with ⟨j, _, hej⟩
      have hst := (cacheBoard_errs selOk j.2 e hej).1
      simp [hst]
    have h2 : ((validJobs selOk campuses).flatMap (blErrList fetch)).filter
        (fun e => e.stage = CrawlStage.boardList) =
        (validJobs selOk campuses).flatMap (blErrList fetch) := by
      apply List.filter_eq_self.mpr
      intro e he
      rcases List.mem_flatMap.mp he with ⟨j, _, hej⟩
      have hst := (blErrList_errs fetch j e hej).1
      simp [hst]
    rw [h1, h2, List.nil_append, flatMap_blErr_length]
  · rw [hspec]
  · rw [hspec]
  · intro e he
    rw [hspec] at he
    dsimp only at he
    rcases List.mem_append.mp he with h | h
    · rcases List.mem_flatMap.mp h with ⟨j, _, hej⟩
      exact Or.inl (cacheBoard_errs selOk j.2 e hej).1
    · rcases List.mem_flatMap.mp h with ⟨j, _, hej⟩
      exact Or.inr (blErrList_errs fetch j e hej).1
  · intro j0 hj0
    have hj0f : j0 ∈ (allJobs campuses).filter
        (fun j => ¬ validBoard selOk j.2) := hj0
    have hj0mem : j0 ∈ allJobs campuses := List.mem_of_mem_filter hj0f
    have hj0bad : validBoard selOk j0.2 = false := by
      have hb := List.of_mem_filter hj0f
      simp at hb
      exact hb
    refine ⟨?_, ?_, ?_⟩
    · rw [hspec]
      dsimp only
      rw [List.filter_append,
        flatMap_bid_filter _ (fun j e he => (cacheBoard_errs selOk j.2 e he).2)
          j0.2.id (allJobs campuses),
        flatMap_bid_filter _ (fun j e he => (blErrList_errs fetch j e he).2)
          j0.2.id (validJobs selOk campuses),
        filter_id_single j0 (allJobs campuses) hnd hj0mem]
      have hv2 : (validJobs selOk campuses).filter
          (fun j => j.2.id = j0.2.id) = [] := by
        apply List.filter_eq_nil_iff.mpr
        intro x hx
        simp only [decide_eq_true_eq]
        intro he
        have hxf : x ∈ (allJobs campuses).filter
            (fun j => validBoard selOk j.2) := hx
        have hxmem : x ∈ allJobs campuses := List.mem_of_mem_filter hxf
        have hxe : x = j0 := List.inj_on_of_nodup_map hnd hxmem hj0mem he
        subst hxe
        have hgood := List.of_mem_filter hxf
        rw [hj0bad] at hgood
        exact Bool.noConfusion hgood
      rw [hv2]
      simp only [List.flatMap_cons, List.flatMap_nil, List.append_nil]
      exact cacheBoard_invalid_len selOk j0.2 hj0bad
    · intro n hn
      rw [hspec] at hn
      dsimp only at hn
      have hn2 := mem_dedupByCanonical n _ hn
      rcases List.mem_flatMap.mp hn2 with ⟨j, hjv, hnj⟩
      rw [jobNotices_boardId cleaning resolveUrl extractId fetch j n hnj]
      intro he
      have hjf : j ∈ (allJobs campuses).filter
          (fun j => validBoard selOk j.2) := hjv
      have hjmem : j ∈ allJobs campuses := List.mem_of_mem_filter hjf
      have hje : j = j0 := List.inj_on_of_nodup_map hnd hjmem hj0mem he
      subst hje
      have hgood := List.of_mem_filter hjf
      rw [hj0bad] at hgood
      exact Bool.noConfusion hgood
    · have hsub : ((allJobs (removeBoard campuses j0.2.id)).map
          fun j => j.2.id).Nodup := by
        rw [allJobs_removeBoard]
        exact List.Nodup.sublist ((List.filter_sublist _).map _) hnd
      rw [hspec,
        fetchAll_spec selOk fetch cleaning resolveUrl extractId _ hsub]
      dsimp only
      have hvj : validJobs selOk (removeBoard campuses j0.2.id) =
          validJobs selOk campuses := by
        unfold validJobs
        rw [allJobs_removeBoard, List.filter_filter]
        apply List.filter_congr
        intro x hx
        by_cases hvx : validBoard selOk x.2
        · have hne : ¬ x.2.id = j0.2.id := by
            intro he
            have hxe : x = j0 := List.inj_on_of_nodup_map hnd hx hj0mem he
            subst hxe
            rw [hj0bad] at hvx
            exact Bool.noConfusion hvx
          simp [hvx, hne]
        · simp [hvx]
      rw [hvj]

/-! C7 witness fixtures: three boards with distinct ids — one valid board
whose fetch succeeds with one good and one date-less row, one valid board
whose fetch fails, and one board with an invalid row selector. -/

def witRowGood : RowM :=
  { titleText := some "T1", dateText := some "2024-02-02",
    authorText := some " Kim ", linkAttr := some "/p/9" }

def witRowBad : RowM :=
  { titleText := some "T2", dateText := none, authorText := none,
    linkAttr := none }

def witBoardA : Board :=
  { id := "a", name := "A", url := "https://u.example/a",
    selectors := cexSelGood }

def witBoardB : Board :=
  { id := "b", name := "B", url := "https://u.example/b",
    selectors := cexSelGood }

def witBoardC : Board :=
  { id := "ccc", name := "C", url := "https://u.example/c",
    selectors := cexSelBad }

def witCampuses : List Campus :=
  [{ campus := "c", colleges := [],
     departments :=
       [{ id := "d1", name := "One", url := "https://u.example/d1",
          boards := [witBoardA] },
        { id := "d2", name := "Two", url := "https://u.example/d2",
          boards := [witBoardB, witBoardC] }] }]

def witFetch : Board → Except (String × Bool) (List RowM) := fun b =>
  if b.id = "a" then .ok [witRowGood, witRowBad]
  else .error ("boom", true)

/-- Witness for C7 at a concrete three-board site map with pairwise distinct
board ids. -/
theorem C7_fetch_all_error_handling_witness :
    (((allJobs witCampuses).map fun j => j.2.id).Nodup) ∧
    (fetchAll cexSelOk witFetch cexCleaning cexResolve cexExtract
        witCampuses).boardTotal = (allJobs witCampuses).length ∧
    (fetchAll cexSelOk witFetch cexCleaning cexResolve cexExtract
        witCampuses).boardFailures =
      (invalidJobs cexSelOk witCampuses).length +
        ((validJobs cexSelOk witCampuses).filter
          fun j => ¬ exceptOk (witFetch j.2)).length :=
  ⟨by decide,
   (C7_fetch_all_error_handling cexSelOk witFetch cexCleaning cexResolve
     cexExtract witCampuses (by decide)).1,
   (C7_fetch_all_error_handling cexSelOk witFetch cexCleaning cexResolve
     cexExtract witCampuses (by decide)).2.2.1⟩

/-! ## Claim C6 — snapshot commit: write order, manifest integrity, reader gating

`LocalStorage::write_snapshot` and `LocalStorage::load_snapshot` from
`src/Crawler/src/storage/local.rs`. The key helpers of `storage::paths` that
they call (`snapshot_prefix`, `detail_key`, `index_key`, `campus_index_key`,
`category_index_key`, `meta_key`, `aux_key`, `manifest_key`, `success_key`,
`in_progress_key`, `previous_pointer_key`, the `latest.json` pointer name)
are not under `src/`; they are modelled from the spec's key layout
(`<prefix>/snapshots/<version>/…`, `latest.json`, `previous.json`). JSON
serialisation (serde) is external and abstracted by an arbitrary encoder;
timestamps and the constant content-type metadata are dropped. The commit is
modelled as the chronological list of `(key, bytes)` writes; the store state
maps each key to its last write. -/

/-- Modelled from the spec: `paths::snapshot_prefix`. -/
def snapshotPrefix (pfx version : String) : String :=
  pfx ++ ("/snapshots/" ++ version)

/-- Modelled from the spec: `paths::in_progress_key`. -/
def inProgressKey (sp : String) : String := sp ++ "/_IN_PROGRESS"

/-- Modelled from the spec: `paths::detail_key`. -/
def detailKey (sp id : String) : String := sp ++ ("/detail/" ++ (id ++ ".json"))

/-- Modelled from the spec: `paths::index_key`. -/
def indexKey (sp name : String) : String := sp ++ ("/index/" ++ name)

/-- Modelled from the spec: `paths::campus_index_key`. -/
def campusIndexKey (sp c : String) : String :=
  sp ++ ("/index/campus/" ++ (c ++ ".json"))

/-- Modelled from the spec: `paths::category_index_key`, over the category's
serialised name. -/
def categoryIndexKey (sp g : String) : String :=
  sp ++ ("/index/category/" ++ (g ++ ".json"))

/-- Modelled from the spec: `paths::meta_key`. -/
def metaKey (sp name : String) : String := sp ++ ("/meta/" ++ name)

/-- Modelled from the spec: `paths::aux_key`. -/
def auxKey (sp name : String) : String := sp ++ ("/aux/" ++ name)

/-- Modelled from the spec: `paths::manifest_key`. -/
def manifestKey (sp : String) : String := sp ++ "/_manifest.json"

/-- Modelled from the spec: `paths::success_key`. -/
def successKey (sp : String) : String := sp ++ "/_SUCCESS"

/-- Modelled from the spec: `paths::pointer_key` (`latest.json`). -/
def pointerKey (pfx : String) : String := pfx ++ "/latest.json"

/-- Modelled from the spec: `paths::previous_pointer_key` (`previous.json`). -/
def previousPointerKey (pfx : String) : String := pfx ++ "/previous.json"

/-- The serialised name of a `NoticeCategory` (serde snake-case). -/
def categoryName : NoticeCategory → String
  | .academic => "academic"
  | .scholarship => "scholarship"
  | .recruitment => "recruitment"
  | .event => "event"
  | .general => "general"
  | .other => "other"

/-- `ManifestEntry` from `storage/local.rs`; the constant content-type /
content-encoding / cache-control metadata is dropped. -/
structure ManifestEntry where
  key : String
  bytes : Nat
  sha256 : String
deriving DecidableEq, Repr

/-- `SnapshotManifest` from `storage/local.rs`; the two timestamps are
dropped (the wall clock is external). -/
structure SnapshotManifest where
  schemaVersion : Nat
  version : String
  entries : List ManifestEntry
deriving DecidableEq, Repr

/-- The serde serialisations used by `write_snapshot`, abstracted: every
theorem below holds for every encoder. Payloads whose values the claims
never inspect (meta files, stats, outcome report, errors) are abstracted to
their byte strings. -/
structure SnapshotEnc where
  detail : Notice → List Nat
  items : List NoticeIndexItem → List Nat
  metaCampus : List Nat
  metaCategory : List Nat
  metaSource : List Nat
  auxDiff : Diff → List Nat
  auxStats : List Nat
  auxOutcome : List Nat
  auxErrors : List Nat
  manifest : SnapshotManifest → List Nat
  pointer : String → List Nat
  prevPointer : List Nat

/-- `write_bytes_entry`: the manifest entry records the key, the byte count
and the hex SHA-256 of the bytes actually written under the key. -/
def mkEntry (key : String) (bytes : List Nat) : ManifestEntry :=
  { key := key, bytes := bytes.length, sha256 := sha256Hex bytes }

/-- The current index items (`index_items` in `write_snapshot`). -/
def indexItems (notices : List Notice) : List NoticeIndexItem :=
  notices.map NoticeIndexItem.ofNotice

/-- The id → notice map of `write_snapshot` (`notice_by_id`): a `HashMap`
collected from an iterator, so the last notice with a given id wins. -/
def noticeById (notices : List Notice) (id : String) : Option Notice :=
  mapGet (notices.map fun n => (n.canonicalId, n)) id

/-- The campus an index item is grouped under, resolved through
`notice_by_id`. -/
def itemCampus (notices : List Notice) (it : NoticeIndexItem) : Option String :=
  (noticeById notices it.id).map fun n => n.campus

/-- The key set of `campus_map`: a `HashMap` grouping whose iteration order
is arbitrary; the model fixes first-insertion order. -/
def campusKeys (notices : List Notice) : List String :=
  firstKeys ((indexItems notices).filterMap (itemCampus notices))

/-- The items grouped under one campus key. -/
def campusItems (notices : List Notice) (c : String) : List NoticeIndexItem :=
  (indexItems notices).filter fun it => itemCampus notices it = some c

/-- The key set of `category_map` (serialised names), in first-insertion
order. -/
def categoryNames (notices : List Notice) : List String :=
  firstKeys ((indexItems notices).map fun it => categoryName it.category)

/-- The items grouped under one category key. -/
def categoryItems (notices : List Notice) (g : String) : List NoticeIndexItem :=
  (indexItems notices).filter fun it => categoryName it.category = g

/-- The data writes of one snapshot commit before the manifest, in source
order: detail files, the full index, per-campus indices, per-category
indices, the three meta files, then the aux files (`errors.json` only when
the outcome carries errors). -/
def bodyWrites (sp : String) (enc : SnapshotEnc) (notices : List Notice)
    (previousItems : List NoticeIndexItem) (hasErrors : Bool) :
    List (String × List Nat) :=
  (notices.map fun n => (detailKey sp n.canonicalId, enc.detail n)) ++
  [(indexKey sp "all.json", enc.items (indexItems notices))] ++
  ((campusKeys notices).map fun c =>
    (campusIndexKey sp c, enc.items (campusItems notices c))) ++
  ((categoryNames notices).map fun g =>
    (categoryIndexKey sp g, enc.items (categoryItems notices g))) ++
  [(metaKey sp "campus.json", enc.metaCampus),
   (metaKey sp "category.json", enc.metaCategory),
   (metaKey sp "source.json", enc.metaSource)] ++
  ([(auxKey sp "diff.json",
      enc.auxDiff (snapshotDiff previousItems (indexItems notices))),
    (auxKey sp "stats.json", enc.auxStats),
    (auxKey sp "outcome.json", enc.auxOutcome)] ++
   (if hasErrors then [(auxKey sp "errors.json", enc.auxErrors)] else []))

/-- `manifest_entries.sort_by(key)`. -/
def sortEntries (l : List ManifestEntry) : List ManifestEntry :=
  List.insertionSort (fun a b => a.key ≤ b.key) l

/-- The manifest written by `write_snapshot`: one entry per data write,
sorted by key. -/
def snapshotManifest (sp version : String) (enc : SnapshotEnc)
    (notices : List Notice) (previousItems : List NoticeIndexItem)
    (hasErrors : Bool) : SnapshotManifest :=
  { schemaVersion := 1, version := version,
    entries := sortEntries ((bodyWrites sp enc notices previousItems
      hasErrors).map fun kv => mkEntry kv.1 kv.2) }

/-- The chronological write trace of `write_snapshot`: the `_IN_PROGRESS`
marker, the data writes, the manifest, the `_SUCCESS` marker, then the
pointer swap (`previous.json` first when a previous pointer existed, then
`latest.json`). The best-effort deletion of `_IN_PROGRESS` between
`_SUCCESS` and the pointer swap is a remove, not a write, and does not
appear. -/
def writeSnapshotTrace (pfx version : String) (enc : SnapshotEnc)
    (notices : List Notice) (previousItems : List NoticeIndexItem)
    (hasErrors hasPrev : Bool) : List (String × List Nat) :=
  let sp := snapshotPrefix pfx version
  [(inProgressKey sp, [])] ++
  bodyWrites sp enc notices previousItems hasErrors ++
  [(manifestKey sp,
     enc.manifest (snapshotManifest sp version enc notices previousItems hasErrors)),
   (successKey sp, [])] ++
  ((if hasPrev then [(previousPointerKey pfx, enc.prevPointer)] else []) ++
   [(pointerKey pfx, enc.pointer version)])

/-- The object-store state after a sequence of key-level-atomic writes: the
last write to a key wins. -/
def storeState (writes : List (String × List Nat)) (k : String) :
    Option (List Nat) :=
  mapGet writes k

/-- `LocalStorage::load_snapshot` over an abstract store: resolve
`latest.json`; require the `_SUCCESS` marker of the named version, treating
the version as absent otherwise; then read `index/all.json`
(`unwrap_or_default`). Pointer and index decoding are abstracted by total
functions. -/
def loadSnapshot (state : String → Option (List Nat))
    (decPointer : List Nat → String)
    (decItems : List Nat → List NoticeIndexItem) (pfx : String) :
    List NoticeIndexItem :=
  match state (pointerKey pfx) with
  | none => []
  | some pb =>
    let sp := snapshotPrefix pfx (decPointer pb)
    if (state (successKey sp)).isNone then []
    else
      match state (indexKey sp "all.json") with
      | none => []
      | some ib => decItems ib

/-! String-key machinery: appends cancel on either side, and keys of
different classes are distinct. -/

theorem strAppend_left_cancel {sp r1 r2 : String} (h : sp ++ r1 = sp ++ r2) :
    r1 = r2 := by
  apply stringData_inj
  have hd := congrArg String.data h
  rw [strAppend_data, strAppend_data] at hd
  exact List.append_cancel_left hd

theorem strAppend_right_cancel {a b s : String} (h : a ++ s = b ++ s) :
    a = b := by
  apply stringData_inj
  have hd := congrArg String.data h
  rw [strAppend_data, strAppend_data] at hd
  exact List.append_cancel_right hd

theorem strAppend_empty (s : String) : s ++ "" = s := by
  apply stringData_inj
  rw [strAppend_data]
  exact List.append_nil _

theorem strAppend_assoc (a b c : String) : (a ++ b) ++ c = a ++ (b ++ c) := by
  apply stringData_inj
  rw [strAppend_data, strAppend_data, strAppend_data, strAppend_data,
    List.append_assoc]

theorem strAppend_ne_at (t1 t2 x y : String) (i : Nat)
    (h1 : i < t1.data.length) (h2 : i < t2.data.length)
    (hne : t1.data.get? i ≠ t2.data.get? i) : t1 ++ x ≠ t2 ++ y := by
  intro h
  apply hne
  have hd := congrArg String.data h
  rw [strAppend_data, strAppend_data] at hd
  have e1 : (t1.data ++ x.data).get? i = t1.data.get? i := by
    rw [List.get?_eq_getElem?, List.get?_eq_getElem?]
    exact List.getElem?_append_left h1
  have e2 : (t2.data ++ y.data).get? i = t2.data.get? i := by
    rw [List.get?_eq_getElem?, List.get?_eq_getElem?]
    exact List.getElem?_append_left h2
  rw [← e1, ← e2, hd]

theorem key_ne_of_rest_ne {sp r1 r2 : String} (h : r1 ≠ r2) :
    sp ++ r1 ≠ sp ++ r2 :=
  fun he => h (strAppend_left_cancel he)

theorem detailKey_inj {sp id1 id2 : String}
    (h : detailKey sp id1 = detailKey sp id2) : id1 = id2 :=
  strAppend_right_cancel (strAppend_left_cancel (strAppend_left_cancel h))

theorem campusIndexKey_inj {sp c1 c2 : String}
    (h : campusIndexKey sp c1 = campusIndexKey sp c2) : c1 = c2 :=
  strAppend_right_cancel (strAppend_left_cancel (strAppend_left_cancel h))

theorem categoryIndexKey_inj {sp g1 g2 : String}
    (h : categoryIndexKey sp g1 = categoryIndexKey sp g2) : g1 = g2 :=
  strAppend_right_cancel (strAppend_left_cancel (strAppend_left_cancel h))

theorem metaKey_inj {sp n1 n2 : String}
    (h : metaKey sp n1 = metaKey sp n2) : n1 = n2 :=
  strAppend_left_cancel (strAppend_left_cancel h)

theorem auxKey_inj {sp n1 n2 : String}
    (h : auxKey sp n1 = auxKey sp n2) : n1 = n2 :=
  strAppend_left_cancel (strAppend_left_cancel h)

theorem detailKey_ne_indexKey (sp id name : String) :
    detailKey sp id ≠ indexKey sp name :=
  key_ne_of_rest_ne (strAppend_ne_at _ _ _ _ 1 (by decide) (by decide) (by decide))

theorem detailKey_ne_campusIndexKey (sp id c : String) :
    detailKey sp id ≠ campusIndexKey sp c :=
  key_ne_of_rest_ne (strAppend_ne_at _ _ _ _ 1 (by decide) (by decide) (by decide))

theorem detailKey_ne_categoryIndexKey (sp id g : String) :
    detailKey sp id ≠ categoryIndexKey sp g :=
  key_ne_of_rest_ne (strAppend_ne_at _ _ _ _ 1 (by decide) (by decide) (by decide))

theorem detailKey_ne_metaKey (sp id name : String) :
    detailKey sp id ≠ metaKey sp name :=
  key_ne_of_rest_ne (strAppend_ne_at _ _ _ _ 1 (by decide) (by decide) (by decide))

theorem detailKey_ne_auxKey (sp id name : String) :
    detailKey sp id ≠ auxKey sp name :=
  key_ne_of_rest_ne (strAppend_ne_at _ _ _ _ 1 (by decide) (by decide) (by decide))

theorem detailKey_ne_manifestKey (sp id : String) :
    detailKey sp id ≠ manifestKey sp := by
  unfold manifestKey
  rw [← strAppend_empty "/_manifest.json"]
  exact key_ne_of_rest_ne
    (strAppend_ne_at _ _ _ _ 1 (by decide) (by decide) (by decide))

theorem detailKey_ne_successKey (sp id : String) :
    detailKey sp id ≠ successKey sp := by
  unfold successKey
  rw [← strAppend_empty "/_SUCCESS"]
  exact key_ne_of_rest_ne
    (strAppend_ne_at _ _ _ _ 1 (by decide) (by decide) (by decide))

theorem detailKey_ne_inProgressKey (sp id : String) :
    detailKey sp id ≠ inProgressKey sp := by
  unfold inProgressKey
  rw [← strAppend_empty "/_IN_PROGRESS"]
  exact key_ne_of_rest_ne
    (strAppend_ne_at _ _ _ _ 1 (by decide) (by decide) (by decide))

theorem indexAll_ne_campusIndexKey (sp c : String) :
    indexKey sp "all.json" ≠ campusIndexKey sp c := by
  unfold indexKey campusIndexKey
  rw [show ("/index/" ++ "all.json" : String) = "/index/all.json" ++ "" from by decide]
  exact key_ne_of_rest_ne
    (strAppend_ne_at _ _ _ _ 7 (by decide) (by decide) (by decide))

theorem indexAll_ne_categoryIndexKey (sp g : String) :
    indexKey sp "all.json" ≠ categoryIndexKey sp g := by
  unfold indexKey categoryIndexKey
  rw [show ("/index/" ++ "all.json" : String) = "/index/all.json" ++ "" from by decide]
  exact key_ne_of_rest_ne
    (strAppend_ne_at _ _ _ _ 7 (by decide) (by decide) (by decide))

theorem campusIndexKey_ne_categoryIndexKey (sp c g : String) :
    campusIndexKey sp c ≠ categoryIndexKey sp g :=
  key_ne_of_rest_ne (strAppend_ne_at _ _ _ _ 9 (by decide) (by decide) (by decide))

theorem indexKey_ne_metaKey (sp n1 n2 : String) :
    indexKey sp n1 ≠ metaKey sp n2 :=
  key_ne_of_rest_ne (strAppend_ne_at _ _ _ _ 1 (by decide) (by decide) (by decide))

theorem indexKey_ne_auxKey (sp n1 n2 : String) :
    indexKey sp n1 ≠ auxKey sp n2 :=
  key_ne_of_rest_ne (strAppend_ne_at _ _ _ _ 1 (by decide) (by decide) (by decide))

theorem indexKey_ne_manifestKey (sp name : String) :
    indexKey sp name ≠ manifestKey sp := by
  unfold manifestKey
  rw [← strAppend_empty "/_manifest.json"]
  exact key_ne_of_rest_ne
    (strAppend_ne_at _ _ _ _ 1 (by decide) (by decide) (by decide))

theorem indexKey_ne_successKey (sp name : String) :
    indexKey sp name ≠ successKey sp := by
  unfold successKey
  rw [← strAppend_empty "/_SUCCESS"]
  exact key_ne_of_rest_ne
    (strAppend_ne_at _ _ _ _ 1 (by decide) (by decide) (by decide))

theorem indexKey_ne_inProgressKey (sp name : String) :
    indexKey sp name ≠ inProgressKey sp := by
  unfold inProgressKey
  rw [← strAppend_empty "/_IN_PROGRESS"]
  exact key_ne_of_rest_ne
    (strAppend_ne_at _ _ _ _ 1 (by decide) (by decide) (by decide))

theorem campusIndexKey_ne_metaKey (sp c name : String) :
    campusIndexKey sp c ≠ metaKey sp name :=
  key_ne_of_rest_ne (strAppend_ne_at _ _ _ _ 1 (by decide) (by decide) (by decide))

theorem campusIndexKey_ne_auxKey (sp c name : String) :
    campusIndexKey sp c ≠ auxKey sp name :=
  key_ne_of_rest_ne (strAppend_ne_at _ _ _ _ 1 (by decide) (by decide) (by decide))

theorem campusIndexKey_ne_manifestKey (sp c : String) :
    campusIndexKey sp c ≠ manifestKey sp := by
  unfold manifestKey
  rw [← strAppend_empty "/_manifest.json"]
  exact key_ne_of_rest_ne
    (strAppend_ne_at _ _ _ _ 1 (by decide) (by decide) (by decide))

theorem campusIndexKey_ne_successKey (sp c : String) :
    campusIndexKey sp c ≠ successKey sp := by
  unfold successKey
  rw [← strAppend_empty "/_SUCCESS"]
  exact key_ne_of_rest_ne
    (strAppend_ne_at _ _ _ _ 1 (by decide) (by decide) (by decide))

theorem campusIndexKey_ne_inProgressKey (sp c : String) :
    campusIndexKey sp c ≠ inProgressKey sp := by
  unfold inProgressKey
  rw [← strAppend_empty "/_IN_PROGRESS"]
  exact key_ne_of_rest_ne
    (strAppend_ne_at _ _ _ _ 1 (by decide) (by decide) (by decide))

theorem categoryIndexKey_ne_metaKey (sp g name : String) :
    categoryIndexKey sp g ≠ metaKey sp name :=
  key_ne_of_rest_ne (strAppend_ne_at _ _ _ _ 1 (by decide) (by decide) (by decide))

theorem categoryIndexKey_ne_auxKey (sp g name : String) :
    categoryIndexKey sp g ≠ auxKey sp name :=
  key_ne_of_rest_ne (strAppend_ne_at _ _ _ _ 1 (by decide) (by decide) (by decide))

theorem categoryIndexKey_ne_manifestKey (sp g : String) :
    categoryIndexKey sp g ≠ manifestKey sp := by
  unfold manifestKey
  rw [← strAppend_empty "/_manifest.json"]
  exact key_ne_of_rest_ne
    (strAppend_ne_at _ _ _ _ 1 (by decide) (by decide) (by decide))

theorem categoryIndexKey_ne_successKey (sp g : String) :
    categoryIndexKey sp g ≠ successKey sp := by
  unfold successKey
  rw [← strAppend_empty "/_SUCCESS"]
  exact key_ne_of_rest_ne
    (strAppend_ne_at _ _ _ _ 1 (by decide) (by decide) (by decide))

theorem categoryIndexKey_ne_inProgressKey (sp g : String) :
    categoryIndexKey sp g ≠ inProgressKey sp := by
  unfold inProgressKey
  rw [← strAppend_empty "/_IN_PROGRESS"]
  exact key_ne_of_rest_ne
    (strAppend_ne_at _ _ _ _ 1 (by decide) (by decide) (by decide))

theorem metaKey_ne_auxKey (sp n1 n2 : String) :
    metaKey sp n1 ≠ auxKey sp n2 :=
  key_ne_of_rest_ne (strAppend_ne_at _ _ _ _ 1 (by decide) (by decide) (by decide))

theorem metaKey_ne_manifestKey (sp name : String) :
    metaKey sp name ≠ manifestKey sp := by
  unfold manifestKey
  rw [← strAppend_empty "/_manifest.json"]
  exact key_ne_of_rest_ne
    (strAppend_ne_at _ _ _ _ 1 (by decide) (by decide) (by decide))

theorem metaKey_ne_successKey (sp name : String) :
    metaKey sp name ≠ successKey sp := by
  unfold successKey
  rw [← strAppend_empty "/_SUCCESS"]
  exact key_ne_of_rest_ne
    (strAppend_ne_at _ _ _ _ 1 (by decide) (by decide) (by decide))

theorem metaKey_ne_inProgressKey (sp name : String) :
    metaKey sp name ≠ inProgressKey sp := by
  unfold inProgressKey
  rw [← strAppend_empty "/_IN_PROGRESS"]
  exact key_ne_of_rest_ne
    (strAppend_ne_at _ _ _ _ 1 (by decide) (by decide) (by decide))

theorem auxKey_ne_manifestKey (sp name : String) :
    auxKey sp name ≠ manifestKey sp := by
  unfold manifestKey
  rw [← strAppend_empty "/_manifest.json"]
  exact key_ne_of_rest_ne
    (strAppend_ne_at _ _ _ _ 1 (by decide) (by decide) (by decide))

theorem auxKey_ne_successKey (sp name : String) :
    auxKey sp name ≠ successKey sp := by
  unfold successKey
  rw [← strAppend_empty "/_SUCCESS"]
  exact key_ne_of_rest_ne
    (strAppend_ne_at _ _ _ _ 1 (by decide) (by decide) (by decide))

theorem auxKey_ne_inProgressKey (sp name : String) :
    auxKey sp name ≠ inProgressKey sp := by
  unfold inProgressKey
  rw [← strAppend_empty "/_IN_PROGRESS"]
  exact key_ne_of_rest_ne
    (strAppend_ne_at _ _ _ _ 1 (by decide) (by decide) (by decide))

theorem manifestKey_ne_successKey (sp : String) :
    manifestKey sp ≠ successKey sp :=
  key_ne_of_rest_ne (by decide)

theorem manifestKey_ne_inProgressKey (sp : String) :
    manifestKey sp ≠ inProgressKey sp :=
  key_ne_of_rest_ne (by decide)

theorem successKey_ne_inProgressKey (sp : String) :
    successKey sp ≠ inProgressKey sp :=
  key_ne_of_rest_ne (by decide)

theorem spKey_ne_pointerKey (pfx version r : String) :
    snapshotPrefix pfx version ++ r ≠ pointerKey pfx := by
  unfold snapshotPrefix pointerKey
  rw [strAppend_assoc, strAppend_assoc, ← strAppend_empty "/latest.json"]
  exact key_ne_of_rest_ne
    (strAppend_ne_at _ _ _ _ 1 (by decide) (by decide) (by decide))

theorem spKey_ne_prevPointerKey (pfx version r : String) :
    snapshotPrefix pfx version ++ r ≠ previousPointerKey pfx := by
  unfold snapshotPrefix previousPointerKey
  rw [strAppend_assoc, strAppend_assoc, ← strAppend_empty "/previous.json"]
  exact key_ne_of_rest_ne
    (strAppend_ne_at _ _ _ _ 1 (by decide) (by decide) (by decide))

/-! Store-state machinery: reading keys back from a write trace, and
decomposing a crash prefix of the trace. -/

theorem lookupEntry_append_notin {α : Type} :
    ∀ (A B : List (String × α)) (k : String),
      (∀ e ∈ A, e.1 ≠ k) → lookupEntry (A ++ B) k = lookupEntry B k := by
  intro A
  induction A with
  | nil => intro B k _; rfl
  | cons e es ih =>
    intro B k h
    rw [List.cons_append]
    show (if e.1 = k then some e.2 else lookupEntry (es ++ B) k) = lookupEntry B k
    rw [if_neg (h e (List.mem_cons_self _ _))]
    exact ih B k fun x hx => h x (List.mem_cons_of_mem _ hx)

theorem lookupEntry_append_found {α : Type} :
    ∀ (A B : List (String × α)) (k : String) (v : α),
      lookupEntry A k = some v → lookupEntry (A ++ B) k = some v := by
  intro A
  induction A with
  | nil => intro B k v h; cases h
  | cons e es ih =>
    intro B k v h
    rw [List.cons_append]
    have h2 : (if e.1 = k then some e.2 else lookupEntry es k) = some v := h
    show (if e.1 = k then some e.2 else lookupEntry (es ++ B) k) = some v
    by_cases he : e.1 = k
    · rw [if_pos he]
      rw [if_pos he] at h2
      exact h2
    · rw [if_neg he]
      rw [if_neg he] at h2
      exact ih B k v h2

theorem lookupEntry_nodup {α : Type} :
    ∀ (B : List (String × α)) (k : String) (v : α),
      (B.map Prod.fst).Nodup → (k, v) ∈ B → lookupEntry B k = some v := by
  intro B
  induction B with
  | nil => intro k v _ h; cases h
  | cons e es ih =>
    intro k v hnd hmem
    rw [List.map_cons, List.nodup_cons] at hnd
    rcases List.mem_cons.mp hmem with rfl | hm
    · show (if (k, v).1 = k then some (k, v).2 else lookupEntry es k) = some v
      rw [if_pos rfl]
    · have hne : e.1 ≠ k := by
        intro he
        apply hnd.1
        rw [he]
        exact List.mem_map_of_mem Prod.fst hm
      show (if e.1 = k then some e.2 else lookupEntry es k) = some v
      rw [if_neg hne]
      exact ih k v hnd.2 hm

theorem mapGet_unique {α : Type} (B : List (String × α)) (k : String) (v : α)
    (hnd : (B.map Prod.fst).Nodup) (hmem : (k, v) ∈ B) :
    mapGet B k = some v := by
  unfold mapGet
  apply lookupEntry_nodup
  · rw [List.map_reverse]
    exact List.nodup_reverse.mpr hnd
  · exact List.mem_reverse.mpr hmem

theorem mapGet_append_right_notin {α : Type} (Q P : List (String × α))
    (k : String) (h : ∀ e ∈ P, e.1 ≠ k) : mapGet (Q ++ P) k = mapGet Q k := by
  unfold mapGet
  rw [List.reverse_append]
  exact lookupEntry_append_notin P.reverse Q.reverse k
    fun e he => h e (List.mem_reverse.mp he)

theorem mapGet_append_left_found {α : Type} (Q P : List (String × α))
    (k : String) (v : α) (h : mapGet P k = some v) :
    mapGet (Q ++ P) k = some v := by
  unfold mapGet at h ⊢
  rw [List.reverse_append]
  exact lookupEntry_append_found P.reverse Q.reverse k v h

theorem seg_le_of_mem {α : Type} (L1 L2 tr : List α) (x : α)
    (hpre : tr <+: L1 ++ L2) (hx : x ∈ tr) (hnx : ¬ x ∈ L1) : L1 <+: tr := by
  rcases hpre with ⟨t, ht⟩
  have htake : (L1 ++ L2).take tr.length = tr := by
    rw [← ht]
    exact List.take_left tr t
  rcases Nat.lt_or_ge L1.length tr.length with hlt | hge
  · rw [← htake, List.take_append_eq_append_take,
      List.take_of_length_le (Nat.le_of_lt hlt)]
    exact List.prefix_append L1 _
  · exfalso
    apply hnx
    rw [← htake, List.take_append_of_le_length hge] at hx
    exact (List.take_sublist _ _).subset hx

theorem prefix_drop {α : Type} (L1 tr L2 : List α)
    (h1 : tr <+: L1 ++ L2) (h2 : L1 <+: tr) :
    ∃ t, tr = L1 ++ t ∧ t <+: L2 := by
  rcases h2 with ⟨t, ht⟩
  refine ⟨t, ht.symm, ?_⟩
  rcases h1 with ⟨u, hu⟩
  rw [← ht, List.append_assoc] at hu
  exact ⟨u, List.append_cancel_left hu⟩

theorem keys_complete_of_later {α : Type} (L1 R1 tr : List (String × α))
    (x : String) (hpre : tr <+: L1 ++ R1) (hx : x ∈ tr.map Prod.fst)
    (hnx : ∀ e ∈ L1, e.1 ≠ x) :
    ∀ y ∈ L1.map Prod.fst, y ∈ tr.map Prod.fst := by
  rcases List.mem_map.mp hx with ⟨p, hp, hpk⟩
  have hpnx : ¬ p ∈ L1 := fun hmem => hnx p hmem hpk
  have hL1 : L1 <+: tr := seg_le_of_mem L1 R1 tr p hpre hp hpnx
  intro y hy
  rcases List.mem_map.mp hy with ⟨q, hq, hqk⟩
  rw [← hqk]
  exact List.mem_map_of_mem _ (hL1.subset hq)

theorem nodup_foldl_insertOnce :
    ∀ (l acc : List String), acc.Nodup → (l.foldl insertOnce acc).Nodup := by
  intro l
  induction l with
  | nil => intro acc h; exact h
  | cons a rest ih =>
    intro acc h
    rw [List.foldl_cons]
    exact ih _ (nodup_insertOnce acc a h)

theorem nodup_firstKeys (l : List String) : (firstKeys l).Nodup :=
  nodup_foldl_insertOnce l [] List.nodup_nil

/-! The key set of the data writes: class decomposition and distinctness. -/

theorem mem_bodyWrites_key (sp : String) (enc : SnapshotEnc)
    (notices : List Notice) (previousItems : List NoticeIndexItem)
    (hasErrors : Bool) (kv : String × List Nat)
    (h : kv ∈ bodyWrites sp enc notices previousItems hasErrors) :
    (∃ n ∈ notices, kv.1 = detailKey sp n.canonicalId) ∨
    kv.1 = indexKey sp "all.json" ∨
    (∃ c ∈ campusKeys notices, kv.1 = campusIndexKey sp c) ∨
    (∃ g ∈ categoryNames notices, kv.1 = categoryIndexKey sp g) ∨
    (∃ m, (m = "campus.json" ∨ m = "category.json" ∨ m = "source.json") ∧
      kv.1 = metaKey sp m) ∨
    (∃ a, (a = "diff.json" ∨ a = "stats.json" ∨ a = "outcome.json" ∨
      a = "errors.json") ∧ kv.1 = auxKey sp a) := by
  unfold bodyWrites at h
  rcases List.mem_append.mp h with h | haux
  · rcases List.mem_append.mp h with h | hmeta
    · rcases List.mem_append.mp h with h | hcat
      · rcases List.mem_append.mp h with h | hcam
        · rcases List.mem_append.mp h with hdet | hall
          · left
            rcases List.mem_map.mp hdet with ⟨n, hn, he⟩
            exact ⟨n, hn, (congrArg Prod.fst he).symm⟩
          · right; left
            rw [List.mem_singleton] at hall
            exact congrArg Prod.fst hall
        · right; right; left
          rcases List.mem_map.mp hcam with ⟨c, hc, he⟩
          exact ⟨c, hc, (congrArg Prod.fst he).symm⟩
      · right; right; right; left
        rcases List.mem_map.mp hcat with ⟨g, hg, he⟩
        exact ⟨g, hg, (congrArg Prod.fst he).symm⟩
    · right; right; right; right; left
      simp only [List.mem_cons, List.not_mem_nil, or_false] at hmeta
      rcases hmeta with rfl | rfl | rfl
      · exact ⟨"campus.json", Or.inl rfl, rfl⟩
      · exact ⟨"category.json", Or.inr (Or.inl rfl), rfl⟩
      · exact ⟨"source.json", Or.inr (Or.inr rfl), rfl⟩
  · right; right; right; right; right
    rcases List.mem_append.mp haux with h3 | herr
    · simp only [List.mem_cons, List.not_mem_nil, or_false] at h3
      rcases h3 with rfl | rfl | rfl
      · exact ⟨"diff.json", Or.inl rfl, rfl⟩
      · exact ⟨"stats.json", Or.inr (Or.inl rfl), rfl⟩
      · exact ⟨"outcome.json", Or.inr (Or.inr (Or.inl rfl)), rfl⟩
    · cases hasErrors with
      | false => rw [if_neg (by simp)] at herr; cases herr
      | true =>
        rw [if_pos rfl] at herr
        rw [List.mem_singleton] at herr
        exact ⟨"errors.json", Or.inr (Or.inr (Or.inr rfl)),
          congrArg Prod.fst herr⟩

theorem bodyWrites_keys_nodup (sp : String) (enc : SnapshotEnc)
    (notices : List Notice) (previousItems : List NoticeIndexItem)
    (hasErrors : Bool)
    (hids : (notices.map fun n => n.canonicalId).Nodup) :
    ((bodyWrites sp enc notices previousItems hasErrors).map Prod.fst).Nodup := by
  unfold bodyWrites
  simp only [List.map_append, List.map_map, List.map_cons, List.map_nil,
    Function.comp_def, List.append_assoc, List.singleton_append,
    List.cons_append, List.nil_append]
  set E := ((if hasErrors then [(auxKey sp "errors.json", enc.auxErrors)]
    else []).map Prod.fst) with hEdef
  have hEmem : ∀ x ∈ E, x = auxKey sp "errors.json" := by
    rw [hEdef]
    cases hasErrors <;> simp
  have hEnodup : E.Nodup := by
    rw [hEdef]
    cases hasErrors <;> simp
  have hK1 : (notices.map fun n => detailKey sp n.canonicalId).Nodup := by
    have h2 : (notices.map fun n => detailKey sp n.canonicalId) =
        (notices.map fun n => n.canonicalId).map (detailKey sp) := by
      rw [List.map_map]
      rfl
    rw [h2]
    exact hids.map fun a b h => detailKey_inj h
  have hK3 : ((campusKeys notices).map (campusIndexKey sp)).Nodup :=
    (nodup_firstKeys _).map fun a b h => campusIndexKey_inj h
  have hK4 : ((categoryNames notices).map (categoryIndexKey sp)).Nodup :=
    (nodup_firstKeys _).map fun a b h => categoryIndexKey_inj h
  refine List.nodup_append.mpr ⟨hK1, ?_, ?_⟩
  · -- the tail after the detail keys is duplicate-free
    refine List.nodup_cons.mpr ⟨?_, ?_⟩
    · -- index/all.json is not among the later keys
      intro hmem
      simp only [List.mem_append, List.mem_cons, List.mem_map,
        List.not_mem_nil, or_false] at hmem
      rcases hmem with ⟨c, _, he⟩ | ⟨g, _, he⟩ | he | he | he | he | he | he | hE
      · exact indexAll_ne_campusIndexKey sp c he.symm
      · exact indexAll_ne_categoryIndexKey sp g he.symm
      · exact indexKey_ne_metaKey sp "all.json" "campus.json" he
      · exact indexKey_ne_metaKey sp "all.json" "category.json" he
      · exact indexKey_ne_metaKey sp "all.json" "source.json" he
      · exact indexKey_ne_auxKey sp "all.json" "diff.json" he
      · exact indexKey_ne_auxKey sp "all.json" "stats.json" he
      · exact indexKey_ne_auxKey sp "all.json" "outcome.json" he
      · exact indexKey_ne_auxKey sp "all.json" "errors.json" (hEmem _ hE)
    · refine List.nodup_append.mpr ⟨hK3, ?_, ?_⟩
      · refine List.nodup_append.mpr ⟨hK4, ?_, ?_⟩
        · -- meta, aux and errors keys
          refine List.nodup_cons.mpr ⟨?_, ?_⟩
          · intro hmem
            simp only [List.mem_cons, List.not_mem_nil, or_false] at hmem
            rcases hmem with he | he | he | he | he | hE
            · exact absurd (metaKey_inj he) (by decide)
            · exact absurd (metaKey_inj he) (by decide)
            · exact metaKey_ne_auxKey sp "campus.json" "diff.json" he
            · exact metaKey_ne_auxKey sp "campus.json" "stats.json" he
            · exact metaKey_ne_auxKey sp "campus.json" "outcome.json" he
            · exact metaKey_ne_auxKey sp "campus.json" "errors.json" (hEmem _ hE)
          refine List.nodup_cons.mpr ⟨?_, ?_⟩
          · intro hmem
            simp only [List.mem_cons, List.not_mem_nil, or_false] at hmem
            rcases hmem with he | he | he | he | hE
            · exact absurd (metaKey_inj he) (by decide)
            · exact metaKey_ne_auxKey sp "category.json" "diff.json" he
            · exact metaKey_ne_auxKey sp "category.json" "stats.json" he
            · exact metaKey_ne_auxKey sp "category.json" "outcome.json" he
            · exact metaKey_ne_auxKey sp "category.json" "errors.json" (hEmem _ hE)
          refine List.nodup_cons.mpr ⟨?_, ?_⟩
          · intro hmem
            simp only [List.mem_cons, List.not_mem_nil, or_false] at hmem
            rcases hmem with he | he | he | hE
            · exact metaKey_ne_auxKey sp "source.json" "diff.json" he
            · exact metaKey_ne_auxKey sp "source.json" "stats.json" he
            · exact metaKey_ne_auxKey sp "source.json" "outcome.json" he
            · exact metaKey_ne_auxKey sp "source.json" "errors.json" (hEmem _ hE)
          refine List.nodup_cons.mpr ⟨?_, ?_⟩
          · intro hmem
            simp only [List.mem_cons, List.not_mem_nil, or_false] at hmem
            rcases hmem with he | he | hE
            · exact absurd (auxKey_inj he) (by decide)
            · exact absurd (auxKey_inj he) (by decide)
            · exact absurd (auxKey_inj (hEmem _ hE)) (by decide)
          refine List.nodup_cons.mpr ⟨?_, ?_⟩
          · intro hmem
            simp only [List.mem_cons, List.not_mem_nil, or_false] at hmem
            rcases hmem with he | hE
            · exact absurd (auxKey_inj he) (by decide)
            · exact absurd (auxKey_inj (hEmem _ hE)) (by decide)
          refine List.nodup_cons.mpr ⟨?_, hEnodup⟩
          intro hE
          exact absurd (auxKey_inj (hEmem _ hE)) (by decide)
        · -- category keys vs meta / aux / errors keys
          intro x hx hmem
          rcases List.mem_map.mp hx with ⟨g, _, rfl⟩
          simp only [List.mem_cons, List.not_mem_nil, or_false] at hmem
          rcases hmem with he | he | he | he | he | he | hE
          · exact categoryIndexKey_ne_metaKey sp g "campus.json" he
          · exact categoryIndexKey_ne_metaKey sp g "category.json" he
          · exact categoryIndexKey_ne_metaKey sp g "source.json" he
          · exact categoryIndexKey_ne_auxKey sp g "diff.json" he
          · exact categoryIndexKey_ne_auxKey sp g "stats.json" he
          · exact categoryIndexKey_ne_auxKey sp g "outcome.json" he
          · exact categoryIndexKey_ne_auxKey sp g "errors.json" (hEmem _ hE)
      · -- campus keys vs category / meta / aux / errors keys
        intro x hx hmem
        rcases List.mem_map.mp hx with ⟨c, _, rfl⟩
        simp only [List.mem_append, List.mem_cons, List.mem_map,
          List.not_mem_nil, or_false] at hmem
        rcases hmem with ⟨g, _, he⟩ | he | he | he | he | he | he | hE
        · exact campusIndexKey_ne_categoryIndexKey sp c g he.symm
        · exact campusIndexKey_ne_metaKey sp c "campus.json" he
        · exact campusIndexKey_ne_metaKey sp c "category.json" he
        · exact campusIndexKey_ne_metaKey sp c "source.json" he
        · exact campusIndexKey_ne_auxKey sp c "diff.json" he
        · exact campusIndexKey_ne_auxKey sp c "stats.json" he
        · exact campusIndexKey_ne_auxKey sp c "outcome.json" he
        · exact campusIndexKey_ne_auxKey sp c "errors.json" (hEmem _ hE)
  · -- detail keys vs every later key
    intro x hx hmem
    rcases List.mem_map.mp hx with ⟨n, _, rfl⟩
    simp only [List.mem_append, List.mem_cons, List.mem_map,
      List.not_mem_nil, or_false] at hmem
    rcases hmem with he | ⟨c, _, he⟩ | ⟨g, _, he⟩ | he | he | he | he | he | he | hE
    · exact detailKey_ne_indexKey sp n.canonicalId "all.json" he
    · exact detailKey_ne_campusIndexKey sp n.canonicalId c he.symm
    · exact detailKey_ne_categoryIndexKey sp n.canonicalId g he.symm
    · exact detailKey_ne_metaKey sp n.canonicalId "campus.json" he
    · exact detailKey_ne_metaKey sp n.canonicalId "category.json" he
    · exact detailKey_ne_metaKey sp n.canonicalId "source.json" he
    · exact detailKey_ne_auxKey sp n.canonicalId "diff.json" he
    · exact detailKey_ne_auxKey sp n.canonicalId "stats.json" he
    · exact detailKey_ne_auxKey sp n.canonicalId "outcome.json" he
    · exact detailKey_ne_auxKey sp n.canonicalId "errors.json" (hEmem _ hE)

theorem mem_manifest_entries (sp version : String) (enc : SnapshotEnc)
    (notices : List Notice) (previousItems : List NoticeIndexItem)
    (hasErrors : Bool) (e : ManifestEntry) :
    e ∈ (snapshotManifest sp version enc notices previousItems hasErrors).entries ↔
      ∃ kv ∈ bodyWrites sp enc notices previousItems hasErrors,
        e = mkEntry kv.1 kv.2 := by
  unfold snapshotManifest
  dsimp only
  unfold sortEntries
  rw [(List.perm_insertionSort _ _).mem_iff]
  simp only [List.mem_map]
  constructor
  · rintro ⟨kv, hkv, rfl⟩
    exact ⟨kv, hkv, rfl⟩
  · rintro ⟨kv, hkv, rfl⟩
    exact ⟨kv, hkv, rfl⟩

instance : IsTotal ManifestEntry fun a b => a.key ≤ b.key :=
  ⟨fun a b => le_total a.key b.key⟩

instance : IsTrans ManifestEntry fun a b => a.key ≤ b.key :=
  ⟨fun _ _ _ h1 h2 => le_trans h1 h2⟩

theorem bodyKey_ne_postKeys (pfx version : String) (enc : SnapshotEnc)
    (notices : List Notice) (previousItems : List NoticeIndexItem)
    (hasErrors : Bool) (kv : String × List Nat)
    (hkv : kv ∈ bodyWrites (snapshotPrefix pfx version) enc notices
      previousItems hasErrors) :
    kv.1 ≠ inProgressKey (snapshotPrefix pfx version) ∧
    kv.1 ≠ manifestKey (snapshotPrefix pfx version) ∧
    kv.1 ≠ successKey (snapshotPrefix pfx version) ∧
    kv.1 ≠ previousPointerKey pfx ∧
    kv.1 ≠ pointerKey pfx := by
  rcases mem_bodyWrites_key _ enc notices previousItems hasErrors kv hkv with
    ⟨n, _, hk⟩ | hk | ⟨c, _, hk⟩ | ⟨g, _, hk⟩ | ⟨m, _, hk⟩ | ⟨a, _, hk⟩ <;>
    rw [hk] <;>
    refine ⟨?_, ?_, ?_, ?_, ?_⟩
  all_goals first
    | exact detailKey_ne_inProgressKey _ _
    | exact detailKey_ne_manifestKey _ _
    | exact detailKey_ne_successKey _ _
    | exact indexKey_ne_inProgressKey _ _
    | exact indexKey_ne_manifestKey _ _
    | exact indexKey_ne_successKey _ _
    | exact campusIndexKey_ne_inProgressKey _ _
    | exact campusIndexKey_ne_manifestKey _ _
    | exact campusIndexKey_ne_successKey _ _
    | exact categoryIndexKey_ne_inProgressKey _ _
    | exact categoryIndexKey_ne_manifestKey _ _
    | exact categoryIndexKey_ne_successKey _ _
    | exact metaKey_ne_inProgressKey _ _
    | exact metaKey_ne_manifestKey _ _
    | exact metaKey_ne_successKey _ _
    | exact auxKey_ne_inProgressKey _ _
    | exact auxKey_ne_manifestKey _ _
    | exact auxKey_ne_successKey _ _
    | exact spKey_ne_prevPointerKey pfx version _
    | exact spKey_ne_pointerKey pfx version _

theorem storeState_body_prefix (pfx version : String) (enc : SnapshotEnc)
    (notices : List Notice) (previousItems : List NoticeIndexItem)
    (hasErrors hasPrev : Bool)
    (hids : (notices.map fun n => n.canonicalId).Nodup)
    (tr : List (String × List Nat))
    (hpre : tr <+: writeSnapshotTrace pfx version enc notices previousItems
      hasErrors hasPrev)
    (hsc : successKey (snapshotPrefix pfx version) ∈ tr.map Prod.fst) :
    manifestKey (snapshotPrefix pfx version) ∈ tr.map Prod.fst ∧
    ∀ kv ∈ bodyWrites (snapshotPrefix pfx version) enc notices previousItems
        hasErrors,
      storeState tr kv.1 = some kv.2 := by
  have htr : writeSnapshotTrace pfx version enc notices previousItems
      hasErrors hasPrev =
      (([(inProgressKey (snapshotPrefix pfx version), ([] : List Nat))] ++
        bodyWrites (snapshotPrefix pfx version) enc notices previousItems
          hasErrors ++
        [(manifestKey (snapshotPrefix pfx version),
          enc.manifest (snapshotManifest (snapshotPrefix pfx version) version
            enc notices previousItems hasErrors))]) ++
       ((successKey (snapshotPrefix pfx version), ([] : List Nat)) ::
        ((if hasPrev then [(previousPointerKey pfx, enc.prevPointer)] else []) ++
         [(pointerKey pfx, enc.pointer version)]))) := by
    unfold writeSnapshotTrace
    simp [List.append_assoc]
  rw [htr] at hpre
  have hL1keys : ∀ e ∈ ([(inProgressKey (snapshotPrefix pfx version),
      ([] : List Nat))] ++
      bodyWrites (snapshotPrefix pfx version) enc notices previousItems
        hasErrors ++
      [(manifestKey (snapshotPrefix pfx version),
        enc.manifest (snapshotManifest (snapshotPrefix pfx version) version
          enc notices previousItems hasErrors))]),
      e.1 ≠ successKey (snapshotPrefix pfx version) := by
    intro e he
    rcases List.mem_append.mp he with he | hm
    · rcases List.mem_append.mp he with hp | hb
      · rw [List.mem_singleton] at hp
        rw [hp]
        exact fun h => successKey_ne_inProgressKey _ h.symm
      · exact (bodyKey_ne_postKeys pfx version enc notices previousItems
          hasErrors e hb).2.2.1
    · rw [List.mem_singleton] at hm
      rw [hm]
      exact manifestKey_ne_successKey _
  rcases List.mem_map.mp hsc with ⟨p, hp, hpk⟩
  have hpn : ¬ p ∈ _ := fun hmem => hL1keys p hmem hpk
  have hL1pre := seg_le_of_mem _ _ tr p hpre hp hpn
  constructor
  · have hmf : (manifestKey (snapshotPrefix pfx version),
        enc.manifest (snapshotManifest (snapshotPrefix pfx version) version
          enc notices previousItems hasErrors)) ∈ tr :=
      hL1pre.subset (List.mem_append_right _ (List.mem_singleton.mpr rfl))
    exact List.mem_map.mpr ⟨_, hmf, rfl⟩
  · intro kv hkv
    rcases prefix_drop _ tr _ hpre hL1pre with ⟨t, htr2, htR⟩
    rw [htr2]
    unfold storeState
    have hpost := bodyKey_ne_postKeys pfx version enc notices previousItems
      hasErrors kv hkv
    have htkeys : ∀ e2 ∈ t, e2.1 ≠ kv.1 := by
      intro e2 he2
      have he2R := htR.subset he2
      rcases List.mem_cons.mp he2R with rfl | he2R
      · exact fun h => hpost.2.2.1 h.symm
      · rcases List.mem_append.mp he2R with hprev | hptr
        · rcases hP : hasPrev with _ | _
          · rw [hP, if_neg (by simp)] at hprev
            cases hprev
          · rw [hP, if_pos rfl] at hprev
            rw [List.mem_singleton] at hprev
            rw [hprev]
            exact fun h => hpost.2.2.2.1 h.symm
        · rw [List.mem_singleton] at hptr
          rw [hptr]
          exact fun h => hpost.2.2.2.2 h.symm
    have hmfne : ∀ e2 ∈ [(manifestKey (snapshotPrefix pfx version),
        enc.manifest (snapshotManifest (snapshotPrefix pfx version) version
          enc notices previousItems hasErrors))], e2.1 ≠ kv.1 := by
      intro e2 he2
      rw [List.mem_singleton] at he2
      rw [he2]
      exact fun h => hpost.2.1 h.symm
    rw [mapGet_append_right_notin _ t kv.1 htkeys,
      mapGet_append_right_notin _ _ kv.1 hmfne]
    exact mapGet_append_left_found _ _ kv.1 kv.2
      (mapGet_unique _ kv.1 kv.2
        (bodyWrites_keys_nodup _ enc notices previousItems hasErrors hids)
        hkv)

theorem order_clause {α : Type} (L1 R trace tr : List (String × α)) (x : String)
    (htr : L1 ++ R = trace) (hpre : tr <+: trace) (hx : x ∈ tr.map Prod.fst)
    (hnx : ∀ e ∈ L1, e.1 ≠ x) :
    ∀ y ∈ L1.map Prod.fst, y ∈ tr.map Prod.fst := by
  rw [← htr] at hpre
  exact keys_complete_of_later L1 R tr x hpre hx hnx

/-- **C6.** Snapshot commit discipline of `LocalStorage::write_snapshot` and
`LocalStorage::load_snapshot` (key-path helpers and the index-item shape are
modelled from the spec; serialisation is an arbitrary encoder). Provided the
written notices carry distinct canonical ids: the manifest lists its entries
sorted by key; every crash prefix of the commit's write sequence that
contains the `_SUCCESS` marker also contains `_manifest.json`, and every key
the manifest lists resolves — last write wins — to bytes whose length and
hex SHA-256 match the entry; the pointer is written only after `_SUCCESS`;
within the commit the write classes land in order (the full index only after
every detail file, the meta files only after the index files, the aux files
only after the meta files, the manifest only after the aux files); and a
reader that finds no `_SUCCESS` marker under the version named by
`latest.json` — or no pointer at all — loads the empty list. -/
theorem C6_snapshot_commit (pfx version : String) (enc : SnapshotEnc)
    (notices : List Notice) (previousItems : List NoticeIndexItem)
    (hasErrors hasPrev : Bool)
    (hids : (notices.map fun n => n.canonicalId).Nodup) :
    List.Sorted (fun a b => a.key ≤ b.key)
      (snapshotManifest (snapshotPrefix pfx version) version enc notices
        previousItems hasErrors).entries ∧
    (∀ tr, tr <+: writeSnapshotTrace pfx version enc notices previousItems
        hasErrors hasPrev →
      successKey (snapshotPrefix pfx version) ∈ tr.map Prod.fst →
      manifestKey (snapshotPrefix pfx version) ∈ tr.map Prod.fst ∧
      ∀ e ∈ (snapshotManifest (snapshotPrefix pfx version) version enc
          notices previousItems hasErrors).entries,
        ∃ bs, storeState tr e.key = some bs ∧ e.bytes = bs.length ∧
          e.sha256 = sha256Hex bs) ∧
    (∀ tr, tr <+: writeSnapshotTrace pfx version enc notices previousItems
        hasErrors hasPrev →
      pointerKey pfx ∈ tr.map Prod.fst →
      successKey (snapshotPrefix pfx version) ∈ tr.map Prod.fst) ∧
    (∀ tr, tr <+: writeSnapshotTrace pfx version enc notices previousItems
        hasErrors hasPrev →
      indexKey (snapshotPrefix pfx version) "all.json" ∈ tr.map Prod.fst →
      ∀ n ∈ notices,
        detailKey (snapshotPrefix pfx version) n.canonicalId ∈ tr.map Prod.fst) ∧
    (∀ tr, tr <+: writeSnapshotTrace pfx version enc notices previousItems
        hasErrors hasPrev →
      metaKey (snapshotPrefix pfx version) "campus.json" ∈ tr.map Prod.fst →
      indexKey (snapshotPrefix pfx version) "all.json" ∈ tr.map Prod.fst ∧
      (∀ c ∈ campusKeys notices,
        campusIndexKey (snapshotPrefix pfx version) c ∈ tr.map Prod.fst) ∧
      (∀ g ∈ categoryNames notices,
        categoryIndexKey (snapshotPrefix pfx version) g ∈ tr.map Prod.fst)) ∧
    (∀ tr, tr <+: writeSnapshotTrace pfx version enc notices previousItems
        hasErrors hasPrev →
      auxKey (snapshotPrefix pfx version) "diff.json" ∈ tr.map Prod.fst →
      metaKey (snapshotPrefix pfx version) "campus.json" ∈ tr.map Prod.fst ∧
      metaKey (snapshotPrefix pfx version) "category.json" ∈ tr.map Prod.fst ∧
      metaKey (snapshotPrefix pfx version) "source.json" ∈ tr.map Prod.fst) ∧
    (∀ tr, tr <+: writeSnapshotTrace pfx version enc notices previousItems
        hasErrors hasPrev →
      manifestKey (snapshotPrefix pfx version) ∈ tr.map Prod.fst →
      auxKey (snapshotPrefix pfx version) "diff.json" ∈ tr.map Prod.fst ∧
      auxKey (snapshotPrefix pfx version) "stats.json" ∈ tr.map Prod.fst ∧
      auxKey (snapshotPrefix pfx version) "outcome.json" ∈ tr.map Prod.fst) ∧
    (∀ (state : String → Option (List Nat)) (decP : List Nat → String)
        (decI : List Nat → List NoticeIndexItem) (pfx2 : String),
      (∀ pb, state (pointerKey pfx2) = some pb →
        state (successKey (snapshotPrefix pfx2 (decP pb))) = none) →
      loadSnapshot state decP decI pfx2 = []) := by
  refine ⟨?_, ?_, ?_, ?_, ?_, ?_, ?_, ?_⟩
  · -- (1) manifest entries are sorted by key
    unfold snapshotManifest
    dsimp only
    unfold sortEntries
    exact List.sorted_insertionSort _ _
  · -- (2) crash-prefix integrity under the success marker
    intro tr hpre hsc
    have hsb := storeState_body_prefix pfx version enc notices previousItems
      hasErrors hasPrev hids tr hpre hsc
    refine ⟨hsb.1, ?_⟩
    intro e he
    rw [mem_manifest_entries] at he
    rcases he with ⟨kv, hkv, rfl⟩
    exact ⟨kv.2, hsb.2 kv hkv, rfl, rfl⟩
  · -- (3) the pointer is written only after the success marker
    intro tr hpre hptr
    have hcomplete := order_clause
      ([(inProgressKey (snapshotPrefix pfx version), ([] : List Nat))] ++
        bodyWrites (snapshotPrefix pfx version) enc notices previousItems
          hasErrors ++
        [(manifestKey (snapshotPrefix pfx version),
          enc.manifest (snapshotManifest (snapshotPrefix pfx version) version
            enc notices previousItems hasErrors)),
         (successKey (snapshotPrefix pfx version), ([] : List Nat))])
      _ _ tr (pointerKey pfx)
      (by unfold writeSnapshotTrace; simp only [List.append_assoc]; rfl) hpre hptr ?_
    · apply hcomplete
      refine List.mem_map.mpr ⟨(successKey (snapshotPrefix pfx version),
        ([] : List Nat)), ?_, rfl⟩
      exact List.mem_append_right _ (by simp)
    · intro e he
      rcases List.mem_append.mp he with he | hm
      · rcases List.mem_append.mp he with hp | hb
        · rw [List.mem_singleton] at hp
          rw [hp]
          exact spKey_ne_pointerKey pfx version _
        · exact (bodyKey_ne_postKeys pfx version enc notices previousItems
            hasErrors e hb).2.2.2.2
      · rcases List.mem_cons.mp hm with rfl | hm2
        · exact spKey_ne_pointerKey pfx version _
        · rw [List.mem_singleton] at hm2
          rw [hm2]
          exact spKey_ne_pointerKey pfx version _
  · -- (4) the full index is written only after every detail file
    intro tr hpre hix
    have hcomplete := order_clause
      ([(inProgressKey (snapshotPrefix pfx version), ([] : List Nat))] ++
        (notices.map fun n => (detailKey (snapshotPrefix pfx version)
          n.canonicalId, enc.detail n)))
      _ _ tr (indexKey (snapshotPrefix pfx version) "all.json")
      (by unfold writeSnapshotTrace bodyWrites; simp only [List.append_assoc]; rfl)
      hpre hix ?_
    · intro n hn
      apply hcomplete
      refine List.mem_map.mpr ⟨(detailKey (snapshotPrefix pfx version)
        n.canonicalId, enc.detail n), ?_, rfl⟩
      exact List.mem_append_right _ (List.mem_map_of_mem _ hn)
    · intro e he
      rcases List.mem_append.mp he with hp | hd
      · rw [List.mem_singleton] at hp
        rw [hp]
        exact fun h => indexKey_ne_inProgressKey _ "all.json" h.symm
      · rcases List.mem_map.mp hd with ⟨n, _, rfl⟩
        exact fun h => detailKey_ne_indexKey _ n.canonicalId "all.json" h
  · -- (5) the meta files are written only after the index files
    intro tr hpre hmk
    have hcomplete := order_clause
      ([(inProgressKey (snapshotPrefix pfx version), ([] : List Nat))] ++
        (notices.map fun n => (detailKey (snapshotPrefix pfx version)
          n.canonicalId, enc.detail n)) ++
        [(indexKey (snapshotPrefix pfx version) "all.json",
          enc.items (indexItems notices))] ++
        ((campusKeys notices).map fun c =>
          (campusIndexKey (snapshotPrefix pfx version) c,
           enc.items (campusItems notices c))) ++
        ((categoryNames notices).map fun g =>
          (categoryIndexKey (snapshotPrefix pfx version) g,
           enc.items (categoryItems notices g))))
      _ _ tr (metaKey (snapshotPrefix pfx version) "campus.json")
      (by unfold writeSnapshotTrace bodyWrites; simp only [List.append_assoc]; rfl)
      hpre hmk ?_
    · refine ⟨?_, ?_, ?_⟩
      · apply hcomplete
        refine List.mem_map.mpr ⟨(indexKey (snapshotPrefix pfx version)
          "all.json", enc.items (indexItems notices)), ?_, rfl⟩
        exact List.mem_append_left _ (List.mem_append_left _
          (List.mem_append_right _ (by simp)))
      · intro c hc
        apply hcomplete
        refine List.mem_map.mpr ⟨(campusIndexKey (snapshotPrefix pfx version) c,
          enc.items (campusItems notices c)), ?_, rfl⟩
        exact List.mem_append_left _
          (List.mem_append_right _ (List.mem_map_of_mem _ hc))
      · intro g hg
        apply hcomplete
        refine List.mem_map.mpr ⟨(categoryIndexKey (snapshotPrefix pfx version) g,
          enc.items (categoryItems notices g)), ?_, rfl⟩
        exact List.mem_append_right _ (List.mem_map_of_mem _ hg)
    · intro e he
      rcases List.mem_append.mp he with he | hcat
      · rcases List.mem_append.mp he with he | hcam
        · rcases List.mem_append.mp he with he | hix2
          · rcases List.mem_append.mp he with hp | hd
            · rw [List.mem_singleton] at hp
              rw [hp]
              exact fun h => metaKey_ne_inProgressKey _ "campus.json" h.symm
            · rcases List.mem_map.mp hd with ⟨n, _, rfl⟩
              exact detailKey_ne_metaKey _ n.canonicalId "campus.json"
          · rw [List.mem_singleton] at hix2
            rw [hix2]
            exact indexKey_ne_metaKey _ "all.json" "campus.json"
        · rcases List.mem_map.mp hcam with ⟨c, _, rfl⟩
          exact campusIndexKey_ne_metaKey _ c "campus.json"
      · rcases List.mem_map.mp hcat with ⟨g, _, rfl⟩
        exact categoryIndexKey_ne_metaKey _ g "campus.json"
  · -- (6) the aux files are written only after the meta files
    intro tr hpre hak
    have hcomplete := order_clause
      ([(inProgressKey (snapshotPrefix pfx version), ([] : List Nat))] ++
        (notices.map fun n => (detailKey (snapshotPrefix pfx version)
          n.canonicalId, enc.detail n)) ++
        [(indexKey (snapshotPrefix pfx version) "all.json",
          enc.items (indexItems notices))] ++
        ((campusKeys notices).map fun c =>
          (campusIndexKey (snapshotPrefix pfx version) c,
           enc.items (campusItems notices c))) ++
        ((categoryNames notices).map fun g =>
          (categoryIndexKey (snapshotPrefix pfx version) g,
           enc.items (categoryItems notices g))) ++
        [(metaKey (snapshotPrefix pfx version) "campus.json", enc.metaCampus),
         (metaKey (snapshotPrefix pfx version) "category.json", enc.metaCategory),
         (metaKey (snapshotPrefix pfx version) "source.json", enc.metaSource)])
      _ _ tr (auxKey (snapshotPrefix pfx version) "diff.json")
      (by unfold writeSnapshotTrace bodyWrites; simp only [List.append_assoc]; rfl)
      hpre hak ?_
    · refine ⟨?_, ?_, ?_⟩
      · apply hcomplete
        refine List.mem_map.mpr ⟨(metaKey (snapshotPrefix pfx version)
          "campus.json", enc.metaCampus),
          List.mem_append_right _ (by simp), rfl⟩
      · apply hcomplete
        refine List.mem_map.mpr ⟨(metaKey (snapshotPrefix pfx version)
          "category.json", enc.metaCategory),
          List.mem_append_right _ (by simp), rfl⟩
      · apply hcomplete
        refine List.mem_map.mpr ⟨(metaKey (snapshotPrefix pfx version)
          "source.json", enc.metaSource),
          List.mem_append_right _ (by simp), rfl⟩
    · intro e he
      rcases List.mem_append.mp he with he | hmeta
      · rcases List.mem_append.mp he with he | hcat
        · rcases List.mem_append.mp he with he | hcam
          · rcases List.mem_append.mp he with he | hix2
            · rcases List.mem_append.mp he with hp | hd
              · rw [List.mem_singleton] at hp
                rw [hp]
                exact fun h => auxKey_ne_inProgressKey _ "diff.json" h.symm
              · rcases List.mem_map.mp hd with ⟨n, _, rfl⟩
                exact detailKey_ne_auxKey _ n.canonicalId "diff.json"
            · rw [List.mem_singleton] at hix2
              rw [hix2]
              exact indexKey_ne_auxKey _ "all.json" "diff.json"
          · rcases List.mem_map.mp hcam with ⟨c, _, rfl⟩
            exact campusIndexKey_ne_auxKey _ c "diff.json"
        · rcases List.mem_map.mp hcat with ⟨g, _, rfl⟩
          exact categoryIndexKey_ne_auxKey _ g "diff.json"
      · simp only [List.mem_cons, List.not_mem_nil, or_false] at hmeta
        rcases hmeta with rfl | rfl | rfl <;>
          exact metaKey_ne_auxKey _ _ "diff.json"
  · -- (7) the manifest is written only after the aux files
    intro tr hpre hmf
    have hcomplete := order_clause
      ([(inProgressKey (snapshotPrefix pfx version), ([] : List Nat))] ++
        bodyWrites (snapshotPrefix pfx version) enc notices previousItems
          hasErrors)
      _ _ tr (manifestKey (snapshotPrefix pfx version))
      (by unfold writeSnapshotTrace; simp only [List.append_assoc]; rfl) hpre hmf ?_
    · refine ⟨?_, ?_, ?_⟩
      · apply hcomplete
        refine List.mem_map.mpr ⟨(auxKey (snapshotPrefix pfx version)
          "diff.json",
          enc.auxDiff (snapshotDiff previousItems (indexItems notices))),
          List.mem_append_right _ ?_, rfl⟩
        unfold bodyWrites
        simp
      · apply hcomplete
        refine List.mem_map.mpr ⟨(auxKey (snapshotPrefix pfx version)
          "stats.json", enc.auxStats), List.mem_append_right _ ?_, rfl⟩
        unfold bodyWrites
        simp
      · apply hcomplete
        refine List.mem_map.mpr ⟨(auxKey (snapshotPrefix pfx version)
          "outcome.json", enc.auxOutcome), List.mem_append_right _ ?_, rfl⟩
        unfold bodyWrites
        simp
    · intro e he
      rcases List.mem_append.mp he with hp | hb
      · rw [List.mem_singleton] at hp
        rw [hp]
        exact fun h => manifestKey_ne_inProgressKey _ h.symm
      · exact (bodyKey_ne_postKeys pfx version enc notices previousItems
          hasErrors e hb).2.1
  · -- (8) the reader treats a version without the success marker as absent
    intro state decP decI pfx2 h
    unfold loadSnapshot
    rcases hpb : state (pointerKey pfx2) with _ | pb
    · rfl
    · dsimp only
      rw [h pb hpb]
      simp

/-! C6 witness fixtures: a trivial encoder and two notices with distinct
canonical ids. -/

def witEnc : SnapshotEnc :=
  { detail := fun _ => [123], items := fun l => [l.length],
    metaCampus := [1], metaCategory := [2], metaSource := [3],
    auxDiff := fun _ => [4], auxStats := [5], auxOutcome := [6],
    auxErrors := [7], manifest := fun m => [m.entries.length],
    pointer := fun _ => [8], prevPointer := [9] }

def witNoticeA : Notice :=
  { campus := "c", college := "", departmentId := "d", departmentName := "D",
    boardId := "b", boardName := "General", title := "T1", author := "",
    date := "2024-01-15", link := "https://u.example/1", sourceId := none,
    isPinned := false }

def witNoticeB : Notice :=
  { witNoticeA with link := "https://u.example/2", title := "T2" }

/-- Witness for C6 at a concrete two-notice snapshot commit. -/
theorem C6_snapshot_commit_witness :
    (([witNoticeA, witNoticeB].map fun n => n.canonicalId).Nodup) ∧
    List.Sorted (fun a b => a.key ≤ b.key)
      (snapshotManifest (snapshotPrefix "uRing" "20240101000000-ff")
        "20240101000000-ff" witEnc [witNoticeA, witNoticeB] [] true
        ).entries ∧
    (∀ (state : String → Option (List Nat)) (decP : List Nat → String)
        (decI : List Nat → List NoticeIndexItem) (pfx2 : String),
      (∀ pb, state (pointerKey pfx2) = some pb →
        state (successKey (snapshotPrefix pfx2 (decP pb))) = none) →
      loadSnapshot state decP decI pfx2 = []) :=
  ⟨by decide,
   (C6_snapshot_commit "uRing" "20240101000000-ff" witEnc
     [witNoticeA, witNoticeB] [] true true (by decide)).1,
   (C6_snapshot_commit "uRing" "20240101000000-ff" witEnc
     [witNoticeA, witNoticeB] [] true true (by decide)).2.2.2.2.2.2.2⟩

end URing
